import Mathlib

/-!
# Verification of the storage-engine core (buffer pool / LRU-K replacer /
  extendible hash table / B+ tree pages and index)

This file is a shallow embedding, in Lean 4, of the C++ sources of the
repository:

* `LRUKReplacer` (src/unnamed/part_000, `lru_k_replacer.cpp`),
* `ExtendibleHashTable`
  (src/project1-submission/.../container/hash/extendible_hash_table.cpp),
* `BufferPoolManagerInstance` (src/unnamed/part_000,
  `buffer_pool_manager_instance.cpp`),
* `BPlusTreeLeafPage` / `BPlusTreeInternalPage`
  (src/project2-submission/.../storage/page/b_plus_tree_leaf_page.cpp and
  b_plus_tree_internal_page.cpp),
* `BPlusTree` (src/unnamed/part_001, `b_plus_tree.cpp`).

Modelling conventions:
* C++ `size_t` arithmetic is modelled on `Nat`; where the width matters
  (`std::numeric_limits<size_t>::max()`, `static_cast<size_t>` of a signed
  value) the modulus `2 ^ 64` is explicit.
* `frame_id_t` and `page_id_t` are `int32_t` in the source and are modelled
  as `Int` (overflow of these counters is never approached by any statement
  proved here).
* `std::unordered_map` is modelled as an association list whose order is the
  (unspecified) iteration order of the container; every theorem about code
  that iterates a map is proved for an arbitrary list order.
* Fallible code (`throw bustub::Exception`, `BUSTUB_ASSERT`) is modelled
  with `Except String`.
-/

/-! ## Extendible hash table, from
`src/project1-submission/bustub_initial/src/container/hash/extendible_hash_table.cpp`.

`std::shared_ptr<Bucket>` sharing is modelled by a slab: `store` is the list
of all buckets ever allocated and the directory holds indices into it, so
pointer equality `dir_[i] == bucket` is index equality.  `std::hash` is an
abstract parameter `hash : K → Nat`.  The bit operations of the source are
modelled with `% 2 ^ _` (for `& ((1 << d) - 1)`) and `Nat.testBit` (for
`(x >> d) & 1`). -/

/-! ## Buffer pool manager, from `buffer_pool_manager_instance.cpp` in
src/unnamed/part_000.

Frames hold `Page` objects `{page_id_, pin_count_, is_dirty_}` plus the data
buffer, modelled as an abstract `Nat`.  `ResetMemory` zeroes it.  The disk is
an association list `page_id → data` mutated only by `WritePage`.  The page
table is the embedded `ExtendibleHashTable<page_id_t, frame_id_t>` with
`std::hash<int>` modelled as the `size_t` cast; its `Insert` retry loop is
fuel-indexed as above, so the pool operations take the same fuel
parameter. -/

namespace LRUK

/-- `std::numeric_limits<size_t>::max()`. -/
def sizeTMax : Nat := 2 ^ 64 - 1

/-- `static_cast<size_t>` of a signed value (two's-complement conversion). -/
def sizeTofInt (i : Int) : Nat := (i % (2 ^ 64)).toNat

/-- The per-frame record of `LRUKReplacer`: access history (oldest first;
`push_back` appends, `pop_front` drops the head), the timestamp of the first
recorded access, and the evictable flag.  A freshly value-initialized entry
(created by `frame_table_[frame_id]`) is `⟨[], 0, false⟩`. -/
structure FrameInfo where
  history : List Nat
  earliest_timestamp : Nat
  is_evictable : Bool
  deriving Repr, DecidableEq, Inhabited

/-- State of `LRUKReplacer`.  `frame_table` is the association list modelling
`std::unordered_map<frame_id_t, FrameInfo> frame_table_`; its order stands for
the container's unspecified iteration order. -/
structure Replacer where
  current_timestamp : Nat
  curr_size : Nat
  replacer_size : Nat
  k : Nat
  frame_table : List (Int × FrameInfo)
  deriving Repr, DecidableEq

/-- A fresh replacer, from the `LRUKReplacer(num_frames, k)` constructor. -/
def Replacer.mkNew (num_frames k : Nat) : Replacer :=
  { current_timestamp := 0, curr_size := 0, replacer_size := num_frames,
    k := k, frame_table := [] }

/-- `LRUKReplacer::CalculateBackwardKDistance`.  `history.front()` on a list
known (at that program point) to be nonempty is modelled with `headD 0`. -/
def Replacer.CalculateBackwardKDistance (rep : Replacer) (fi : FrameInfo) : Nat :=
  if fi.history.length < rep.k then sizeTMax
  else rep.current_timestamp - fi.history.headD 0

/-- The body of the candidate-selection loop of `LRUKReplacer::Evict`, for a
single entry `(fid, fi)` of `frame_table_`.  The C++ sentinel
`candidate == -1` is modelled by `Option` (no valid tracked frame id is `-1`:
`RecordAccess` rejects negative ids through the `size_t` cast).  A candidate
is a triple `(fid, candidate_distance, candidate_earliest)`. -/
def evictStep (rep : Replacer) (fid : Int) (fi : FrameInfo)
    (cand : Option (Int × Nat × Nat)) : Option (Int × Nat × Nat) :=
  if ¬ fi.is_evictable then cand
  else
    let distance := rep.CalculateBackwardKDistance fi
    let earliest := fi.earliest_timestamp
    match cand with
    | none => some (fid, distance, earliest)
    | some (cf, cd, ce) =>
      if cd < distance then some (fid, distance, earliest)
      else if distance = cd then
        if distance = sizeTMax then
          if earliest < ce then some (fid, cd, earliest)
          else some (cf, cd, ce)
        else some (cf, cd, ce)
      else some (cf, cd, ce)

/-- The `for (const auto &[fid, frame_info] : frame_table_)` loop of
`LRUKReplacer::Evict`, folding `evictStep` over the table. -/
def evictLoop (rep : Replacer) :
    List (Int × FrameInfo) → Option (Int × Nat × Nat) → Option (Int × Nat × Nat)
  | [], cand => cand
  | (fid, fi) :: rest, cand => evictLoop rep rest (evictStep rep fid fi cand)

/-- Erase the (unique) entry of an association list with the given key,
modelling `frame_table_.erase(candidate)`. -/
def eraseEntry (l : List (Int × FrameInfo)) (fid : Int) : List (Int × FrameInfo) :=
  match l with
  | [] => []
  | (f, x) :: r => if f = fid then r else (f, x) :: eraseEntry r fid

/-- `LRUKReplacer::Evict`.  Returns the evicted frame id and the new state,
or `none` for the `return false` paths. -/
def Replacer.Evict (rep : Replacer) : Option (Int × Replacer) :=
  if rep.curr_size = 0 then none
  else
    match evictLoop rep rep.frame_table none with
    | some (cf, _, _) =>
        some (cf, { rep with frame_table := eraseEntry rep.frame_table cf,
                             curr_size := rep.curr_size - 1 })
    | none => none

/-- Replace the value stored under `fid`, or append a fresh binding, modelling
`frame_table_[frame_id]` followed by in-place mutation. -/
def upsert (l : List (Int × FrameInfo)) (fid : Int) (fi : FrameInfo) :
    List (Int × FrameInfo) :=
  match l with
  | [] => [(fid, fi)]
  | (f, x) :: r => if f = fid then (fid, fi) :: r else (f, x) :: upsert r fid fi

/-- `LRUKReplacer::RecordAccess`.  Note the source's validity check is
`static_cast<size_t>(frame_id) > replacer_size_` (so `frame_id ==
replacer_size_` is accepted). -/
def Replacer.RecordAccess (rep : Replacer) (frame_id : Int) : Except String Replacer :=
  if sizeTofInt frame_id > rep.replacer_size then .error "frame_id is invalid"
  else
    let ts := rep.current_timestamp + 1
    let fi := ((rep.frame_table.lookup frame_id).getD default)
    let h1 := fi.history ++ [ts]
    let h2 := if h1.length > rep.k then h1.tail else h1
    let fi2 : FrameInfo := { fi with history := h2 }
    let fi3 := if h2.length = 1 then { fi2 with earliest_timestamp := ts } else fi2
    .ok { rep with current_timestamp := ts, frame_table := upsert rep.frame_table frame_id fi3 }

/-- `LRUKReplacer::SetEvictable`.  Same boundary check as `RecordAccess`. -/
def Replacer.SetEvictable (rep : Replacer) (frame_id : Int) (set_evictable : Bool) :
    Except String Replacer :=
  if sizeTofInt frame_id > rep.replacer_size then .error "frame_id is invalid"
  else
    match rep.frame_table.lookup frame_id with
    | none => .ok rep
    | some fi =>
      if fi.is_evictable = set_evictable then .ok rep
      else
        .ok { rep with
              frame_table := upsert rep.frame_table frame_id { fi with is_evictable := set_evictable },
              curr_size := if set_evictable then rep.curr_size + 1 else rep.curr_size - 1 }

/-- `LRUKReplacer::Remove`.  The source has no frame-id range check here. -/
def Replacer.RemoveFrame (rep : Replacer) (frame_id : Int) : Except String Replacer :=
  match rep.frame_table.lookup frame_id with
  | none => .ok rep
  | some fi =>
    if ¬ fi.is_evictable then .error "Cannot remove non-evictable frame"
    else .ok { rep with frame_table := eraseEntry rep.frame_table frame_id,
                        curr_size := rep.curr_size - 1 }

/-- `LRUKReplacer::Size`. -/
def Replacer.Size (rep : Replacer) : Nat := rep.curr_size

/-- Well-formedness of a replacer state; all clauses hold in every state
reachable through the public interface (histories only ever grow by the
current timestamp and are capped at `k`; `curr_size_` counts the evictable
tracked frames; negative ids are rejected by the `size_t` cast; the logical
clock would take `2 ^ 64` accesses to reach `sizeTMax`). -/
structure WF (rep : Replacer) : Prop where
  keys_nodup : (rep.frame_table.map Prod.fst).Nodup
  keys_nonneg : ∀ e ∈ rep.frame_table, 0 ≤ e.1
  size_eq : rep.curr_size = (rep.frame_table.filter (fun e => e.2.is_evictable)).length
  hist_nonempty : ∀ e ∈ rep.frame_table, e.2.history ≠ []
  earliest_head : ∀ e ∈ rep.frame_table,
    e.2.history.length < rep.k → e.2.earliest_timestamp = e.2.history.headD 0
  ts_bounds : ∀ e ∈ rep.frame_table, ∀ t ∈ e.2.history,
    1 ≤ t ∧ t ≤ rep.current_timestamp
  now_lt : rep.current_timestamp < sizeTMax

/-- The candidate triple the loop builds for a table entry. -/
def candOf (rep : Replacer) (e : Int × FrameInfo) : Int × Nat × Nat :=
  (e.1, rep.CalculateBackwardKDistance e.2, e.2.earliest_timestamp)

/-- `r` is at least as good an eviction candidate as `c`: its distance is no
smaller, and among `+∞`-distance candidates its `earliest` is no larger. -/
def Dominates (r c : Int × Nat × Nat) : Prop :=
  c.2.1 ≤ r.2.1 ∧ (r.2.1 = sizeTMax → c.2.1 = sizeTMax → r.2.2 ≤ c.2.2)

end LRUK

/-- Concrete application of `C1_lruk_evict_policy`: a two-frame state where
frame 0 is evictable (one access) and frame 1 is pinned. -/
def repC1 : LRUK.Replacer :=
  { current_timestamp := 2, curr_size := 1, replacer_size := 4, k := 2,
    frame_table := [(0, ⟨[1], 1, true⟩), (1, ⟨[2], 2, false⟩)] }

namespace EHT

/-- A bucket: capacity `size_`, local depth `depth_`, entries `list_` in
insertion order. -/
structure Bucket (K V : Type) where
  size : Nat
  depth : Nat
  list : List (K × V)
  deriving Repr, DecidableEq

/-- The `for` loop of `Bucket::Find`: first entry with an equal key. -/
def assocFind {K V : Type} [DecidableEq K] : List (K × V) → K → Option V
  | [], _ => none
  | (k', v) :: r, k => if k' = k then some v else assocFind r k

/-- The `for` loop of `Bucket::Remove`: erase the first entry with an equal
key, reporting whether one was found. -/
def assocErase {K V : Type} [DecidableEq K] : List (K × V) → K → Bool × List (K × V)
  | [], _ => (false, [])
  | (k', v) :: r, k =>
    if k' = k then (true, r)
    else
      let p := assocErase r k
      (p.1, (k', v) :: p.2)

/-- The first `for` loop of `Bucket::Insert`: overwrite the value of the
first entry with an equal key, or report that none exists. -/
def assocOverwrite {K V : Type} [DecidableEq K] : List (K × V) → K → V → Option (List (K × V))
  | [], _, _ => none
  | (k', v') :: r, k, v =>
    if k' = k then some ((k', v) :: r)
    else (assocOverwrite r k v).map (fun r' => (k', v') :: r')

/-- `Bucket::IsFull`. -/
def Bucket.IsFull {K V : Type} (b : Bucket K V) : Bool := b.list.length == b.size

/-- `Bucket::Find`. -/
def Bucket.findKey {K V : Type} [DecidableEq K] (b : Bucket K V) (key : K) : Option V :=
  assocFind b.list key

/-- `Bucket::Remove`. -/
def Bucket.removeKey {K V : Type} [DecidableEq K] (b : Bucket K V) (key : K) :
    Bool × Bucket K V :=
  let p := assocErase b.list key
  (p.1, { b with list := p.2 })

/-- `Bucket::Insert`: overwrite if the key exists, reject if full, else
append; the flag is the C++ return value. -/
def Bucket.insertKV {K V : Type} [DecidableEq K] (b : Bucket K V) (key : K) (value : V) :
    Bool × Bucket K V :=
  match assocOverwrite b.list key value with
  | some l' => (true, { b with list := l' })
  | none =>
    if b.IsFull then (false, b)
    else (true, { b with list := b.list ++ [(key, value)] })

/-- State of `ExtendibleHashTable`: the directory holds slab indices. -/
structure Table (K V : Type) where
  global_depth : Nat
  bucket_size : Nat
  num_buckets : Nat
  dir : List Nat
  store : List (Bucket K V)
  deriving Repr, DecidableEq

/-- The constructor `ExtendibleHashTable(bucket_size)`. -/
def Table.mkNew (K V : Type) (bucket_size : Nat) : Table K V :=
  { global_depth := 0, bucket_size := bucket_size, num_buckets := 1,
    dir := [0], store := [⟨bucket_size, 0, []⟩] }

/-- The bucket a slab index refers to (total, with a junk default; every
index reachable through the directory is in range). -/
def Table.bucketAt {K V : Type} (t : Table K V) (bid : Nat) : Bucket K V :=
  t.store.getD bid ⟨0, 0, []⟩

/-- `IndexOf`: `hash(key) & ((1 << global_depth_) - 1)`. -/
def Table.IndexOf {K V : Type} (hash : K → Nat) (t : Table K V) (key : K) : Nat :=
  hash key % 2 ^ t.global_depth

/-- `ExtendibleHashTable::Find`. -/
def Table.findKey {K V : Type} [DecidableEq K] (hash : K → Nat) (t : Table K V) (key : K) :
    Option V :=
  (t.bucketAt (t.dir.getD (Table.IndexOf hash t key) 0)).findKey key

/-- `ExtendibleHashTable::Remove`. -/
def Table.removeKey {K V : Type} [DecidableEq K] (hash : K → Nat) (t : Table K V) (key : K) :
    Bool × Table K V :=
  let idx := Table.IndexOf hash t key
  let bid := t.dir.getD idx 0
  let p := (t.bucketAt bid).removeKey key
  (p.1, { t with store := t.store.set bid p.2 })

/-- One step of the redistribution `while` loop of `SplitBucket`: an entry
whose hash has bit `old_depth` set is inserted into the new bucket and erased
from the old one; the others stay (in order). -/
def splitStep {K V : Type} [DecidableEq K] (hash : K → Nat) (old_depth : Nat)
    (acc : List (K × V) × Bucket K V) (item : K × V) : List (K × V) × Bucket K V :=
  if Nat.testBit (hash item.1) old_depth then (acc.1, (acc.2.insertKV item.1 item.2).2)
  else (acc.1 ++ [item], acc.2)

/-- `ExtendibleHashTable::SplitBucket(bucket, bucket_idx)` (the
`bucket_idx` parameter is unused in the source).  A fresh slab index is
allocated for the sibling; both depths are incremented; the old bucket's
items are redistributed on bit `old_depth` of their hash; directory entries
that point at the old bucket and have bit `old_depth` set are rewired. -/
def Table.SplitBucket {K V : Type} [DecidableEq K] (hash : K → Nat) (t : Table K V)
    (bid : Nat) : Table K V :=
  let b := t.bucketAt bid
  let newid := t.store.length
  let old_depth := b.depth
  let nb0 : Bucket K V := { size := t.bucket_size, depth := old_depth + 1, list := [] }
  let p := b.list.foldl (splitStep hash old_depth) ([], nb0)
  let b' : Bucket K V := { b with depth := old_depth + 1, list := p.1 }
  let dir' := t.dir.mapIdx (fun i e =>
    if e = bid ∧ Nat.testBit i old_depth then newid else e)
  { t with num_buckets := t.num_buckets + 1,
           dir := dir',
           store := t.store.set bid b' ++ [p.2] }

/-- The `while (true)` retry loop of `ExtendibleHashTable::Insert`,
fuel-indexed (each iteration either inserts into the target bucket or
doubles/splits and retries).  Running out of fuel returns the state built so
far. -/
def Table.InsertLoop {K V : Type} [DecidableEq K] (hash : K → Nat) :
    Nat → Table K V → K → V → Table K V
  | 0, t, _, _ => t
  | fuel + 1, t, key, value =>
    let idx := Table.IndexOf hash t key
    let bid := t.dir.getD idx 0
    let p := (t.bucketAt bid).insertKV key value
    if p.1 then { t with store := t.store.set bid p.2 }
    else
      let t1 :=
        if (t.bucketAt bid).depth = t.global_depth then
          { t with global_depth := t.global_depth + 1, dir := t.dir ++ t.dir }
        else t
      let t2 := Table.SplitBucket hash t1 bid
      Table.InsertLoop hash fuel t2 key value

/-- States of the extendible hash table reachable from the freshly
constructed table by any sequence of `Insert` (with any amount of fuel for
its retry loop), `Remove` and `Find` (`Find` does not mutate the state). -/
inductive Reachable {K V : Type} [DecidableEq K] (hash : K → Nat) (bucket_size : Nat) :
    Table K V → Prop
  | init : Reachable hash bucket_size (Table.mkNew K V bucket_size)
  | insert (t : Table K V) (fuel : Nat) (key : K) (value : V) :
      Reachable hash bucket_size t →
      Reachable hash bucket_size (Table.InsertLoop hash fuel t key value)
  | remove (t : Table K V) (key : K) :
      Reachable hash bucket_size t →
      Reachable hash bucket_size (Table.removeKey hash t key).2
  | find (t : Table K V) (key : K) :
      Reachable hash bucket_size t → Reachable hash bucket_size t

/-- The inductive invariant of the table.  Beyond the claimed directory-size
and key-placement properties it carries the aliasing structure (directory
entries share a bucket exactly when they agree modulo `2 ^ local_depth`),
bucket capacities, and per-bucket key uniqueness — all needed for
preservation. -/
structure Inv {K V : Type} (hash : K → Nat) (t : Table K V) : Prop where
  dir_len : t.dir.length = 2 ^ t.global_depth
  bids_lt : ∀ bid ∈ t.dir, bid < t.store.length
  depth_le : ∀ bid ∈ t.dir, (t.bucketAt bid).depth ≤ t.global_depth
  alias_cong : ∀ i j, i < t.dir.length → j < t.dir.length →
    t.dir.getD i 0 = t.dir.getD j 0 →
    i % 2 ^ (t.bucketAt (t.dir.getD i 0)).depth = j % 2 ^ (t.bucketAt (t.dir.getD i 0)).depth
  cong_alias : ∀ i j, i < t.dir.length → j < t.dir.length →
    i % 2 ^ (t.bucketAt (t.dir.getD i 0)).depth = j % 2 ^ (t.bucketAt (t.dir.getD i 0)).depth →
    t.dir.getD j 0 = t.dir.getD i 0
  placement : ∀ i, i < t.dir.length →
    ∀ item ∈ (t.bucketAt (t.dir.getD i 0)).list,
      hash item.1 % 2 ^ (t.bucketAt (t.dir.getD i 0)).depth =
        i % 2 ^ (t.bucketAt (t.dir.getD i 0)).depth
  keys_nodup : ∀ bid, bid < t.store.length →
    ((t.store.getD bid ⟨0, 0, []⟩).list.map Prod.fst).Nodup
  cap_le : ∀ bid, bid < t.store.length →
    (t.store.getD bid ⟨0, 0, []⟩).list.length ≤ (t.store.getD bid ⟨0, 0, []⟩).size
  cap_eq : ∀ bid, bid < t.store.length →
    (t.store.getD bid ⟨0, 0, []⟩).size = t.bucket_size

end EHT

namespace EHT

variable {K V : Type} [DecidableEq K]

/-- No entry with key `k` is stored in any directory-referenced bucket. -/
def NoKeyDir (t : Table K V) (k : K) : Prop :=
  ∀ i, i < t.dir.length → ∀ it ∈ (t.bucketAt (t.dir.getD i 0)).list, it.1 ≠ k

end EHT

/-- A concrete reachable table: bucket size 2, identity hash, inserting keys
with hashes `0b000, 0b100, 0b010, 0b110` (spec §8 scenario 2), one key
removed again. -/
def tC6 : EHT.Table Nat Nat :=
  (EHT.Table.removeKey id (EHT.Table.InsertLoop id 8
    (EHT.Table.InsertLoop id 8 (EHT.Table.InsertLoop id 8 (EHT.Table.InsertLoop id 8
      (EHT.Table.mkNew Nat Nat 2) 0 100) 4 101) 2 102) 6 103) 4).2

namespace BPM

/-- `INVALID_PAGE_ID`. -/
def INVALID_PAGE_ID : Int := -1

/-- A frame's `Page` object.  A default-constructed page (fresh pool, or
after `ResetMemory` in `DeletePgImp`) is `⟨INVALID_PAGE_ID, 0, false, 0⟩`. -/
structure Page where
  page_id : Int
  pin_count : Int
  is_dirty : Bool
  data : Nat
  deriving Repr, DecidableEq

def defaultPage : Page := ⟨INVALID_PAGE_ID, 0, false, 0⟩

/-- `std::hash<page_id_t>` (identity cast to `size_t` on the target
platform). -/
def hashPid : Int → Nat := LRUK.sizeTofInt

/-- `DiskManager::WritePage` on the modelled disk. -/
def diskWrite (disk : List (Int × Nat)) (pid : Int) (data : Nat) : List (Int × Nat) :=
  match disk with
  | [] => [(pid, data)]
  | (p, x) :: r => if p = pid then (pid, data) :: r else (p, x) :: diskWrite r pid data

/-- `DiskManager::ReadPage` on the modelled disk (unwritten pages read as
zeroes). -/
def diskRead (disk : List (Int × Nat)) (pid : Int) : Nat :=
  match disk with
  | [] => 0
  | (p, x) :: r => if p = pid then x else diskRead r pid

/-- State of `BufferPoolManagerInstance`. -/
structure State where
  pool_size : Nat
  pages : List Page
  next_page_id : Int
  free_list : List Nat
  page_table : EHT.Table Int Nat
  repl : LRUK.Replacer
  disk : List (Int × Nat)
  deriving Repr, DecidableEq

/-- Step 1 of `NewPgImp` / Step 2 of `FetchPgImp` (the same block is written
out twice in the source): pop the free list, else evict; on eviction flush a
dirty victim via `WritePage`, clear its dirty bit, and remove its page-table
entry. -/
def State.findFrame (s : State) : Option (Nat × State) :=
  match s.free_list with
  | f :: rest => some (f, { s with free_list := rest })
  | [] =>
    match s.repl.Evict with
    | some (fid, rep2) =>
      let f := fid.toNat
      let old := s.pages.getD f defaultPage
      let s1 := { s with repl := rep2 }
      let s2 := if old.is_dirty then { s1 with disk := diskWrite s1.disk old.page_id old.data, pages := s1.pages.set f { old with is_dirty := false } } else s1
      some (f, { s2 with page_table := (s2.page_table.removeKey hashPid old.page_id).2 })
    | none => none

/-- `BufferPoolManagerInstance::NewPgImp`.  Returns `none` (null with
`*page_id = INVALID_PAGE_ID`) or the fresh page id and frame. -/
def State.NewPgImp (fuel : Nat) (s : State) : Except String (Option (Int × Nat) × State) :=
  match s.findFrame with
  | none => .ok (none, s)
  | some (f, s3) =>
    let pid := s3.next_page_id
    let s4 := { s3 with next_page_id := s3.next_page_id + 1 }
    let s5 := { s4 with pages := s4.pages.set f { page_id := pid, pin_count := 1, is_dirty := false, data := 0 } }
    let s6 := { s5 with page_table := EHT.Table.InsertLoop hashPid fuel s5.page_table pid f }
    match s6.repl.RecordAccess (Int.ofNat f) with
    | .error e => .error e
    | .ok r1 =>
      match r1.SetEvictable (Int.ofNat f) false with
      | .error e => .error e
      | .ok r2 => .ok (some (pid, f), { s6 with repl := r2 })

/-- `BufferPoolManagerInstance::FetchPgImp`. -/
def State.FetchPgImp (fuel : Nat) (s : State) (page_id : Int) :
    Except String (Option Nat × State) :=
  match s.page_table.findKey hashPid page_id with
  | some f =>
    let p := s.pages.getD f defaultPage
    let s1 := { s with pages := s.pages.set f { p with pin_count := p.pin_count + 1 } }
    match s1.repl.RecordAccess (Int.ofNat f) with
    | .error e => .error e
    | .ok r1 =>
      match r1.SetEvictable (Int.ofNat f) false with
      | .error e => .error e
      | .ok r2 => .ok (some f, { s1 with repl := r2 })
  | none =>
    match s.findFrame with
    | none => .ok (none, s)
    | some (f, s3) =>
      let s5 := { s3 with pages := s3.pages.set f { page_id := page_id, pin_count := 1, is_dirty := false, data := diskRead s3.disk page_id } }
      let s6 := { s5 with page_table := EHT.Table.InsertLoop hashPid fuel s5.page_table page_id f }
      match s6.repl.RecordAccess (Int.ofNat f) with
      | .error e => .error e
      | .ok r1 =>
        match r1.SetEvictable (Int.ofNat f) false with
        | .error e => .error e
        | .ok r2 => .ok (some f, { s6 with repl := r2 })

/-- `BufferPoolManagerInstance::UnpinPgImp`. -/
def State.UnpinPgImp (s : State) (page_id : Int) (is_dirty : Bool) :
    Except String (Bool × State) :=
  match s.page_table.findKey hashPid page_id with
  | none => .ok (false, s)
  | some f =>
    let p := s.pages.getD f defaultPage
    if p.pin_count ≤ 0 then .ok (false, s)
    else
      let p2 := { p with pin_count := p.pin_count - 1 }
      let p3 := if is_dirty then { p2 with is_dirty := true } else p2
      let s1 := { s with pages := s.pages.set f p3 }
      if p3.pin_count = 0 then
        match s1.repl.SetEvictable (Int.ofNat f) true with
        | .error e => .error e
        | .ok r => .ok (true, { s1 with repl := r })
      else .ok (true, s1)

end BPM

/-- A one-page pool used to instantiate the buffer-pool theorems: page 5 is
resident in frame 0 with pin count 1. -/
def sC7 : BPM.State :=
  { pool_size := 1,
    pages := [⟨5, 1, false, 7⟩],
    next_page_id := 6,
    free_list := [],
    page_table := { global_depth := 0, bucket_size := 4, num_buckets := 1,
                    dir := [0], store := [⟨4, 0, [(5, 0)]⟩] },
    repl := { current_timestamp := 1, curr_size := 0, replacer_size := 1, k := 2,
              frame_table := [(0, ⟨[1], 1, false⟩)] },
    disk := [] }

/-- A full one-frame pool whose only frame holds dirty page 9 and is
evictable: the next `NewPage`/`FetchPage` must evict it. -/
def sC2 : BPM.State :=
  { pool_size := 1,
    pages := [⟨9, 0, true, 42⟩],
    next_page_id := 10,
    free_list := [],
    page_table := EHT.Table.mkNew Int Nat 4,
    repl := { current_timestamp := 2, curr_size := 1, replacer_size := 1, k := 2, frame_table := [(0, ⟨[1], 1, true⟩)] },
    disk := [] }

def vicC2 : BPM.Page := ⟨9, 0, true, 42⟩

def repl2C2 : LRUK.Replacer :=
  { current_timestamp := 2, curr_size := 0, replacer_size := 1, k := 2, frame_table := [] }

namespace BPT

/-- `GenericComparator` on the `Int` key instantiation: negative / zero /
positive for less / equal / greater. -/
def cmpInt (a b : Int) : Int := if a < b then -1 else if b < a then 1 else 0

/-- `BPlusTreeLeafPage` (Int keys, `RID` values modelled as `Nat`): header
fields plus the live prefix of `array_` (`GetSize()` is its length). -/
structure LeafPage where
  page_id : Int
  parent_page_id : Int
  max_size : Int
  next_page_id : Int
  array : List (Int × Nat)
  deriving Repr, DecidableEq

/-- `BPlusTreeInternalPage` (values are child page ids). -/
structure InternalPage where
  page_id : Int
  parent_page_id : Int
  max_size : Int
  array : List (Int × Int)
  deriving Repr, DecidableEq

def LeafPage.GetSize (p : LeafPage) : Int := p.array.length

def InternalPage.GetSize (p : InternalPage) : Int := p.array.length

/-- `BPlusTreeLeafPage::KeyAt`: `KeyType key{}` then assign only in range. -/
def LeafPage.KeyAt (p : LeafPage) (index : Int) : Int :=
  if 0 ≤ index ∧ index < p.GetSize then (p.array.getD index.toNat (0, 0)).1 else 0

/-- `BPlusTreeLeafPage::ValueAt`: in range returns the stored value, else
`ValueType{}`. -/
def LeafPage.ValueAt (p : LeafPage) (index : Int) : Nat :=
  if 0 ≤ index ∧ index < p.GetSize then (p.array.getD index.toNat (0, 0)).2 else 0

/-- `BPlusTreeInternalPage::KeyAt`. -/
def InternalPage.KeyAt (p : InternalPage) (index : Int) : Int :=
  if 0 ≤ index ∧ index < p.GetSize then (p.array.getD index.toNat (0, 0)).1 else 0

/-- `BPlusTreeInternalPage::ValueAt`: in range returns the stored child id,
else `INVALID_PAGE_ID`. -/
def InternalPage.ValueAt (p : InternalPage) (index : Int) : Int :=
  if 0 ≤ index ∧ index < p.GetSize then (p.array.getD index.toNat (0, 0)).2
  else BPM.INVALID_PAGE_ID

/-- Modelled from the spec: `GetMinSize` is implemented in
`b_plus_tree_page.cpp`, which is not part of the sources; section 3 of the
spec fixes `min_size = ⌈max_size/2⌉`. -/
def LeafPage.GetMinSize (p : LeafPage) : Int := (p.max_size + 1) / 2

/-- Modelled from the spec: same as `LeafPage.GetMinSize`. -/
def InternalPage.GetMinSize (p : InternalPage) : Int := (p.max_size + 1) / 2

/-- Modelled from the spec: `IsRootPage` is implemented in
`b_plus_tree_page.cpp` (not in the sources); a node is the root iff it has no
parent (`parent_page_id_ == INVALID_PAGE_ID`). -/
def LeafPage.IsRootPage (p : LeafPage) : Bool := p.parent_page_id = BPM.INVALID_PAGE_ID

/-- Modelled from the spec: same as `LeafPage.IsRootPage`. -/
def InternalPage.IsRootPage (p : InternalPage) : Bool := p.parent_page_id = BPM.INVALID_PAGE_ID

end BPT

def lpC10 : BPT.LeafPage := ⟨1, -1, 4, -1, [(5, 50)]⟩

def ipC10 : BPT.InternalPage := ⟨2, -1, 4, [(0, 3), (7, 4)]⟩

namespace BPT

/-- The body of the source's binary-search loops, on an explicit iteration
bound (the bound is immaterial once it dominates `right - left + 1`). -/
def lowerLoopAux (pred : Int → Bool) : Nat → Int → Int → Int → Int
  | 0, _, _, ans => ans
  | Nat.succ n, left, right, ans =>
    if left ≤ right then
      let mid := (left + right) / 2
      if pred mid then lowerLoopAux pred n left (mid - 1) mid
      else lowerLoopAux pred n (mid + 1) right ans
    else ans

/-- The shared shape of the source's binary-search loops
(`while (left <= right) { mid = (left+right)/2; if (pred(mid)) { ans = mid;
right = mid-1; } else left = mid+1; }`), abstracted over the branch test. -/
def lowerLoop (pred : Int → Bool) (left right ans : Int) : Int :=
  lowerLoopAux pred (right - left + 1).toNat left right ans

/-- `B_PLUS_TREE_LEAF_PAGE_TYPE::KeyIndex`: binary search for the first index
whose key compares `>= 0` against `key`; `ans` starts at `GetSize()`. -/
def LeafPage.KeyIndex (p : LeafPage) (key : Int) : Int :=
  lowerLoop (fun mid => decide (0 ≤ cmpInt (p.array.getD mid.toNat (0, 0)).1 key))
    0 (p.GetSize - 1) p.GetSize

/-- `B_PLUS_TREE_LEAF_PAGE_TYPE::Insert`: unique keys; on duplicate return
`-1`, else shift right from the back and place `(key, value)` at `idx`,
returning the new size. -/
def LeafPage.Insert (p : LeafPage) (key : Int) (value : Nat) : Int × LeafPage :=
  let size := p.GetSize
  let idx := p.KeyIndex key
  if idx < size ∧ cmpInt (p.array.getD idx.toNat (0, 0)).1 key = 0 then (-1, p)
  else
    let p2 := { p with array := p.array.take idx.toNat ++ (key, value) :: p.array.drop idx.toNat }
    (p2.GetSize, p2)

/-- Strictly increasing keys, the leaf-page ordering invariant. -/
def SortedKeys (l : List (Int × Nat)) : Prop := l.Pairwise (fun a b => a.1 < b.1)

/-- `B_PLUS_TREE_INTERNAL_PAGE_TYPE::Lookup`: child for `key` (key 0 is the
invalid slot, search runs over `[1, size-1]`).  The source asserts
`size >= 1`; callers (the descent) only reach well-formed pages. -/
def InternalPage.Lookup (p : InternalPage) (key : Int) : Int :=
  if p.GetSize = 1 then p.ValueAt 0
  else if cmpInt key (p.KeyAt 1) < 0 then p.ValueAt 0
  else p.ValueAt ((lowerLoop (fun mid => decide (0 < cmpInt (p.KeyAt mid) key))
    1 (p.GetSize - 1) p.GetSize) - 1)

/-- `B_PLUS_TREE_INTERNAL_PAGE_TYPE::SetKeyAt` (unguarded in the source;
`List.set` is a no-op out of range). -/
def InternalPage.SetKeyAt (p : InternalPage) (index : Int) (key : Int) : InternalPage :=
  { p with array := p.array.set index.toNat (key, (p.array.getD index.toNat (0, 0)).2) }

/-- `B_PLUS_TREE_INTERNAL_PAGE_TYPE::ValueIndex`: first index holding the
child id, `-1` when absent. -/
def InternalPage.ValueIndex (p : InternalPage) (value : Int) : Int :=
  match p.array.findIdx? (fun e => e.2 == value) with
  | some i => (i : Int)
  | none => -1

/-- The `while (idx < size && comp(array_[idx].first, key) < 0) idx++` scan
of `B_PLUS_TREE_INTERNAL_PAGE_TYPE::Insert`. -/
def insertIdxLoop (arr : List (Int × Int)) (key : Int) (size idx : Int) : Int :=
  if h : idx < size ∧ cmpInt (arr.getD idx.toNat (0, 0)).1 key < 0 then
    insertIdxLoop arr key size (idx + 1)
  else idx
termination_by (size - idx).toNat
decreasing_by
  simp_wf
  omega

/-- `B_PLUS_TREE_INTERNAL_PAGE_TYPE::Insert` (keys start at index 1). -/
def InternalPage.Insert (p : InternalPage) (key value : Int) : Int × InternalPage :=
  let size := p.GetSize
  let idx := insertIdxLoop p.array key size 1
  let p2 := { p with array := p.array.take idx.toNat ++ (key, value) :: p.array.drop idx.toNat }
  (p2.GetSize, p2)

/-- `B_PLUS_TREE_INTERNAL_PAGE_TYPE::BuildRoot`: fresh root with two
children; slot 0 keeps its default key (the source never writes
`array_[0].first`). -/
def InternalPage.BuildRoot (p : InternalPage) (key1 val1 key2 val2 : Int) : InternalPage :=
  { p with array := [(0, val1), (key2, val2)] }

/-- Internal-page key ordering on the live slots `1 .. size-1`. -/
def SortedKeysI (l : List (Int × Int)) : Prop :=
  ∀ i j : Nat, 1 ≤ i → i < j → j < l.length → (l.getD i (0, 0)).1 < (l.getD j (0, 0)).1

/-- `B_PLUS_TREE_LEAF_PAGE_TYPE::ShiftTailItemToBack... (ShiftTailItemToFront):
move the donor's last entry to the recipient's front (no-op on empty donor). -/
def LeafPage.ShiftTailItemToFront (donor recip : LeafPage) : LeafPage × LeafPage :=
  if donor.GetSize = 0 then (donor, recip)
  else
    let item := donor.array.getD (donor.array.length - 1) (0, 0)
    ({ donor with array := donor.array.take (donor.array.length - 1) },
     { recip with array := item :: recip.array })

/-- `B_PLUS_TREE_LEAF_PAGE_TYPE::ShiftHeadItemToBack`: move the donor's first
entry to the recipient's back (no-op on empty donor). -/
def LeafPage.ShiftHeadItemToBack (donor recip : LeafPage) : LeafPage × LeafPage :=
  if donor.GetSize = 0 then (donor, recip)
  else
    let item := donor.array.getD 0 (0, 0)
    ({ donor with array := donor.array.drop 1 },
     { recip with array := recip.array ++ [item] })

/-- A page of the tree: leaf or internal. -/
inductive BTNode where
  | leaf (lp : LeafPage)
  | internal (ip : InternalPage)
  deriving Repr, DecidableEq

def BTNode.parent : BTNode → Int
  | .leaf lp => lp.parent_page_id
  | .internal ip => ip.parent_page_id

def BTNode.withParent : BTNode → Int → BTNode
  | .leaf lp, pp => .leaf { lp with parent_page_id := pp }
  | .internal ip, pp => .internal { ip with parent_page_id := pp }

/-- In-place mutation of the page with id `pid` in the page store. -/
def updNode (nodes : List (Int × BTNode)) (pid : Int) (f : BTNode → BTNode) :
    List (Int × BTNode) :=
  nodes.map (fun e => if e.1 = pid then (e.1, f e.2) else e)

/-- `BPlusTree` state: root page id, the two fan-out bounds, the page-id
allocator of the buffer pool, and the page store. -/
structure BTree where
  root_page_id : Int
  leaf_max_size : Int
  internal_max_size : Int
  next_page_id : Int
  nodes : List (Int × BTNode)
  deriving Repr, DecidableEq

/-- `BPlusTree::IsEmpty`. -/
def BTree.IsEmpty (t : BTree) : Bool := t.root_page_id = BPM.INVALID_PAGE_ID

/-- The descent loop of `BPlusTree::FindLeaf` (fuel bounds the depth; the
source loops until a leaf, fetching `internal->Lookup(key)` each round). -/
def findLeafLoop (nodes : List (Int × BTNode)) (key : Int) : Nat → Int → Option (Int × LeafPage)
  | 0, _ => none
  | Nat.succ fuel, pid =>
    match nodes.lookup pid with
    | none => none
    | some (BTNode.leaf lp) => some (pid, lp)
    | some (BTNode.internal ip) => findLeafLoop nodes key fuel (ip.Lookup key)

def BTree.FindLeaf (t : BTree) (key : Int) (fuel : Nat) : Option (Int × LeafPage) :=
  findLeafLoop t.nodes key fuel t.root_page_id

/-- The `while (new_leaf->GetSize() < new_leaf->GetMinSize())
leaf->ShiftTailItemToFront(new_leaf)` loop of `BPlusTree::Insert`. -/
def shiftLoop : Nat → LeafPage → LeafPage → LeafPage × LeafPage
  | 0, donor, recip => (donor, recip)
  | Nat.succ fl, donor, recip =>
    if recip.GetSize < recip.GetMinSize then
      let dr := donor.ShiftTailItemToFront recip
      shiftLoop fl dr.1 dr.2
    else (donor, recip)

/-- `B_PLUS_TREE_INTERNAL_PAGE_TYPE::RelocateTailToFront`: move the donor's
last entry to the recipient's front and reparent the moved child in the
store. -/
def InternalPage.RelocateTailToFront (donor recip : InternalPage)
    (nodes : List (Int × BTNode)) : InternalPage × InternalPage × List (Int × BTNode) :=
  if donor.GetSize = 0 then (donor, recip, nodes)
  else
    let item := donor.array.getD (donor.array.length - 1) (0, 0)
    ({ donor with array := donor.array.take (donor.array.length - 1) },
     { recip with array := item :: recip.array },
     updNode nodes item.2 (fun n => n.withParent recip.page_id))

/-- `B_PLUS_TREE_INTERNAL_PAGE_TYPE::RelocateHeadToBack`: move the donor's
first entry to the recipient's back and reparent the moved child. -/
def InternalPage.RelocateHeadToBack (donor recip : InternalPage)
    (nodes : List (Int × BTNode)) : InternalPage × InternalPage × List (Int × BTNode) :=
  if donor.GetSize = 0 then (donor, recip, nodes)
  else
    let item := donor.array.getD 0 (0, 0)
    ({ donor with array := donor.array.drop 1 },
     { recip with array := recip.array ++ [item] },
     updNode nodes item.2 (fun n => n.withParent recip.page_id))

/-- The internal-split relocation loop of `BPlusTree::InsertIntoParent`. -/
def relocateLoop : Nat → InternalPage → InternalPage → List (Int × BTNode) →
    InternalPage × InternalPage × List (Int × BTNode)
  | 0, d, r, ns => (d, r, ns)
  | Nat.succ fl, d, r, ns =>
    if r.GetSize < r.GetMinSize then
      let drn := InternalPage.RelocateTailToFront d r ns
      relocateLoop fl drn.1 drn.2.1 drn.2.2
    else (d, r, ns)

/-- `BPlusTree::InsertIntoParent` (fuel bounds the upward recursion; page
allocation is modelled by the `next_page_id` counter). -/
def BTree.InsertIntoParent : Nat → BTree → Int → Int → Int → Int → Option BTree
  | 0, _, _, _, _, _ => none
  | Nat.succ fl, t, old_key, old_pid, new_key, new_pid =>
    match t.nodes.lookup old_pid with
    | none => none
    | some oldn =>
      let parent_id := oldn.parent
      if parent_id = BPM.INVALID_PAGE_ID then
        let rpid := t.next_page_id
        let root1 := InternalPage.BuildRoot ⟨rpid, BPM.INVALID_PAGE_ID, t.internal_max_size, []⟩ old_key old_pid new_key new_pid
        some { t with root_page_id := rpid, next_page_id := rpid + 1, nodes := (rpid, BTNode.internal root1) :: updNode (updNode t.nodes old_pid (fun n => n.withParent rpid)) new_pid (fun n => n.withParent rpid) }
      else
        match t.nodes.lookup parent_id with
        | some (BTNode.internal parent) =>
          let parent1 := parent.SetKeyAt (parent.ValueIndex old_pid) old_key
          let r := parent1.Insert new_key new_pid
          let parent2 := r.2
          let t1 := { t with nodes := updNode (updNode t.nodes parent_id (fun _ => BTNode.internal parent2)) new_pid (fun n => n.withParent parent_id) }
          if parent2.GetSize > parent2.max_size then
            let spid := t1.next_page_id
            let drn := relocateLoop fl parent2 ⟨spid, parent2.parent_page_id, parent2.max_size, []⟩ t1.nodes
            let parent3 := drn.1
            let ni1 := drn.2.1
            let t2 := { t1 with next_page_id := spid + 1, nodes := (spid, BTNode.internal ni1) :: updNode drn.2.2 parent_id (fun _ => BTNode.internal parent3) }
            BTree.InsertIntoParent fl t2 (parent3.KeyAt 0) parent_id (ni1.KeyAt 0) spid
          else some t1
        | _ => none

/-- `BPlusTree::Insert` (single-threaded semantics; latches dropped, page
allocation via the `next_page_id` counter, `none` for the throw paths and
fuel exhaustion). -/
def BTree.Insert (t : BTree) (key : Int) (value : Nat) (fuel : Nat) : Option (Bool × BTree) :=
  if t.root_page_id = BPM.INVALID_PAGE_ID then
    let pid := t.next_page_id
    let lp0 : LeafPage := ⟨pid, BPM.INVALID_PAGE_ID, t.leaf_max_size, BPM.INVALID_PAGE_ID, []⟩
    let r := lp0.Insert key value
    some (r.1 != -1, { t with root_page_id := pid, next_page_id := pid + 1, nodes := (pid, BTNode.leaf r.2) :: t.nodes })
  else
    match t.FindLeaf key fuel with
    | none => none
    | some (lpid, leaf) =>
      let r := leaf.Insert key value
      if r.1 = -1 then some (false, t)
      else
        let leaf2 := r.2
        if leaf2.GetSize < leaf2.max_size then
          some (true, { t with nodes := updNode t.nodes lpid (fun _ => BTNode.leaf leaf2) })
        else
          let npid := t.next_page_id
          let nl1 : LeafPage := ⟨npid, leaf2.parent_page_id, leaf2.max_size, leaf2.next_page_id, []⟩
          let leaf3 := { leaf2 with next_page_id := npid }
          let dr := shiftLoop fuel leaf3 nl1
          let leaf4 := dr.1
          let nl2 := dr.2
          if leaf4.IsRootPage then
            let rpid := npid + 1
            let root1 := InternalPage.BuildRoot ⟨rpid, BPM.INVALID_PAGE_ID, t.internal_max_size, []⟩ (leaf4.KeyAt 0) leaf4.page_id (nl2.KeyAt 0) nl2.page_id
            some (true, { t with root_page_id := rpid, next_page_id := rpid + 1, nodes := (rpid, BTNode.internal root1) :: (npid, BTNode.leaf { nl2 with parent_page_id := rpid }) :: updNode t.nodes lpid (fun _ => BTNode.leaf { leaf4 with parent_page_id := rpid }) })
          else
            let t1 := { t with next_page_id := npid + 1, nodes := (npid, BTNode.leaf nl2) :: updNode t.nodes lpid (fun _ => BTNode.leaf leaf4) }
            match BTree.InsertIntoParent fuel t1 (leaf4.KeyAt 0) lpid (nl2.KeyAt 0) npid with
            | none => none
            | some t2 => some (true, t2)

/-- Optional lower bound (inclusive) on a key. -/
def InLB (lo : Option Int) (k : Int) : Prop :=
  match lo with
  | none => True
  | some a => a ≤ k

/-- Optional upper bound (strict) on a key. -/
def InUB (hi : Option Int) (k : Int) : Prop :=
  match hi with
  | none => True
  | some b => k < b

/-- Lower bound of the `j`-th child's key interval. -/
def childLB (ip : InternalPage) (lo : Option Int) (j : Nat) : Option Int :=
  if j = 0 then lo else some ((ip.array.getD j (0, 0)).1)

/-- Upper bound of the `j`-th child's key interval. -/
def childUB (ip : InternalPage) (hi : Option Int) (j : Nat) : Option Int :=
  if j + 1 < ip.array.length then some ((ip.array.getD (j + 1) (0, 0)).1) else hi

/-- The B+ search-tree invariant for the subtree rooted at a page, with the
subtree's key interval: leaves are sorted and in range; internal pages have
sorted separators in range, and each child is well-formed for its separator
interval. -/
inductive SubtreeWF (nodes : List (Int × BTNode)) : Int → Option Int → Option Int → Prop
  | leaf (pid : Int) (lo hi : Option Int) (lp : LeafPage) :
      nodes.lookup pid = some (BTNode.leaf lp) →
      SortedKeys lp.array →
      (∀ e ∈ lp.array, InLB lo e.1 ∧ InUB hi e.1) →
      SubtreeWF nodes pid lo hi
  | internal (pid : Int) (lo hi : Option Int) (ip : InternalPage) :
      nodes.lookup pid = some (BTNode.internal ip) →
      1 ≤ ip.array.length →
      SortedKeysI ip.array →
      (∀ j : Nat, 1 ≤ j → j < ip.array.length →
        InLB lo (ip.array.getD j (0, 0)).1 ∧ InUB hi (ip.array.getD j (0, 0)).1) →
      (∀ j : Nat, j < ip.array.length →
        SubtreeWF nodes (ip.array.getD j (0, 0)).2 (childLB ip lo j) (childUB ip hi j)) →
      SubtreeWF nodes pid lo hi

/-- Keys stored in the subtree rooted at a page (fuel bounds the depth). -/
def subtreeKeys (nodes : List (Int × BTNode)) : Nat → Int → List Int
  | 0, _ => []
  | Nat.succ fl, pid =>
    match nodes.lookup pid with
    | some (BTNode.leaf lp) => lp.array.map (fun e => e.1)
    | some (BTNode.internal ip) => (ip.array.map (fun e => e.2)).flatMap (subtreeKeys nodes fl)
    | none => []

end BPT

def lpC3 : BPT.LeafPage := ⟨1, -1, 4, -1, [(2, 20), (5, 50)]⟩

def lpT3 : BPT.LeafPage := ⟨1, -1, 4, -1, [(3, 30)]⟩

def tC3 : BPT.BTree := ⟨1, 4, 4, 2, [(1, BPT.BTNode.leaf lpT3)]⟩

namespace BPT

/-- `B_PLUS_TREE_LEAF_PAGE_TYPE::RemoveAt`: guarded shift-left. -/
def LeafPage.RemoveAt (p : LeafPage) (index : Int) : LeafPage :=
  if index < 0 ∨ p.GetSize ≤ index then p
  else { p with array := p.array.take index.toNat ++ p.array.drop (index.toNat + 1) }

/-- `B_PLUS_TREE_INTERNAL_PAGE_TYPE::RemoveAt`: guarded shift-left. -/
def InternalPage.RemoveAt (p : InternalPage) (index : Int) : InternalPage :=
  if index < 0 ∨ p.GetSize ≤ index then p
  else { p with array := p.array.take index.toNat ++ p.array.drop (index.toNat + 1) }

/-- `BPlusTree::HandleRootAfterDelete`, leaf instantiation: an empty leaf
root empties the whole tree. -/
def BTree.HandleRootAfterDeleteL (t : BTree) (lp : LeafPage) : BTree :=
  if lp.IsRootPage then
    (if lp.GetSize = 0 then { t with root_page_id := BPM.INVALID_PAGE_ID } else t)
  else t

/-- `BPlusTree::HandleRootAfterDelete`, internal instantiation: a root with a
single child promotes that child (clearing its parent pointer). -/
def BTree.HandleRootAfterDeleteI (t : BTree) (ip : InternalPage) : BTree :=
  if ip.IsRootPage then
    (if ip.GetSize = 1 then
      { t with root_page_id := ip.ValueAt 0, nodes := updNode t.nodes (ip.ValueAt 0) (fun n => n.withParent BPM.INVALID_PAGE_ID) }
    else t)
  else t

/-- The `while (cur_leaf->GetSize() > 0) cur_leaf->ShiftHeadItemToBack(...)`
loop of `BPlusTree::CoalesceLeafNode`. -/
def coalesceLeafLoop : Nat → LeafPage → LeafPage → LeafPage × LeafPage
  | 0, neighbor, cur => (neighbor, cur)
  | Nat.succ fl, neighbor, cur =>
    if 0 < cur.GetSize then
      let dr := cur.ShiftHeadItemToBack neighbor
      coalesceLeafLoop fl dr.2 dr.1
    else (neighbor, cur)

/-- `BPlusTree::CoalesceLeafNode`: drain `cur` into `neighbor`, then splice
the leaf chain. -/
def CoalesceLeafNode (fl : Nat) (neighbor cur : LeafPage) : LeafPage × LeafPage :=
  let nc := coalesceLeafLoop fl neighbor cur
  ({ nc.1 with next_page_id := nc.2.next_page_id }, nc.2)

/-- The drain loop of `BPlusTree::CoalesceInternalNode` (each move reparents
the moved child in the store). -/
def coalesceInternalLoop : Nat → InternalPage → InternalPage → List (Int × BTNode) →
    InternalPage × InternalPage × List (Int × BTNode)
  | 0, neighbor, cur, ns => (neighbor, cur, ns)
  | Nat.succ fl, neighbor, cur, ns =>
    if 0 < cur.GetSize then
      let drn := cur.RelocateHeadToBack neighbor ns
      coalesceInternalLoop fl drn.2.1 drn.1 drn.2.2
    else (neighbor, cur, ns)

/-- Borrow-from-left attempt for a leaf (`RedistributeOrMerge`, first block).
`none` models the FetchPage throw, `some none` is fall-through, `some (some t)`
is the early return. -/
def tryBorrowLeftL (t : BTree) (node : LeafPage) (parent : InternalPage) (index : Int) :
    Option (Option BTree) :=
  if 0 < index then
    match t.nodes.lookup (parent.ValueAt (index - 1)) with
    | some (BTNode.leaf left) =>
      if left.GetMinSize < left.GetSize then
        let dr := left.ShiftTailItemToFront node
        some (some { t with nodes := updNode (updNode (updNode t.nodes (parent.ValueAt (index - 1)) (fun _ => BTNode.leaf dr.1)) node.page_id (fun _ => BTNode.leaf dr.2)) node.parent_page_id (fun _ => BTNode.internal (parent.SetKeyAt index (dr.2.KeyAt 0))) })
      else some none
    | _ => none
  else some none

/-- Borrow-from-right attempt for a leaf (`RedistributeOrMerge`, second
block): move right's head to `node`'s tail, then update the parent separator
at `index + 1` with the right sibling's key 0 read after the move. -/
def tryBorrowRightL (t : BTree) (node : LeafPage) (parent : InternalPage) (index : Int) :
    Option (Option BTree) :=
  if index < parent.GetSize - 1 then
    match t.nodes.lookup (parent.ValueAt (index + 1)) with
    | some (BTNode.leaf right) =>
      if right.GetMinSize < right.GetSize then
        let dr := right.ShiftHeadItemToBack node
        some (some { t with nodes := updNode (updNode (updNode t.nodes (parent.ValueAt (index + 1)) (fun _ => BTNode.leaf dr.1)) node.page_id (fun _ => BTNode.leaf dr.2)) node.parent_page_id (fun _ => BTNode.internal (parent.SetKeyAt (index + 1) (dr.1.KeyAt 0))) })
      else some none
    | _ => none
  else some none

/-- Merge block for a leaf (`RedistributeOrMerge`, third block): coalesce
into the left (or else the right) sibling at exactly `GetMinSize`, dropping
the separator; returns the updated tree and parent. -/
def mergeL (fl : Nat) (t : BTree) (node : LeafPage) (parent : InternalPage) (index : Int) :
    Option (BTree × InternalPage) :=
  if 0 < index then
    match t.nodes.lookup (parent.ValueAt (index - 1)) with
    | some (BTNode.leaf left) =>
      if left.GetSize = left.GetMinSize then
        let nc := CoalesceLeafNode fl left node
        let parent2 := parent.RemoveAt index
        some ({ t with nodes := updNode (updNode (updNode t.nodes (parent.ValueAt (index - 1)) (fun _ => BTNode.leaf nc.1)) node.page_id (fun _ => BTNode.leaf nc.2)) node.parent_page_id (fun _ => BTNode.internal parent2) }, parent2)
      else some (t, parent)
    | _ => none
  else if index < parent.GetSize - 1 then
    match t.nodes.lookup (parent.ValueAt (index + 1)) with
    | some (BTNode.leaf right) =>
      if right.GetSize = right.GetMinSize then
        let nc := CoalesceLeafNode fl node right
        let parent2 := parent.RemoveAt (index + 1)
        some ({ t with nodes := updNode (updNode (updNode t.nodes (parent.ValueAt (index + 1)) (fun _ => BTNode.leaf nc.2)) node.page_id (fun _ => BTNode.leaf nc.1)) node.parent_page_id (fun _ => BTNode.internal parent2) }, parent2)
      else some (t, parent)
    | _ => none
  else some (t, parent)

/-- Borrow-from-left attempt for an internal node. -/
def tryBorrowLeftI (t : BTree) (node parent : InternalPage) (index : Int) :
    Option (Option BTree) :=
  if 0 < index then
    match t.nodes.lookup (parent.ValueAt (index - 1)) with
    | some (BTNode.internal left) =>
      if left.GetMinSize < left.GetSize then
        let drn := left.RelocateTailToFront node t.nodes
        some (some { t with nodes := updNode (updNode (updNode drn.2.2 (parent.ValueAt (index - 1)) (fun _ => BTNode.internal drn.1)) node.page_id (fun _ => BTNode.internal drn.2.1)) node.parent_page_id (fun _ => BTNode.internal (parent.SetKeyAt index (drn.2.1.KeyAt 0))) })
      else some none
    | _ => none
  else some none

/-- Borrow-from-right attempt for an internal node. -/
def tryBorrowRightI (t : BTree) (node parent : InternalPage) (index : Int) :
    Option (Option BTree) :=
  if index < parent.GetSize - 1 then
    match t.nodes.lookup (parent.ValueAt (index + 1)) with
    | some (BTNode.internal right) =>
      if right.GetMinSize < right.GetSize then
        let drn := right.RelocateHeadToBack node t.nodes
        some (some { t with nodes := updNode (updNode (updNode drn.2.2 (parent.ValueAt (index + 1)) (fun _ => BTNode.internal drn.1)) node.page_id (fun _ => BTNode.internal drn.2.1)) node.parent_page_id (fun _ => BTNode.internal (parent.SetKeyAt (index + 1) (drn.1.KeyAt 0))) })
      else some none
    | _ => none
  else some none

/-- Merge block for an internal node. -/
def mergeI (fl : Nat) (t : BTree) (node parent : InternalPage) (index : Int) :
    Option (BTree × InternalPage) :=
  if 0 < index then
    match t.nodes.lookup (parent.ValueAt (index - 1)) with
    | some (BTNode.internal left) =>
      if left.GetSize = left.GetMinSize then
        let ncn := coalesceInternalLoop fl left node t.nodes
        let parent2 := parent.RemoveAt index
        some ({ t with nodes := updNode (updNode (updNode ncn.2.2 (parent.ValueAt (index - 1)) (fun _ => BTNode.internal ncn.1)) node.page_id (fun _ => BTNode.internal ncn.2.1)) node.parent_page_id (fun _ => BTNode.internal parent2) }, parent2)
      else some (t, parent)
    | _ => none
  else if index < parent.GetSize - 1 then
    match t.nodes.lookup (parent.ValueAt (index + 1)) with
    | some (BTNode.internal right) =>
      if right.GetSize = right.GetMinSize then
        let ncn := coalesceInternalLoop fl node right t.nodes
        let parent2 := parent.RemoveAt (index + 1)
        some ({ t with nodes := updNode (updNode (updNode ncn.2.2 (parent.ValueAt (index + 1)) (fun _ => BTNode.internal ncn.2.1)) node.page_id (fun _ => BTNode.internal ncn.1)) node.parent_page_id (fun _ => BTNode.internal parent2) }, parent2)
      else some (t, parent)
    | _ => none
  else some (t, parent)

/-- `BPlusTree::RedistributeOrMerge` for an internal node (fuel bounds the
upward recursion). -/
def BTree.RedistributeOrMergeI : Nat → BTree → InternalPage → Option BTree
  | 0, _, _ => none
  | Nat.succ fl, t, node =>
    if node.IsRootPage then some (t.HandleRootAfterDeleteI node)
    else
      match t.nodes.lookup node.parent_page_id with
      | some (BTNode.internal parent) =>
        let index := parent.ValueIndex node.page_id
        match tryBorrowLeftI t node parent index with
        | none => none
        | some (some t2) => some t2
        | some none =>
          match tryBorrowRightI t node parent index with
          | none => none
          | some (some t2) => some t2
          | some none =>
            match mergeI fl t node parent index with
            | none => none
            | some (t2, parent2) =>
              if parent2.GetSize < parent2.GetMinSize then
                BTree.RedistributeOrMergeI fl t2 parent2
              else some t2
      | _ => none

/-- `BPlusTree::RedistributeOrMerge` for a leaf node. -/
def BTree.RedistributeOrMergeL (fl : Nat) (t : BTree) (node : LeafPage) : Option BTree :=
  if node.IsRootPage then some (t.HandleRootAfterDeleteL node)
  else
    match t.nodes.lookup node.parent_page_id with
    | some (BTNode.internal parent) =>
      let index := parent.ValueIndex node.page_id
      match tryBorrowLeftL t node parent index with
      | none => none
      | some (some t2) => some t2
      | some none =>
        match tryBorrowRightL t node parent index with
        | none => none
        | some (some t2) => some t2
        | some none =>
          match mergeL fl t node parent index with
          | none => none
          | some (t2, parent2) =>
            if parent2.GetSize < parent2.GetMinSize then
              BTree.RedistributeOrMergeI fl t2 parent2
            else some t2
    | _ => none

end BPT

def nodeC5 : BPT.LeafPage := ⟨1, 10, 4, 2, [(1, 11)]⟩

def rightC5 : BPT.LeafPage := ⟨2, 10, 4, -1, [(5, 55), (7, 77), (9, 99)]⟩

def parentC5 : BPT.InternalPage := ⟨10, -1, 4, [(0, 1), (5, 2)]⟩

def tC5 : BPT.BTree :=
  ⟨10, 4, 4, 11, [(10, BPT.BTNode.internal parentC5), (1, BPT.BTNode.leaf nodeC5),
    (2, BPT.BTNode.leaf rightC5)]⟩

namespace BPT

/-- `BPlusTree::Remove` (single-threaded semantics; `none` models fuel
exhaustion / FetchPage throw). -/
def BTree.Remove (t : BTree) (key : Int) (fuel : Nat) : Option BTree :=
  if t.root_page_id = BPM.INVALID_PAGE_ID then some t
  else
    match t.FindLeaf key fuel with
    | none => none
    | some (lpid, leaf) =>
      let idx := leaf.KeyIndex key
      if leaf.GetSize ≤ idx ∨ cmpInt (leaf.KeyAt idx) key ≠ 0 then some t
      else
        let leaf2 := leaf.RemoveAt idx
        let t1 := { t with nodes := updNode t.nodes lpid (fun _ => BTNode.leaf leaf2) }
        if leaf2.GetSize < leaf2.GetMinSize then t1.RedistributeOrMergeL fuel leaf2
        else some t1

end BPT

/-- The empty tree with `leaf_max_size = internal_max_size = 3`. -/
def tC4 : BPT.BTree := ⟨BPM.INVALID_PAGE_ID, 3, 3, 0, []⟩

/-- Insert 1, 2, 3 into `tC4`, then remove 2, 1, 3; report `IsEmpty` of the
final tree. -/
def c4chain : Option Bool :=
  (tC4.Insert 1 1 20).bind (fun r1 =>
    (r1.2.Insert 2 2 20).bind (fun r2 =>
      (r2.2.Insert 3 3 20).bind (fun r3 =>
        (r3.2.Remove 2 20).bind (fun t4 =>
          (t4.Remove 1 20).bind (fun t5 =>
            (t5.Remove 3 20).map BPT.BTree.IsEmpty)))))

namespace LRUK

/-- Under `WF`, a frame's backward K-distance is the `+∞` sentinel exactly
when it has fewer than `k` recorded accesses. -/
theorem dist_eq_max_iff (rep : Replacer) (hwf : WF rep) (e : Int × FrameInfo)
    (he : e ∈ rep.frame_table) :
    rep.CalculateBackwardKDistance e.2 = sizeTMax ↔ e.2.history.length < rep.k := by
  unfold Replacer.CalculateBackwardKDistance
  by_cases h : e.2.history.length < rep.k
  · simp [h]
  · simp only [h, if_false, iff_false]
    intro habs
    have hne := hwf.hist_nonempty e he
    have hhead : e.2.history.headD 0 ∈ e.2.history := by
      cases hh : e.2.history with
      | nil => exact absurd hh hne
      | cons a t => simp [hh]
    have hb := hwf.ts_bounds e he _ hhead
    have hnow := hwf.now_lt
    omega

theorem dominates_refl (c : Int × Nat × Nat) : Dominates c c :=
  ⟨le_refl _, fun _ _ => le_refl _⟩

theorem dominates_trans {r c e : Int × Nat × Nat}
    (h1 : Dominates r c) (h2 : Dominates c e) : Dominates r e := by
  refine ⟨le_trans h2.1 h1.1, fun hr he => ?_⟩
  have hc : c.2.1 = sizeTMax := by
    have := h2.1; have := h1.1; omega
  exact le_trans (h1.2 hr hc) (h2.2 hc he)

/-- Case analysis of one loop iteration on an evictable entry: the candidate
either stays (and dominates the entry) or becomes the entry's own triple (and
dominates the old candidate). -/
theorem evictStep_spec (rep : Replacer) (fid : Int) (fi : FrameInfo)
    (hev : fi.is_evictable = true) (c : Int × Nat × Nat) :
    (evictStep rep fid fi (some c) = some c ∧ Dominates c (candOf rep (fid, fi))) ∨
    (evictStep rep fid fi (some c) = some (candOf rep (fid, fi)) ∧
      Dominates (candOf rep (fid, fi)) c) := by
  obtain ⟨cf, cd, ce⟩ := c
  have hstep : evictStep rep fid fi (some (cf, cd, ce)) =
      (if cd < rep.CalculateBackwardKDistance fi then
         some (fid, rep.CalculateBackwardKDistance fi, fi.earliest_timestamp)
       else if rep.CalculateBackwardKDistance fi = cd then
         if rep.CalculateBackwardKDistance fi = sizeTMax then
           if fi.earliest_timestamp < ce then some (fid, cd, fi.earliest_timestamp)
           else some (cf, cd, ce)
         else some (cf, cd, ce)
       else some (cf, cd, ce)) := by
    simp [evictStep, hev]
  have hcand : candOf rep (fid, fi) =
      (fid, rep.CalculateBackwardKDistance fi, fi.earliest_timestamp) := rfl
  rw [hstep, hcand]
  by_cases h1 : cd < rep.CalculateBackwardKDistance fi
  · rw [if_pos h1]
    refine Or.inr ⟨rfl, le_of_lt h1, ?_⟩
    show rep.CalculateBackwardKDistance fi = sizeTMax → cd = sizeTMax →
      fi.earliest_timestamp ≤ ce
    omega
  · by_cases h2 : rep.CalculateBackwardKDistance fi = cd
    · by_cases h3 : rep.CalculateBackwardKDistance fi = sizeTMax
      · by_cases h4 : fi.earliest_timestamp < ce
        · rw [if_neg h1, if_pos h2, if_pos h3, if_pos h4]
          refine Or.inr ⟨by rw [h2], le_of_eq h2.symm, ?_⟩
          show rep.CalculateBackwardKDistance fi = sizeTMax → cd = sizeTMax →
            fi.earliest_timestamp ≤ ce
          intro _ _; exact le_of_lt h4
        · rw [if_neg h1, if_pos h2, if_pos h3, if_neg h4]
          refine Or.inl ⟨rfl, le_of_eq h2, ?_⟩
          show cd = sizeTMax → rep.CalculateBackwardKDistance fi = sizeTMax →
            ce ≤ fi.earliest_timestamp
          intro _ _; exact le_of_not_lt h4
      · rw [if_neg h1, if_pos h2, if_neg h3]
        refine Or.inl ⟨rfl, le_of_eq h2, ?_⟩
        show cd = sizeTMax → rep.CalculateBackwardKDistance fi = sizeTMax →
          ce ≤ fi.earliest_timestamp
        omega
    · rw [if_neg h1, if_neg h2]
      refine Or.inl ⟨rfl, le_of_not_lt h1, ?_⟩
      show cd = sizeTMax → rep.CalculateBackwardKDistance fi = sizeTMax →
        ce ≤ fi.earliest_timestamp
      omega

theorem evictStep_skip (rep : Replacer) (fid : Int) (fi : FrameInfo)
    (hev : fi.is_evictable = false) (cand : Option (Int × Nat × Nat)) :
    evictStep rep fid fi cand = cand := by
  unfold evictStep; simp [hev]

theorem evictStep_none (rep : Replacer) (fid : Int) (fi : FrameInfo)
    (hev : fi.is_evictable = true) :
    evictStep rep fid fi none = some (candOf rep (fid, fi)) := by
  unfold evictStep; simp [hev]; rfl

/-- Running the loop with a present candidate always yields a candidate that
is either the one passed in or stems from an evictable entry of the list, and
that dominates both the initial candidate and every evictable entry. -/
theorem evictLoop_some (rep : Replacer) :
    ∀ (l : List (Int × FrameInfo)) (c : Int × Nat × Nat),
    ∃ r, evictLoop rep l (some c) = some r ∧
      (r = c ∨ ∃ e ∈ l, e.2.is_evictable = true ∧ r = candOf rep e) ∧
      Dominates r c ∧
      ∀ e ∈ l, e.2.is_evictable = true → Dominates r (candOf rep e) := by
  intro l
  induction l with
  | nil => exact fun c => ⟨c, rfl, Or.inl rfl, dominates_refl c, by simp⟩
  | cons hd tl ih =>
    intro c
    obtain ⟨fid, fi⟩ := hd
    by_cases hev : fi.is_evictable
    · rcases evictStep_spec rep fid fi hev c with ⟨hstep, hdomc⟩ | ⟨hstep, hdomc⟩
      · obtain ⟨r, hr, hsrc, hdom, hall⟩ := ih c
        refine ⟨r, ?_, ?_, hdom, ?_⟩
        · rw [evictLoop, hstep]; exact hr
        · rcases hsrc with h | ⟨e, he, hee, hre⟩
          · exact Or.inl h
          · exact Or.inr ⟨e, List.mem_cons_of_mem _ he, hee, hre⟩
        · intro e he hee
          rcases List.mem_cons.mp he with he1 | he2
          · rw [he1]; exact dominates_trans hdom hdomc
          · exact hall e he2 hee
      · obtain ⟨r, hr, hsrc, hdom, hall⟩ := ih (candOf rep (fid, fi))
        refine ⟨r, ?_, ?_, dominates_trans hdom hdomc, ?_⟩
        · rw [evictLoop, hstep]; exact hr
        · rcases hsrc with h | ⟨e, he, hee, hre⟩
          · exact Or.inr ⟨(fid, fi), List.mem_cons_self _ _, hev, h⟩
          · exact Or.inr ⟨e, List.mem_cons_of_mem _ he, hee, hre⟩
        · intro e he hee
          rcases List.mem_cons.mp he with he1 | he2
          · rw [he1]; exact hdom
          · exact hall e he2 hee
    · obtain ⟨r, hr, hsrc, hdom, hall⟩ := ih c
      have hevf : fi.is_evictable = false := by simpa using hev
      refine ⟨r, ?_, ?_, hdom, ?_⟩
      · rw [evictLoop, evictStep_skip rep fid fi hevf]; exact hr
      · rcases hsrc with h | ⟨e, he, hee, hre⟩
        · exact Or.inl h
        · exact Or.inr ⟨e, List.mem_cons_of_mem _ he, hee, hre⟩
      · intro e he hee
        rcases List.mem_cons.mp he with he1 | he2
        · rw [he1] at hee; exact absurd hee (by simp [hevf])
        · exact hall e he2 hee

/-- Starting from the empty candidate: the loop yields `none` exactly when no
entry is evictable, and otherwise a dominating candidate from the list. -/
theorem evictLoop_none_spec (rep : Replacer) :
    ∀ (l : List (Int × FrameInfo)),
    (evictLoop rep l none = none ↔ ∀ e ∈ l, e.2.is_evictable = false) ∧
    (∀ r, evictLoop rep l none = some r →
      (∃ e ∈ l, e.2.is_evictable = true ∧ r = candOf rep e) ∧
      ∀ e ∈ l, e.2.is_evictable = true → Dominates r (candOf rep e)) := by
  intro l
  induction l with
  | nil => exact ⟨by simp [evictLoop], by intro r h; simp [evictLoop] at h⟩
  | cons hd tl ih =>
    obtain ⟨fid, fi⟩ := hd
    by_cases hev : fi.is_evictable
    · have hstep : evictLoop rep ((fid, fi) :: tl) none =
          evictLoop rep tl (some (candOf rep (fid, fi))) := by
        rw [evictLoop, evictStep_none rep fid fi hev]
      obtain ⟨r', hr', hsrc, hdom, hall⟩ := evictLoop_some rep tl (candOf rep (fid, fi))
      constructor
      · constructor
        · intro h
          rw [hstep, hr'] at h; exact absurd h (by simp)
        · intro h
          exact absurd (h (fid, fi) (List.mem_cons_self _ _)) (by simp [hev])
      · intro r h
        rw [hstep, hr'] at h
        injection h with h; subst h
        constructor
        · rcases hsrc with hc | ⟨e, he, hee, hre⟩
          · exact ⟨(fid, fi), List.mem_cons_self _ _, hev, hc⟩
          · exact ⟨e, List.mem_cons_of_mem _ he, hee, hre⟩
        · intro e he hee
          rcases List.mem_cons.mp he with he1 | he2
          · rw [he1]; exact hdom
          · exact hall e he2 hee
    · have hevf : fi.is_evictable = false := by simpa using hev
      have hstep : evictLoop rep ((fid, fi) :: tl) none = evictLoop rep tl none := by
        rw [evictLoop, evictStep_skip rep fid fi hevf]
      constructor
      · rw [hstep, ih.1]
        constructor
        · intro h e he
          rcases List.mem_cons.mp he with he1 | he2
          · rw [he1]; exact hevf
          · exact h e he2
        · intro h e he; exact h e (List.mem_cons_of_mem _ he)
      · intro r h
        rw [hstep] at h
        obtain ⟨⟨e, he, hee, hre⟩, hall⟩ := ih.2 r h
        refine ⟨⟨e, List.mem_cons_of_mem _ he, hee, hre⟩, ?_⟩
        intro e' he' hee'
        rcases List.mem_cons.mp he' with he1 | he2
        · rw [he1] at hee'; exact absurd hee' (by simp [hevf])
        · exact hall e' he2 hee'

/-- Membership after erasing a key, given distinct keys. -/
theorem mem_eraseEntry (l : List (Int × FrameInfo)) (fid : Int)
    (hnd : (l.map Prod.fst).Nodup) :
    ∀ e ∈ eraseEntry l fid, e ∈ l ∧ e.1 ≠ fid := by
  induction l with
  | nil => intro e he; simp [eraseEntry] at he
  | cons hd tl ih =>
    intro e he
    obtain ⟨f, x⟩ := hd
    simp only [List.map_cons, List.nodup_cons] at hnd
    by_cases hf : f = fid
    · rw [eraseEntry, if_pos hf] at he
      refine ⟨by simp [he], ?_⟩
      intro habs
      exact hnd.1 (by rw [hf, ← habs]; exact List.mem_map_of_mem Prod.fst he)
    · rw [eraseEntry, if_neg hf] at he
      rcases List.mem_cons.mp he with he1 | he2
      · exact ⟨by simp [he1], by rw [he1]; exact hf⟩
      · obtain ⟨h1, h2⟩ := ih hnd.2 e he2
        exact ⟨by simp [h1], h2⟩

/-- If some entry with key `fid` is in the list, `eraseEntry` shortens it by
one. -/
theorem eraseEntry_length (l : List (Int × FrameInfo)) (fid : Int) (fi : FrameInfo)
    (h : (fid, fi) ∈ l) : (eraseEntry l fid).length + 1 = l.length := by
  induction l with
  | nil => simp at h
  | cons hd tl ih =>
    obtain ⟨f, x⟩ := hd
    by_cases hf : f = fid
    · rw [eraseEntry, if_pos hf]; simp
    · rw [eraseEntry, if_neg hf]
      rcases List.mem_cons.mp h with h1 | h2
      · exact absurd (congrArg Prod.fst h1).symm hf
      · simpa using ih h2

/-- A table with an evictable entry has nonzero `curr_size` under `WF`. -/
theorem curr_size_pos (rep : Replacer) (hwf : WF rep)
    (hev : ∃ e ∈ rep.frame_table, e.2.is_evictable = true) : rep.curr_size ≠ 0 := by
  obtain ⟨e, he, hee⟩ := hev
  rw [hwf.size_eq]
  have : e ∈ rep.frame_table.filter (fun e => e.2.is_evictable) :=
    List.mem_filter.mpr ⟨he, by simp [hee]⟩
  intro habs
  rw [List.length_eq_zero] at habs
  rw [habs] at this
  exact absurd this (List.not_mem_nil e)

/-- If no entry is evictable, `curr_size` is zero under `WF`. -/
theorem curr_size_zero (rep : Replacer) (hwf : WF rep)
    (hev : ∀ e ∈ rep.frame_table, e.2.is_evictable = false) : rep.curr_size = 0 := by
  rw [hwf.size_eq, List.length_eq_zero, List.filter_eq_nil]
  intro e he
  simp [hev e he]

end LRUK

/-- **C1.** For every well-formed LRU-K replacer state: if at least one
evictable frame is tracked, `Evict` succeeds and the victim is an evictable
tracked frame whose backward K-distance (`now − t_k`, with the `size_t`-max
sentinel standing for `+∞` when fewer than `k` accesses are recorded) is
maximal among all evictable frames; if the victim's distance is `+∞`, its
first history timestamp is minimal among all evictable `+∞`-distance frames;
the victim is untracked and `curr_size` is decremented.  Moreover `Evict`
returns `false` (`none`) iff no evictable frame exists. -/
theorem C1_lruk_evict_policy (rep : LRUK.Replacer) (hwf : LRUK.WF rep) :
    ((∃ e ∈ rep.frame_table, e.2.is_evictable = true) →
      ∃ fid fi rep', rep.Evict = some (fid, rep') ∧
        (fid, fi) ∈ rep.frame_table ∧ fi.is_evictable = true ∧
        (∀ e ∈ rep.frame_table, e.2.is_evictable = true →
          rep.CalculateBackwardKDistance e.2 ≤ rep.CalculateBackwardKDistance fi) ∧
        (rep.CalculateBackwardKDistance fi = LRUK.sizeTMax →
          ∀ e ∈ rep.frame_table, e.2.is_evictable = true →
            rep.CalculateBackwardKDistance e.2 = LRUK.sizeTMax →
            fi.history.headD 0 ≤ e.2.history.headD 0) ∧
        rep'.frame_table = LRUK.eraseEntry rep.frame_table fid ∧
        (∀ e ∈ rep'.frame_table, e.1 ≠ fid) ∧
        rep.curr_size = rep'.curr_size + 1) ∧
    (rep.Evict = none ↔ ∀ e ∈ rep.frame_table, e.2.is_evictable = false) := by
  constructor
  · intro hev
    have hsz := LRUK.curr_size_pos rep hwf hev
    obtain ⟨hnone, hsome⟩ := LRUK.evictLoop_none_spec rep rep.frame_table
    cases hloop : LRUK.evictLoop rep rep.frame_table none with
    | none =>
      obtain ⟨e, he, hee⟩ := hev
      exact absurd (hnone.mp hloop e he) (by simp [hee])
    | some r =>
      obtain ⟨⟨e, he, hee, hre⟩, hall⟩ := hsome r hloop
      obtain ⟨fid0, fi0⟩ := e
      refine ⟨fid0, fi0,
        { rep with frame_table := LRUK.eraseEntry rep.frame_table fid0,
                   curr_size := rep.curr_size - 1 }, ?_, he, hee, ?_, ?_, rfl, ?_, ?_⟩
      · unfold LRUK.Replacer.Evict
        rw [if_neg hsz, hloop, hre]
        rfl
      · intro e' he' hee'
        have := (hall e' he' hee').1
        rw [hre] at this
        exact this
      · intro hmax e' he' hee' hmax'
        have hd := (hall e' he' hee').2
        rw [hre] at hd
        have hearl : fi0.earliest_timestamp ≤ e'.2.earliest_timestamp := hd hmax hmax'
        have hk0 : fi0.history.length < rep.k :=
          (LRUK.dist_eq_max_iff rep hwf (fid0, fi0) he).mp hmax
        have hk' : e'.2.history.length < rep.k :=
          (LRUK.dist_eq_max_iff rep hwf e' he').mp hmax'
        rw [← hwf.earliest_head (fid0, fi0) he hk0, ← hwf.earliest_head e' he' hk']
        exact hearl
      · intro e' he'
        exact (LRUK.mem_eraseEntry rep.frame_table fid0 hwf.keys_nodup e' he').2
      · show rep.curr_size = rep.curr_size - 1 + 1
        omega
  · constructor
    · intro h e he
      unfold LRUK.Replacer.Evict at h
      by_cases hsz : rep.curr_size = 0
      · by_contra habs
        have : e.2.is_evictable = true := by
          cases hb : e.2.is_evictable
          · exact absurd hb habs
          · rfl
        exact LRUK.curr_size_pos rep hwf ⟨e, he, this⟩ hsz
      · rw [if_neg hsz] at h
        obtain ⟨hnone, _⟩ := LRUK.evictLoop_none_spec rep rep.frame_table
        cases hloop : LRUK.evictLoop rep rep.frame_table none with
        | none => exact hnone.mp hloop e he
        | some r => rw [hloop] at h; obtain ⟨a, b, c⟩ := r; simp at h
    · intro h
      have hsz := LRUK.curr_size_zero rep hwf h
      unfold LRUK.Replacer.Evict
      rw [if_pos hsz]

theorem C1_lruk_evict_policy_witness :
    ∃ fid fi rep', repC1.Evict = some (fid, rep') ∧
      (fid, fi) ∈ repC1.frame_table ∧ fi.is_evictable = true ∧
      (∀ e ∈ repC1.frame_table, e.2.is_evictable = true →
        repC1.CalculateBackwardKDistance e.2 ≤ repC1.CalculateBackwardKDistance fi) ∧
      (repC1.CalculateBackwardKDistance fi = LRUK.sizeTMax →
        ∀ e ∈ repC1.frame_table, e.2.is_evictable = true →
          repC1.CalculateBackwardKDistance e.2 = LRUK.sizeTMax →
          fi.history.headD 0 ≤ e.2.history.headD 0) ∧
      rep'.frame_table = LRUK.eraseEntry repC1.frame_table fid ∧
      (∀ e ∈ rep'.frame_table, e.1 ≠ fid) ∧
      repC1.curr_size = rep'.curr_size + 1 :=
  (C1_lruk_evict_policy repC1
    ⟨by decide, by decide, by decide, by decide, by decide, by decide, by decide⟩).1
    ⟨(0, ⟨[1], 1, true⟩), by decide, by decide⟩

/-- **C8 (divergence witness).** The source validates frame ids with
`static_cast<size_t>(frame_id) > replacer_size_`, so a call with
`frame_id == replacer_size` does **not** fault: on a fresh replacer with
`replacer_size = 4`, `RecordAccess(4)` succeeds and even starts tracking the
out-of-range frame 4, and `SetEvictable(4, true)` also returns without fault.
The claim (and §4.2/§9 of the specification) require `0 ≤ f < replacer_size`
with `f = replacer_size` faulting. -/
theorem C8_boundary_frame_id_not_rejected :
    (LRUK.Replacer.mkNew 4 2).RecordAccess 4 =
      .ok { current_timestamp := 1, curr_size := 0, replacer_size := 4, k := 2,
            frame_table := [(4, ⟨[1], 1, false⟩)] } ∧
    (LRUK.Replacer.mkNew 4 2).SetEvictable 4 true = .ok (LRUK.Replacer.mkNew 4 2) := by
  constructor <;> rfl

/-- **C9.** `SetEvictable` on an in-range frame id that is not currently
tracked returns without faulting, for either flag value, and leaves the
replacer state entirely unchanged. -/
theorem C9_setevictable_untracked_noop (rep : LRUK.Replacer) (f : Int) (b : Bool)
    (h0 : 0 ≤ f) (h1 : f < (rep.replacer_size : Int))
    (h2 : rep.frame_table.lookup f = none) :
    rep.SetEvictable f b = .ok rep := by
  unfold LRUK.Replacer.SetEvictable
  have hc : ¬ LRUK.sizeTofInt f > rep.replacer_size := by
    unfold LRUK.sizeTofInt
    omega
  rw [if_neg hc, h2]

theorem C9_setevictable_untracked_noop_witness :
    (LRUK.Replacer.mkNew 4 2).SetEvictable 1 true = .ok (LRUK.Replacer.mkNew 4 2) :=
  C9_setevictable_untracked_noop (LRUK.Replacer.mkNew 4 2) 1 true
    (by decide) (by decide) (by rfl)

namespace EHT

variable {K V : Type} [DecidableEq K]

theorem assocFind_eq_none_iff (l : List (K × V)) (k : K) :
    assocFind l k = none ↔ ∀ it ∈ l, it.1 ≠ k := by
  induction l with
  | nil => simp [assocFind]
  | cons hd tl ih =>
    obtain ⟨k', v⟩ := hd
    by_cases h : k' = k
    · simp [assocFind, h]
    · simp [assocFind, h, ih]

theorem assocFind_append (l1 l2 : List (K × V)) (k : K) (h : assocFind l1 k = none) :
    assocFind (l1 ++ l2) k = assocFind l2 k := by
  induction l1 with
  | nil => simp
  | cons hd tl ih =>
    obtain ⟨k', v⟩ := hd
    by_cases hk : k' = k
    · rw [assocFind, if_pos hk] at h; exact absurd h (by simp)
    · rw [assocFind, if_neg hk] at h
      rw [List.cons_append, assocFind, if_neg hk]
      exact ih h

theorem assocOverwrite_eq_none_iff (l : List (K × V)) (k : K) (v : V) :
    assocOverwrite l k v = none ↔ ∀ it ∈ l, it.1 ≠ k := by
  induction l with
  | nil => simp [assocOverwrite]
  | cons hd tl ih =>
    obtain ⟨k', v'⟩ := hd
    by_cases h : k' = k
    · simp [assocOverwrite, h]
    · simp only [assocOverwrite, if_neg h, Option.map_eq_none]
      simp [ih, h]

theorem assocOverwrite_some_keys (l : List (K × V)) (k : K) (v : V) :
    ∀ l', assocOverwrite l k v = some l' → l'.map Prod.fst = l.map Prod.fst := by
  induction l with
  | nil => intro l' h; simp [assocOverwrite] at h
  | cons hd tl ih =>
    intro l' h
    obtain ⟨k', v'⟩ := hd
    by_cases hk : k' = k
    · rw [assocOverwrite, if_pos hk] at h
      injection h with h
      rw [← h]; simp
    · rw [assocOverwrite, if_neg hk] at h
      cases hrec : assocOverwrite tl k v with
      | none => rw [hrec] at h; simp at h
      | some tl' =>
        rw [hrec] at h
        have h2 : some ((k', v') :: tl') = some l' := h
        injection h2 with h2
        rw [← h2]
        simp [ih tl' hrec]

theorem assocErase_sublist (l : List (K × V)) (k : K) : (assocErase l k).2.Sublist l := by
  induction l with
  | nil => exact List.Sublist.refl _
  | cons hd tl ih =>
    obtain ⟨k', v⟩ := hd
    by_cases h : k' = k
    · rw [assocErase, if_pos h]
      exact List.sublist_cons_self _ _
    · rw [assocErase, if_neg h]
      exact List.Sublist.cons₂ _ ih

theorem getD_set_self (l : List (Bucket K V)) (i : Nat) (b : Bucket K V)
    (h : i < l.length) : (l.set i b).getD i ⟨0, 0, []⟩ = b := by
  rw [List.getD_eq_getElem _ _ (by simpa using h), List.getElem_set_self]

theorem getD_set_ne (l : List (Bucket K V)) (i j : Nat) (b : Bucket K V)
    (h : i ≠ j) (hj : j < l.length) :
    (l.set i b).getD j ⟨0, 0, []⟩ = l.getD j ⟨0, 0, []⟩ := by
  rw [List.getD_eq_getElem _ _ (by simpa using hj), List.getD_eq_getElem _ _ hj,
    List.getElem_set_ne h]

theorem getD_mapIdx (l : List Nat) (f : Nat → Nat → Nat) (i : Nat) (h : i < l.length) :
    (l.mapIdx f).getD i 0 = f i (l.getD i 0) := by
  rw [List.getD_eq_getElem _ _ (by simpa using h), List.getD_eq_getElem _ _ h]
  simpa using List.get_mapIdx l f i h

theorem getD_mem (l : List Nat) (i : Nat) (h : i < l.length) : l.getD i 0 ∈ l := by
  rw [List.getD_eq_getElem _ _ h]; exact List.getElem_mem h

theorem double_getD (l : List Nat) (i : Nat) (h : i < 2 * l.length) :
    (l ++ l).getD i 0 = l.getD (i % l.length) 0 := by
  rcases Nat.eq_zero_or_pos l.length with h0 | h0
  · rw [List.length_eq_zero] at h0; subst h0; simp
  by_cases hi : i < l.length
  · rw [List.getD_append _ _ _ _ hi, Nat.mod_eq_of_lt hi]
  · rw [List.getD_append_right _ _ _ _ (le_of_not_lt hi)]
    have hmod : i % l.length = i - l.length := by
      rw [Nat.mod_eq_sub_mod (le_of_not_lt hi)]
      exact Nat.mod_eq_of_lt (by omega)
    rw [hmod]

theorem mod_mod_pow (x d g : Nat) (h : d ≤ g) : x % 2 ^ g % 2 ^ d = x % 2 ^ d :=
  Nat.mod_mod_of_dvd x (pow_dvd_pow 2 h)

/-- Agreement modulo `2 ^ (d + 1)` is agreement modulo `2 ^ d` together with
agreement on bit `d`. -/
theorem mod_pow_succ_iff (x y d : Nat) :
    x % 2 ^ (d + 1) = y % 2 ^ (d + 1) ↔
      (x % 2 ^ d = y % 2 ^ d ∧ x.testBit d = y.testBit d) := by
  have hx : x % 2 ^ (d + 1) = x % 2 ^ d + 2 ^ d * (x / 2 ^ d % 2) := by
    rw [pow_succ]; exact Nat.mod_mul
  have hy : y % 2 ^ (d + 1) = y % 2 ^ d + 2 ^ d * (y / 2 ^ d % 2) := by
    rw [pow_succ]; exact Nat.mod_mul
  have hbx : x.testBit d = decide (x / 2 ^ d % 2 = 1) := Nat.testBit_to_div_mod
  have hby : y.testBit d = decide (y / 2 ^ d % 2 = 1) := Nat.testBit_to_div_mod
  have h1 : x % 2 ^ d < 2 ^ d := Nat.mod_lt _ (Nat.pos_pow_of_pos d (by norm_num))
  have h2 : y % 2 ^ d < 2 ^ d := Nat.mod_lt _ (Nat.pos_pow_of_pos d (by norm_num))
  have h3 : x / 2 ^ d % 2 < 2 := Nat.mod_lt _ (by norm_num)
  have h4 : y / 2 ^ d % 2 < 2 := Nat.mod_lt _ (by norm_num)
  constructor
  · intro h
    rw [hx, hy] at h
    have hdiv : x / 2 ^ d % 2 = y / 2 ^ d % 2 := by
      rcases (by omega : x / 2 ^ d % 2 = 0 ∨ x / 2 ^ d % 2 = 1) with hb | hb <;>
        rcases (by omega : y / 2 ^ d % 2 = 0 ∨ y / 2 ^ d % 2 = 1) with he | he <;>
          rw [hb, he] at h ⊢ <;> omega
    have hmod : x % 2 ^ d = y % 2 ^ d := by
      rw [hdiv] at h; omega
    refine ⟨hmod, ?_⟩
    rw [hbx, hby, hdiv]
  · intro ⟨hmod, hbit⟩
    rw [hbx, hby] at hbit
    have hdiv : x / 2 ^ d % 2 = y / 2 ^ d % 2 := by
      rcases (by omega : x / 2 ^ d % 2 = 0 ∨ x / 2 ^ d % 2 = 1) with h | h <;>
        rcases (by omega : y / 2 ^ d % 2 = 0 ∨ y / 2 ^ d % 2 = 1) with h' | h' <;>
          simp [h, h'] at hbit ⊢
    rw [hx, hy, hmod, hdiv]

/-- Characterization of the redistribution loop of `SplitBucket`: when the
donor's keys are distinct, none of them is already in the sibling, and the
sibling has room for all moved entries, the loop partitions the donor's
entries by bit `d` of their hash (preserving order). -/
theorem split_fold (hash : K → Nat) (d : Nat) :
    ∀ (l keep : List (K × V)) (nb : Bucket K V),
    (l.map Prod.fst).Nodup →
    (∀ it ∈ l, assocFind nb.list it.1 = none) →
    nb.list.length + (l.filter (fun it => Nat.testBit (hash it.1) d)).length ≤ nb.size →
    l.foldl (splitStep hash d) (keep, nb) =
      (keep ++ l.filter (fun it => ! Nat.testBit (hash it.1) d),
       { nb with list := nb.list ++ l.filter (fun it => Nat.testBit (hash it.1) d) }) := by
  intro l
  induction l with
  | nil => intro keep nb _ _ _; simp
  | cons it0 rest ih =>
    intro keep nb hnodup hfind hcap
    obtain ⟨k, v⟩ := it0
    rw [List.foldl_cons]
    have hfilter_pos : ∀ (_ : Nat.testBit (hash k) d = true),
        ((k, v) :: rest).filter (fun it => Nat.testBit (hash it.1) d) =
          (k, v) :: rest.filter (fun it => Nat.testBit (hash it.1) d) := by
      intro hb; rw [List.filter_cons]; simp [hb]
    have hfilter_neg : ∀ (_ : Nat.testBit (hash k) d = false),
        ((k, v) :: rest).filter (fun it => Nat.testBit (hash it.1) d) =
          rest.filter (fun it => Nat.testBit (hash it.1) d) := by
      intro hb; rw [List.filter_cons]; simp [hb]
    by_cases hbit : Nat.testBit (hash k) d
    · have hf := hfind (k, v) (by simp)
      have hov : assocOverwrite nb.list k v = none :=
        (assocOverwrite_eq_none_iff _ _ _).mpr ((assocFind_eq_none_iff _ _).mp hf)
      have hfull : nb.IsFull = false := by
        unfold Bucket.IsFull
        have h1 : 1 ≤ (((k, v) :: rest).filter (fun it => Nat.testBit (hash it.1) d)).length := by
          rw [hfilter_pos hbit]; simp
        simp only [beq_eq_false_iff_ne]
        omega
      have hstep : splitStep hash d (keep, nb) (k, v) =
          (keep, { nb with list := nb.list ++ [(k, v)] }) := by
        unfold splitStep
        rw [if_pos hbit]
        unfold Bucket.insertKV
        rw [hov, hfull]
        simp
      rw [hstep]
      have h1 : (rest.map Prod.fst).Nodup := (List.nodup_cons.mp hnodup).2
      have hknotin : k ∉ rest.map Prod.fst := by
        simpa using (List.nodup_cons.mp hnodup).1
      have h2 : ∀ it ∈ rest, assocFind (nb.list ++ [(k, v)]) it.1 = none := by
        intro it hit
        rw [assocFind_append _ _ _ (hfind it (by simp [hit]))]
        rw [assocFind, if_neg ?_]
        · rfl
        · intro habs
          exact hknotin (by rw [habs]; exact List.mem_map_of_mem Prod.fst hit)
      have h3 : (nb.list ++ [(k, v)]).length +
          (rest.filter (fun it => Nat.testBit (hash it.1) d)).length ≤
            ({ nb with list := nb.list ++ [(k, v)] } : Bucket K V).size := by
        rw [hfilter_pos hbit] at hcap
        simp at hcap ⊢
        omega
      rw [ih keep _ h1 h2 h3]
      refine Prod.ext ?_ ?_
      · show keep ++ _ = keep ++ _
        rw [List.filter_cons]
        simp [hbit]
      · show ({ nb with list := (nb.list ++ [(k, v)]) ++ _ } : Bucket K V) = _
        rw [hfilter_pos hbit]
        simp [List.append_assoc]
    · have hbitf : Nat.testBit (hash k) d = false := by simpa using hbit
      have hstep : splitStep hash d (keep, nb) (k, v) = (keep ++ [(k, v)], nb) := by
        unfold splitStep
        rw [if_neg (by simp [hbitf])]
      rw [hstep]
      have h1 : (rest.map Prod.fst).Nodup := (List.nodup_cons.mp hnodup).2
      have h2 : ∀ it ∈ rest, assocFind nb.list it.1 = none := fun it hit =>
        hfind it (by simp [hit])
      have h3 : nb.list.length +
          (rest.filter (fun it => Nat.testBit (hash it.1) d)).length ≤ nb.size := by
        rw [hfilter_neg hbitf] at hcap
        exact hcap
      rw [ih (keep ++ [(k, v)]) nb h1 h2 h3]
      refine Prod.ext ?_ ?_
      · show (keep ++ [(k, v)]) ++ _ = keep ++ _
        rw [List.filter_cons]
        simp [hbitf, List.append_assoc]
      · show _ = ({ nb with list := nb.list ++ _ } : Bucket K V)
        rw [hfilter_neg hbitf]

/-- The freshly constructed table satisfies the invariant. -/
theorem inv_mkNew (hash : K → Nat) (bucket_size : Nat) :
    Inv hash (Table.mkNew K V bucket_size) := by
  refine ⟨?_, ?_, ?_, ?_, ?_, ?_, ?_, ?_, ?_⟩
  · rfl
  · intro bid hbid
    simp [Table.mkNew] at hbid
    simp [Table.mkNew, hbid]
  · intro bid hbid
    simp [Table.mkNew] at hbid
    simp [Table.mkNew, Table.bucketAt, hbid]
  · intro i j hi hj _
    simp [Table.mkNew] at hi hj
    subst hi; subst hj
    rfl
  · intro i j hi hj _
    simp [Table.mkNew] at hi hj
    subst hi; subst hj
    rfl
  · intro i hi it hit
    simp [Table.mkNew] at hi
    simp [Table.mkNew, Table.bucketAt, hi] at hit
  · intro bid hbid
    simp [Table.mkNew] at hbid
    simp [Table.mkNew, hbid]
  · intro bid hbid
    simp [Table.mkNew] at hbid
    simp [Table.mkNew, hbid]
  · intro bid hbid
    simp [Table.mkNew] at hbid
    simp [Table.mkNew, hbid]

/-- Doubling the directory (the `global_depth_ == local depth` branch of
`Insert`) preserves the invariant. -/
theorem inv_double (hash : K → Nat) (t : Table K V) (hinv : Inv hash t) :
    Inv hash { t with global_depth := t.global_depth + 1, dir := t.dir ++ t.dir } := by
  have hlen := hinv.dir_len
  have hlen0 : 0 < t.dir.length := by
    rw [hlen]; exact Nat.pos_pow_of_pos _ (by norm_num)
  have hba : ∀ x, Table.bucketAt
      { t with global_depth := t.global_depth + 1, dir := t.dir ++ t.dir } x =
      t.bucketAt x := fun _ => rfl
  have hlen2 : (t.dir ++ t.dir).length = 2 * t.dir.length := by
    rw [List.length_append]; omega
  have hmodlt : ∀ i : Nat, i % t.dir.length < t.dir.length := fun i => Nat.mod_lt _ hlen0
  have hmodpow : ∀ (i : Nat) (dp : Nat), dp ≤ t.global_depth →
      i % t.dir.length % 2 ^ dp = i % 2 ^ dp := by
    intro i dp hdp
    rw [hlen]
    exact mod_mod_pow i dp t.global_depth hdp
  refine ⟨?_, ?_, ?_, ?_, ?_, ?_, ?_, ?_, ?_⟩
  · show (t.dir ++ t.dir).length = 2 ^ (t.global_depth + 1)
    rw [hlen2, hlen, pow_succ]
    omega
  · intro bid hbid
    rcases List.mem_append.mp hbid with h | h <;> exact hinv.bids_lt bid h
  · intro bid hbid
    rcases List.mem_append.mp hbid with h | h <;>
      exact le_trans (hinv.depth_le bid h) (Nat.le_succ _)
  · intro i j hi hj heq
    rw [hlen2] at hi hj
    rw [double_getD t.dir i hi] at heq ⊢
    rw [double_getD t.dir j hj] at heq
    rw [hba]
    have hold := hinv.alias_cong _ _ (hmodlt i) (hmodlt j) heq
    have hdp := hinv.depth_le _ (getD_mem _ _ (hmodlt i))
    rw [hmodpow i _ hdp, hmodpow j _ hdp] at hold
    exact hold
  · intro i j hi hj heq
    rw [hlen2] at hi hj
    rw [double_getD t.dir i hi] at heq ⊢
    rw [double_getD t.dir j hj]
    rw [hba] at heq
    have hdp := hinv.depth_le _ (getD_mem _ _ (hmodlt i))
    rw [← hmodpow i _ hdp, ← hmodpow j _ hdp] at heq
    exact hinv.cong_alias _ _ (hmodlt i) (hmodlt j) heq
  · intro i hi it hit
    rw [hlen2] at hi
    rw [double_getD t.dir i hi] at hit ⊢
    rw [hba] at hit ⊢
    have hold := hinv.placement _ (hmodlt i) it hit
    have hdp := hinv.depth_le _ (getD_mem _ _ (hmodlt i))
    rw [hmodpow i _ hdp] at hold
    exact hold
  · exact hinv.keys_nodup
  · exact hinv.cap_le
  · exact hinv.cap_eq

/-- `SplitBucket` preserves the invariant, provided the split bucket is
referenced by the directory and its local depth is strictly below the global
depth (which `Insert` guarantees by doubling first). -/
theorem inv_split (hash : K → Nat) (t : Table K V) (hinv : Inv hash t)
    (bid : Nat) (hbid : bid ∈ t.dir)
    (hdlt : (t.bucketAt bid).depth < t.global_depth) :
    Inv hash (Table.SplitBucket hash t bid) := by
  have hbidlt : bid < t.store.length := hinv.bids_lt bid hbid
  have hnodupb : ((t.bucketAt bid).list.map Prod.fst).Nodup := hinv.keys_nodup bid hbidlt
  have hfind0 : ∀ it ∈ (t.bucketAt bid).list, assocFind ([] : List (K × V)) it.1 = none :=
    fun _ _ => rfl
  have hcap0 : ([] : List (K × V)).length +
      ((t.bucketAt bid).list.filter
        (fun it => Nat.testBit (hash it.1) (t.bucketAt bid).depth)).length ≤
      (⟨t.bucket_size, (t.bucketAt bid).depth + 1, []⟩ : Bucket K V).size := by
    show 0 + _ ≤ t.bucket_size
    rw [Nat.zero_add]
    calc _ ≤ (t.bucketAt bid).list.length := List.length_filter_le _ _
    _ ≤ (t.bucketAt bid).size := hinv.cap_le bid hbidlt
    _ = t.bucket_size := hinv.cap_eq bid hbidlt
  have hfold := split_fold hash (t.bucketAt bid).depth (t.bucketAt bid).list []
    ⟨t.bucket_size, (t.bucketAt bid).depth + 1, []⟩ hnodupb hfind0 hcap0
  have hsplit_eq : Table.SplitBucket hash t bid =
      { t with num_buckets := t.num_buckets + 1,
               dir := t.dir.mapIdx (fun i e =>
                 if e = bid ∧ Nat.testBit i (t.bucketAt bid).depth then t.store.length else e),
               store := t.store.set bid
                   { t.bucketAt bid with
                     depth := (t.bucketAt bid).depth + 1,
                     list := (t.bucketAt bid).list.filter
                       (fun it => ! Nat.testBit (hash it.1) (t.bucketAt bid).depth) } ++
                 [⟨t.bucket_size, (t.bucketAt bid).depth + 1,
                   (t.bucketAt bid).list.filter
                     (fun it => Nat.testBit (hash it.1) (t.bucketAt bid).depth)⟩] } := by
    simp only [Table.SplitBucket]
    rw [hfold]
    simp
  rw [hsplit_eq]
  set d := (t.bucketAt bid).depth with hd
  set newid := t.store.length with hnewid
  set E0 := (t.bucketAt bid).list.filter (fun it => ! Nat.testBit (hash it.1) d) with hE0
  set E1 := (t.bucketAt bid).list.filter (fun it => Nat.testBit (hash it.1) d) with hE1
  set b2 : Bucket K V := { t.bucketAt bid with depth := d + 1, list := E0 } with hb2
  set nb : Bucket K V := ⟨t.bucket_size, d + 1, E1⟩ with hnb
  set dirNew := t.dir.mapIdx (fun i e =>
    if e = bid ∧ Nat.testBit i d then newid else e) with hdirNew
  set storeNew := t.store.set bid b2 ++ [nb] with hstoreNew
  have hlenNew : dirNew.length = t.dir.length := by
    rw [hdirNew]; simp
  have hsetlen : (t.store.set bid b2).length = t.store.length := by simp
  have hstoreLen : storeNew.length = t.store.length + 1 := by
    rw [hstoreNew, List.length_append, hsetlen]; rfl
  have hgd : ∀ i, i < t.dir.length → dirNew.getD i 0 =
      if t.dir.getD i 0 = bid ∧ Nat.testBit i d then newid else t.dir.getD i 0 :=
    fun i hi => getD_mapIdx t.dir _ i hi
  have hAtBid : storeNew.getD bid ⟨0, 0, []⟩ = b2 := by
    rw [hstoreNew, List.getD_append _ _ _ _ (by rw [hsetlen]; exact hbidlt)]
    exact getD_set_self t.store bid b2 hbidlt
  have hAtNew : storeNew.getD newid ⟨0, 0, []⟩ = nb := by
    rw [hstoreNew, List.getD_append_right _ _ _ _ (by rw [hsetlen])]
    rw [hsetlen]
    simp
  have hAtOld : ∀ x, x < t.store.length → x ≠ bid →
      storeNew.getD x ⟨0, 0, []⟩ = t.store.getD x ⟨0, 0, []⟩ := by
    intro x hx hne
    rw [hstoreNew, List.getD_append _ _ _ _ (by rw [hsetlen]; exact hx)]
    exact getD_set_ne t.store bid x b2 (fun h => hne h.symm) hx
  have holddir : ∀ i, i < t.dir.length → t.dir.getD i 0 < newid :=
    fun i hi => hinv.bids_lt _ (getD_mem _ _ hi)
  have hdepth_at : ∀ i, i < t.dir.length → t.dir.getD i 0 = bid →
      (t.bucketAt (t.dir.getD i 0)).depth = d := by
    intro i hi hieq; rw [hieq]
  have hbat : ∀ x, Table.bucketAt
      { t with num_buckets := t.num_buckets + 1, dir := dirNew, store := storeNew } x =
      storeNew.getD x ⟨0, 0, []⟩ := fun _ => rfl
  have hstor :
      ({ t with num_buckets := t.num_buckets + 1, dir := dirNew, store := storeNew } :
        Table K V).store = storeNew := rfl
  have hdir2 :
      ({ t with num_buckets := t.num_buckets + 1, dir := dirNew, store := storeNew } :
        Table K V).dir = dirNew := rfl
  have hglob :
      ({ t with num_buckets := t.num_buckets + 1, dir := dirNew, store := storeNew } :
        Table K V).global_depth = t.global_depth := rfl
  have hbsz :
      ({ t with num_buckets := t.num_buckets + 1, dir := dirNew, store := storeNew } :
        Table K V).bucket_size = t.bucket_size := rfl
  refine ⟨?_, ?_, ?_, ?_, ?_, ?_, ?_, ?_, ?_⟩ <;>
    simp only [hbat, hstor, hdir2, hglob, hbsz]
  · rw [hlenNew, hinv.dir_len]
  · intro x hx
    obtain ⟨i, hi, hgx⟩ := List.mem_iff_getElem.mp hx
    rw [hlenNew] at hi
    have hgx2 : dirNew.getD i 0 = x := by
      rw [List.getD_eq_getElem _ _ (by rw [hlenNew]; exact hi)]
      exact hgx
    rw [hstoreLen, ← hgx2, hgd i hi]
    by_cases ci : t.dir.getD i 0 = bid ∧ Nat.testBit i d
    · rw [if_pos ci]; omega
    · rw [if_neg ci]
      have := holddir i hi
      omega
  · intro x hx
    obtain ⟨i, hi, hgx⟩ := List.mem_iff_getElem.mp hx
    rw [hlenNew] at hi
    have hgx2 : dirNew.getD i 0 = x := by
      rw [List.getD_eq_getElem _ _ (by rw [hlenNew]; exact hi)]
      exact hgx
    rw [← hgx2, hgd i hi]
    by_cases ci : t.dir.getD i 0 = bid ∧ Nat.testBit i d
    · rw [if_pos ci, hAtNew]
      show d + 1 ≤ t.global_depth
      omega
    · rw [if_neg ci]
      by_cases hib : t.dir.getD i 0 = bid
      · rw [hib, hAtBid]
        show d + 1 ≤ t.global_depth
        omega
      · rw [hAtOld _ (holddir i hi) hib]
        exact hinv.depth_le _ (getD_mem _ _ hi)
  · -- alias_cong
    intro i j hi hj heq
    rw [hlenNew] at hi hj
    rw [hgd i hi, hgd j hj] at heq
    rw [hgd i hi]
    by_cases ci : t.dir.getD i 0 = bid ∧ Nat.testBit i d
    · rw [if_pos ci] at heq ⊢
      by_cases cj : t.dir.getD j 0 = bid ∧ Nat.testBit j d
      · rw [hAtNew]
        have hold := hinv.alias_cong i j hi hj (by rw [ci.1, cj.1])
        rw [hdepth_at i hi ci.1] at hold
        show i % 2 ^ (d + 1) = j % 2 ^ (d + 1)
        rw [mod_pow_succ_iff]
        exact ⟨hold, by rw [ci.2, cj.2]⟩
      · rw [if_neg cj] at heq
        exact absurd heq.symm (Nat.ne_of_lt (holddir j hj))
    · rw [if_neg ci] at heq ⊢
      by_cases cj : t.dir.getD j 0 = bid ∧ Nat.testBit j d
      · rw [if_pos cj] at heq
        exact absurd heq (Nat.ne_of_lt (holddir i hi))
      · rw [if_neg cj] at heq
        have hold := hinv.alias_cong i j hi hj heq
        by_cases hib : t.dir.getD i 0 = bid
        · have hjb : t.dir.getD j 0 = bid := by rw [← heq]; exact hib
          have hbi : ¬ Nat.testBit i d := fun h => ci ⟨hib, h⟩
          have hbj : ¬ Nat.testBit j d := fun h => cj ⟨hjb, h⟩
          rw [hib, hAtBid]
          rw [hdepth_at i hi hib] at hold
          show i % 2 ^ (d + 1) = j % 2 ^ (d + 1)
          rw [mod_pow_succ_iff]
          refine ⟨hold, ?_⟩
          rw [Bool.eq_false_iff.mpr hbi, Bool.eq_false_iff.mpr hbj]
        · rw [hAtOld _ (holddir i hi) hib]
          exact hold
  · -- cong_alias
    intro i j hi hj heq
    rw [hlenNew] at hi hj
    rw [hgd i hi] at heq
    rw [hgd i hi, hgd j hj]
    by_cases ci : t.dir.getD i 0 = bid ∧ Nat.testBit i d
    · rw [if_pos ci] at heq ⊢
      rw [hAtNew] at heq
      have heq2 : i % 2 ^ (d + 1) = j % 2 ^ (d + 1) := heq
      rw [mod_pow_succ_iff] at heq2
      have hold := hinv.cong_alias i j hi hj
        (by rw [hdepth_at i hi ci.1]; exact heq2.1)
      have hjb : t.dir.getD j 0 = bid := by rw [hold, ci.1]
      have hbj : Nat.testBit j d := by rw [← heq2.2]; exact ci.2
      rw [if_pos ⟨hjb, hbj⟩]
    · rw [if_neg ci] at heq ⊢
      by_cases hib : t.dir.getD i 0 = bid
      · rw [hib, hAtBid] at heq
        have heq2 : i % 2 ^ (d + 1) = j % 2 ^ (d + 1) := heq
        rw [mod_pow_succ_iff] at heq2
        have hold := hinv.cong_alias i j hi hj
          (by rw [hdepth_at i hi hib]; exact heq2.1)
        have hjb : t.dir.getD j 0 = bid := by rw [hold, hib]
        have hbi : ¬ Nat.testBit i d := fun h => ci ⟨hib, h⟩
        have hbj : ¬ Nat.testBit j d := by
          intro h
          rw [← heq2.2] at h
          exact hbi h
        rw [if_neg (fun h => hbj h.2), hjb, hib]
      · rw [hAtOld _ (holddir i hi) hib] at heq
        have hold := hinv.cong_alias i j hi hj heq
        have hjb : t.dir.getD j 0 ≠ bid := by rw [hold]; exact hib
        rw [if_neg (fun h => hjb h.1), hold]
  · -- placement
    intro i hi it hit
    rw [hlenNew] at hi
    rw [hgd i hi] at hit ⊢
    by_cases ci : t.dir.getD i 0 = bid ∧ Nat.testBit i d
    · rw [if_pos ci] at hit ⊢
      rw [hAtNew] at hit ⊢
      have hitE1 : it ∈ E1 := hit
      rw [hE1, List.mem_filter] at hitE1
      have hold := hinv.placement i hi it (by rw [ci.1]; exact hitE1.1)
      rw [hdepth_at i hi ci.1] at hold
      show hash it.1 % 2 ^ (d + 1) = i % 2 ^ (d + 1)
      rw [mod_pow_succ_iff]
      exact ⟨hold, by rw [hitE1.2, ci.2]⟩
    · rw [if_neg ci] at hit ⊢
      by_cases hib : t.dir.getD i 0 = bid
      · rw [hib, hAtBid] at hit ⊢
        have hitE0 : it ∈ E0 := hit
        rw [hE0, List.mem_filter] at hitE0
        have hold := hinv.placement i hi it (by rw [hib]; exact hitE0.1)
        rw [hdepth_at i hi hib] at hold
        show hash it.1 % 2 ^ (d + 1) = i % 2 ^ (d + 1)
        rw [mod_pow_succ_iff]
        refine ⟨hold, ?_⟩
        have hbi : ¬ Nat.testBit i d := fun h => ci ⟨hib, h⟩
        have hbh : Nat.testBit (hash it.1) d = false := by
          simpa using hitE0.2
        rw [hbh, Bool.eq_false_iff.mpr hbi]
      · rw [hAtOld _ (holddir i hi) hib] at hit ⊢
        exact hinv.placement i hi it hit
  · -- keys_nodup
    intro x hx
    rw [hstoreLen] at hx
    by_cases hxb : x = bid
    · rw [hxb, hAtBid]
      show (E0.map Prod.fst).Nodup
      exact hnodupb.sublist (List.Sublist.map _ (List.filter_sublist _))
    · by_cases hxn : x = newid
      · rw [hxn, hAtNew]
        show (E1.map Prod.fst).Nodup
        exact hnodupb.sublist (List.Sublist.map _ (List.filter_sublist _))
      · have hxlt : x < t.store.length := by
          rw [hnewid] at hxn
          omega
        rw [hAtOld x hxlt hxb]
        exact hinv.keys_nodup x hxlt
  · -- cap_le
    intro x hx
    rw [hstoreLen] at hx
    by_cases hxb : x = bid
    · rw [hxb, hAtBid]
      show E0.length ≤ (t.bucketAt bid).size
      calc E0.length ≤ (t.bucketAt bid).list.length := List.length_filter_le _ _
      _ ≤ (t.bucketAt bid).size := hinv.cap_le bid hbidlt
    · by_cases hxn : x = newid
      · rw [hxn, hAtNew]
        show E1.length ≤ t.bucket_size
        calc E1.length ≤ (t.bucketAt bid).list.length := List.length_filter_le _ _
        _ ≤ (t.bucketAt bid).size := hinv.cap_le bid hbidlt
        _ = t.bucket_size := hinv.cap_eq bid hbidlt
      · have hxlt : x < t.store.length := by
          rw [hnewid] at hxn
          omega
        rw [hAtOld x hxlt hxb]
        exact hinv.cap_le x hxlt
  · -- cap_eq
    intro x hx
    rw [hstoreLen] at hx
    by_cases hxb : x = bid
    · rw [hxb, hAtBid]
      show (t.bucketAt bid).size = t.bucket_size
      exact hinv.cap_eq bid hbidlt
    · by_cases hxn : x = newid
      · rw [hxn, hAtNew]
      · have hxlt : x < t.store.length := by
          rw [hnewid] at hxn
          omega
        rw [hAtOld x hxlt hxb]
        exact hinv.cap_eq x hxlt

/-- Replacing a directory-referenced bucket with one of the same depth and
capacity, distinct keys within capacity, and correctly placed keys preserves
the invariant.  This covers every in-place bucket mutation of the source
(`Bucket::Insert` in all three outcomes, and `Bucket::Remove`). -/
theorem inv_set_bucket (hash : K → Nat) (t : Table K V) (hinv : Inv hash t)
    (bid : Nat) (hbidin : bid ∈ t.dir) (nb : Bucket K V)
    (hdepth : nb.depth = (t.bucketAt bid).depth)
    (hsize : nb.size = (t.bucketAt bid).size)
    (hnodup : (nb.list.map Prod.fst).Nodup)
    (hlen : nb.list.length ≤ nb.size)
    (hplace : ∀ i, i < t.dir.length → t.dir.getD i 0 = bid →
      ∀ it ∈ nb.list, hash it.1 % 2 ^ nb.depth = i % 2 ^ nb.depth) :
    Inv hash { t with store := t.store.set bid nb } := by
  have hbidlt : bid < t.store.length := hinv.bids_lt bid hbidin
  set storeNew := t.store.set bid nb with hstoreNew
  have hsetlen : storeNew.length = t.store.length := by rw [hstoreNew]; simp
  have hAtBid : storeNew.getD bid ⟨0, 0, []⟩ = nb := getD_set_self t.store bid nb hbidlt
  have hAtOld : ∀ x, x < t.store.length → x ≠ bid →
      storeNew.getD x ⟨0, 0, []⟩ = t.store.getD x ⟨0, 0, []⟩ := fun x hx hne =>
    getD_set_ne t.store bid x nb (fun h => hne h.symm) hx
  have hAtAny : ∀ x, x < t.store.length →
      ((storeNew.getD x ⟨0, 0, []⟩).depth = (t.store.getD x ⟨0, 0, []⟩).depth ∧
       (storeNew.getD x ⟨0, 0, []⟩).size = (t.store.getD x ⟨0, 0, []⟩).size) := by
    intro x hx
    by_cases hxb : x = bid
    · rw [hxb, hAtBid]
      exact ⟨hdepth, hsize⟩
    · rw [hAtOld x hx hxb]
      exact ⟨rfl, rfl⟩
  have hbat : ∀ x, Table.bucketAt { t with store := storeNew } x =
      storeNew.getD x ⟨0, 0, []⟩ := fun _ => rfl
  have hstor : ({ t with store := storeNew } : Table K V).store = storeNew := rfl
  have hdir2 : ({ t with store := storeNew } : Table K V).dir = t.dir := rfl
  have hglob : ({ t with store := storeNew } : Table K V).global_depth =
    t.global_depth := rfl
  have hbsz : ({ t with store := storeNew } : Table K V).bucket_size =
    t.bucket_size := rfl
  have hdirlt : ∀ i, i < t.dir.length → t.dir.getD i 0 < t.store.length :=
    fun i hi => hinv.bids_lt _ (getD_mem _ _ hi)
  refine ⟨?_, ?_, ?_, ?_, ?_, ?_, ?_, ?_, ?_⟩ <;>
    simp only [hbat, hstor, hdir2, hglob, hbsz]
  · exact hinv.dir_len
  · intro x hx
    rw [hsetlen]
    exact hinv.bids_lt x hx
  · intro x hx
    have hxlt : x < t.store.length := hinv.bids_lt x hx
    rcases hAtAny x hxlt with ⟨hdx, _⟩
    rw [hdx]
    exact hinv.depth_le x hx
  · intro i j hi hj heq
    rcases hAtAny _ (hdirlt i hi) with ⟨hdx, _⟩
    rw [hdx]
    exact hinv.alias_cong i j hi hj heq
  · intro i j hi hj heq
    rcases hAtAny _ (hdirlt i hi) with ⟨hdx, _⟩
    rw [hdx] at heq
    exact hinv.cong_alias i j hi hj heq
  · intro i hi it hit
    by_cases hib : t.dir.getD i 0 = bid
    · rw [hib, hAtBid] at hit ⊢
      rw [hdepth] at hplace
      have := hplace i hi hib it hit
      rw [hdepth]
      exact this
    · rw [hAtOld _ (hdirlt i hi) hib] at hit ⊢
      exact hinv.placement i hi it hit
  · intro x hx
    rw [hsetlen] at hx
    by_cases hxb : x = bid
    · rw [hxb, hAtBid]
      exact hnodup
    · rw [hAtOld x hx hxb]
      exact hinv.keys_nodup x hx
  · intro x hx
    rw [hsetlen] at hx
    by_cases hxb : x = bid
    · rw [hxb, hAtBid]
      exact hlen
    · rw [hAtOld x hx hxb]
      exact hinv.cap_le x hx
  · intro x hx
    rw [hsetlen] at hx
    by_cases hxb : x = bid
    · rw [hxb, hAtBid, hsize]
      exact hinv.cap_eq bid hbidlt
    · rw [hAtOld x hx hxb]
      exact hinv.cap_eq x hx

/-- `Remove` preserves the invariant. -/
theorem inv_removeKey (hash : K → Nat) (t : Table K V) (hinv : Inv hash t) (key : K) :
    Inv hash (Table.removeKey hash t key).2 := by
  have hidx : Table.IndexOf hash t key < t.dir.length := by
    rw [hinv.dir_len]
    exact Nat.mod_lt _ (Nat.pos_pow_of_pos _ (by norm_num))
  have hbidin : t.dir.getD (Table.IndexOf hash t key) 0 ∈ t.dir := getD_mem _ _ hidx
  set bid := t.dir.getD (Table.IndexOf hash t key) 0 with hbid
  have hbidlt : bid < t.store.length := hinv.bids_lt bid hbidin
  have hsub : ((t.bucketAt bid).removeKey key).2.list.Sublist (t.bucketAt bid).list :=
    assocErase_sublist _ _
  refine inv_set_bucket hash t hinv bid hbidin _ rfl rfl ?_ ?_ ?_
  · exact (hinv.keys_nodup bid hbidlt).sublist (List.Sublist.map _ hsub)
  · calc ((t.bucketAt bid).removeKey key).2.list.length
        ≤ (t.bucketAt bid).list.length := hsub.length_le
    _ ≤ (t.bucketAt bid).size := hinv.cap_le bid hbidlt
  · intro i hi hib it hit
    have hmem : it ∈ (t.bucketAt bid).list := hsub.mem hit
    have := hinv.placement i hi it (by rw [hib]; exact hmem)
    rw [hib] at this
    exact this

/-- The successful-`Bucket::Insert` store update of the `Insert` loop
preserves the invariant (all three outcomes of `Bucket::Insert` are
covered). -/
theorem inv_insert_set (hash : K → Nat) (t : Table K V) (hinv : Inv hash t)
    (key : K) (value : V) :
    Inv hash { t with store := t.store.set (t.dir.getD (Table.IndexOf hash t key) 0) ((t.bucketAt (t.dir.getD (Table.IndexOf hash t key) 0)).insertKV key value).2 } := by
  have hidx : Table.IndexOf hash t key < t.dir.length := by
    rw [hinv.dir_len]
    exact Nat.mod_lt _ (Nat.pos_pow_of_pos _ (by norm_num))
  have hbidin : t.dir.getD (Table.IndexOf hash t key) 0 ∈ t.dir := getD_mem _ _ hidx
  set bid := t.dir.getD (Table.IndexOf hash t key) 0 with hbid
  have hbidlt : bid < t.store.length := hinv.bids_lt bid hbidin
  have hplace_old : ∀ i, i < t.dir.length → t.dir.getD i 0 = bid →
      ∀ it ∈ (t.bucketAt bid).list,
        hash it.1 % 2 ^ (t.bucketAt bid).depth = i % 2 ^ (t.bucketAt bid).depth := by
    intro i hi hib it hit
    have := hinv.placement i hi it (by rw [hib]; exact hit)
    rw [hib] at this
    exact this
  have hplace_key : ∀ i, i < t.dir.length → t.dir.getD i 0 = bid →
      hash key % 2 ^ (t.bucketAt bid).depth = i % 2 ^ (t.bucketAt bid).depth := by
    intro i hi hib
    have hdple : (t.bucketAt bid).depth ≤ t.global_depth := hinv.depth_le bid hbidin
    have halias := hinv.alias_cong (Table.IndexOf hash t key) i hidx hi
      (by rw [hib, hbid])
    rw [← hbid] at halias
    have hh : hash key % 2 ^ (t.bucketAt bid).depth =
        Table.IndexOf hash t key % 2 ^ (t.bucketAt bid).depth := by
      show hash key % 2 ^ (t.bucketAt bid).depth =
        hash key % 2 ^ t.global_depth % 2 ^ (t.bucketAt bid).depth
      rw [mod_mod_pow _ _ _ hdple]
    rw [hh]
    exact halias
  cases hov : assocOverwrite (t.bucketAt bid).list key value with
  | some l2 =>
    have hkv : ((t.bucketAt bid).insertKV key value).2 =
        { t.bucketAt bid with list := l2 } := by
      unfold Bucket.insertKV
      rw [hov]
    rw [hkv]
    have hkeys := assocOverwrite_some_keys _ _ _ _ hov
    refine inv_set_bucket hash t hinv bid hbidin _ rfl rfl ?_ ?_ ?_
    · show (l2.map Prod.fst).Nodup
      rw [hkeys]
      exact hinv.keys_nodup bid hbidlt
    · show l2.length ≤ (t.bucketAt bid).size
      have : l2.length = (t.bucketAt bid).list.length := by
        have h1 : (l2.map Prod.fst).length = ((t.bucketAt bid).list.map Prod.fst).length := by
          rw [hkeys]
        simpa using h1
      rw [this]
      exact hinv.cap_le bid hbidlt
    · intro i hi hib it hit
      have hkey : it.1 ∈ (t.bucketAt bid).list.map Prod.fst := by
        rw [← hkeys]
        exact List.mem_map_of_mem _ hit
      obtain ⟨it0, hit0, hkeq⟩ := List.mem_map.mp hkey
      have := hplace_old i hi hib it0 hit0
      show hash it.1 % 2 ^ (t.bucketAt bid).depth = i % 2 ^ (t.bucketAt bid).depth
      rw [← hkeq]
      exact this
  | none =>
    by_cases hfull : (t.bucketAt bid).IsFull
    · have hkv : ((t.bucketAt bid).insertKV key value).2 = t.bucketAt bid := by
        unfold Bucket.insertKV
        rw [hov, if_pos hfull]
      rw [hkv]
      refine inv_set_bucket hash t hinv bid hbidin _ rfl rfl
        (hinv.keys_nodup bid hbidlt) (hinv.cap_le bid hbidlt) hplace_old
    · have hkv : ((t.bucketAt bid).insertKV key value).2 =
          { t.bucketAt bid with list := (t.bucketAt bid).list ++ [(key, value)] } := by
        unfold Bucket.insertKV
        rw [hov, if_neg hfull]
      rw [hkv]
      refine inv_set_bucket hash t hinv bid hbidin _ rfl rfl ?_ ?_ ?_
      · show (((t.bucketAt bid).list ++ [(key, value)]).map Prod.fst).Nodup
        rw [List.map_append]
        rw [List.nodup_append]
        refine ⟨hinv.keys_nodup bid hbidlt, by simp, ?_⟩
        intro a ha hain
        simp only [List.map_cons, List.map_nil, List.mem_singleton] at hain
        obtain ⟨it, hit, hfst⟩ := List.mem_map.mp ha
        exact (assocOverwrite_eq_none_iff _ key value).mp hov it hit (by rw [hfst, hain])
      · show ((t.bucketAt bid).list ++ [(key, value)]).length ≤ (t.bucketAt bid).size
        rw [List.length_append]
        have hne : (t.bucketAt bid).list.length ≠ (t.bucketAt bid).size := by
          intro habs
          apply hfull
          unfold Bucket.IsFull
          simp [habs]
        have hcap2 : (t.bucketAt bid).list.length ≤ (t.bucketAt bid).size :=
          hinv.cap_le bid hbidlt
        simp only [List.length_cons, List.length_nil]
        omega
      · intro i hi hib it hit
        rcases List.mem_append.mp hit with h1 | h2
        · exact hplace_old i hi hib it h1
        · have : it = (key, value) := by simpa using h2
          rw [this]
          exact hplace_key i hi hib

/-- Each iteration of the `Insert` retry loop preserves the invariant. -/
theorem inv_insertLoop (hash : K → Nat) (key : K) (value : V) :
    ∀ (fuel : Nat) (t : Table K V), Inv hash t →
      Inv hash (Table.InsertLoop hash fuel t key value) := by
  intro fuel
  induction fuel with
  | zero => intro t hinv; exact hinv
  | succ n ih =>
    intro t hinv
    rw [Table.InsertLoop]
    by_cases hp : ((t.bucketAt (t.dir.getD (Table.IndexOf hash t key) 0)).insertKV key value).1
    · simp only [hp, if_true]
      exact inv_insert_set hash t hinv key value
    · simp only [Bool.not_eq_true] at hp
      simp only [hp, Bool.false_eq_true, if_false]
      have hidx : Table.IndexOf hash t key < t.dir.length := by
        rw [hinv.dir_len]
        exact Nat.mod_lt _ (Nat.pos_pow_of_pos _ (by norm_num))
      have hbidin : t.dir.getD (Table.IndexOf hash t key) 0 ∈ t.dir := getD_mem _ _ hidx
      by_cases hdg : (t.bucketAt (t.dir.getD (Table.IndexOf hash t key) 0)).depth =
          t.global_depth
      · simp only [hdg, if_true]
        refine ih _ (inv_split hash _ (inv_double hash t hinv) _ ?_ ?_)
        · exact List.mem_append.mpr (Or.inl hbidin)
        · show (t.bucketAt _).depth < t.global_depth + 1
          omega
      · simp only [hdg, if_false]
        refine ih _ (inv_split hash t hinv _ hbidin ?_)
        exact lt_of_le_of_ne (hinv.depth_le _ hbidin) hdg

/-- Erasing a key from a duplicate-free association list removes it. -/
theorem assocFind_erase_self (l : List (K × V)) (k : K)
    (hnd : (l.map Prod.fst).Nodup) : assocFind (assocErase l k).2 k = none := by
  induction l with
  | nil => rfl
  | cons hd tl ih =>
    obtain ⟨k', v⟩ := hd
    simp only [List.map_cons, List.nodup_cons] at hnd
    by_cases hk : k' = k
    · rw [assocErase, if_pos hk]
      rw [assocFind_eq_none_iff]
      intro it hit habs
      exact hnd.1 (by rw [hk, ← habs]; exact List.mem_map_of_mem Prod.fst hit)
    · rw [assocErase, if_neg hk]
      show assocFind ((k', v) :: (assocErase tl k).2) k = none
      rw [assocFind, if_neg hk]
      exact ih hnd.2
  termination_by l.length

/-- Under the invariant, a key that `Find` does not see is in no
directory-referenced bucket at all. -/
theorem noKeyDir_of_findKey_none (hash : K → Nat) (t : Table K V) (hinv : Inv hash t)
    (k : K) (hf : Table.findKey hash t k = none) : NoKeyDir t k := by
  intro j hj it hit habs
  have hidx : Table.IndexOf hash t k < t.dir.length := by
    rw [hinv.dir_len]
    exact Nat.mod_lt _ (Nat.pos_pow_of_pos _ (by norm_num))
  have hdple : (t.bucketAt (t.dir.getD j 0)).depth ≤ t.global_depth :=
    hinv.depth_le _ (getD_mem _ _ hj)
  have hplace := hinv.placement j hj it hit
  rw [habs] at hplace
  have hcong : Table.IndexOf hash t k % 2 ^ (t.bucketAt (t.dir.getD j 0)).depth =
      j % 2 ^ (t.bucketAt (t.dir.getD j 0)).depth := by
    have : Table.IndexOf hash t k % 2 ^ (t.bucketAt (t.dir.getD j 0)).depth =
        hash k % 2 ^ (t.bucketAt (t.dir.getD j 0)).depth := by
      show hash k % 2 ^ t.global_depth % 2 ^ (t.bucketAt (t.dir.getD j 0)).depth = _
      rw [mod_mod_pow _ _ _ hdple]
    rw [this, hplace]
  have halias := hinv.cong_alias j (Table.IndexOf hash t k) hj hidx hcong.symm
  unfold Table.findKey at hf
  rw [halias] at hf
  rw [Bucket.findKey, assocFind_eq_none_iff] at hf
  exact hf it hit habs

/-- Under the invariant, a key in no directory-referenced bucket is not
found. -/
theorem findKey_none_of_noKeyDir (hash : K → Nat) (t : Table K V) (hinv : Inv hash t)
    (k : K) (hno : NoKeyDir t k) : Table.findKey hash t k = none := by
  have hidx : Table.IndexOf hash t k < t.dir.length := by
    rw [hinv.dir_len]
    exact Nat.mod_lt _ (Nat.pos_pow_of_pos _ (by norm_num))
  unfold Table.findKey
  rw [Bucket.findKey, assocFind_eq_none_iff]
  exact hno _ hidx

/-- After `Remove(k)`, `Find(k)` fails. -/
theorem removeKey_findKey_none (hash : K → Nat) (t : Table K V) (hinv : Inv hash t)
    (k : K) : Table.findKey hash (Table.removeKey hash t k).2 k = none := by
  have hidx : Table.IndexOf hash t k < t.dir.length := by
    rw [hinv.dir_len]
    exact Nat.mod_lt _ (Nat.pos_pow_of_pos _ (by norm_num))
  have hbidlt : t.dir.getD (Table.IndexOf hash t k) 0 < t.store.length :=
    hinv.bids_lt _ (getD_mem _ _ hidx)
  have hsame : Table.IndexOf hash (Table.removeKey hash t k).2 k =
      Table.IndexOf hash t k := rfl
  unfold Table.findKey
  rw [hsame]
  show ((Table.removeKey hash t k).2.bucketAt (t.dir.getD (Table.IndexOf hash t k) 0)).findKey
    k = none
  have hat : (Table.removeKey hash t k).2.bucketAt (t.dir.getD (Table.IndexOf hash t k) 0) =
      ((t.bucketAt (t.dir.getD (Table.IndexOf hash t k) 0)).removeKey k).2 := by
    show (t.store.set _ _).getD _ ⟨0, 0, []⟩ = _
    exact getD_set_self _ _ _ hbidlt
  rw [hat]
  show assocFind (assocErase (t.bucketAt (t.dir.getD (Table.IndexOf hash t k) 0)).list k).2
    k = none
  exact assocFind_erase_self _ k (hinv.keys_nodup _ hbidlt)

/-- The directory-rewiring/redistribution equation for `SplitBucket`, under
the invariant. -/
theorem SplitBucket_eq (hash : K → Nat) (t : Table K V) (hinv : Inv hash t)
    (bid : Nat) (hbidlt : bid < t.store.length) :
    Table.SplitBucket hash t bid =
      { t with num_buckets := t.num_buckets + 1,
               dir := t.dir.mapIdx (fun i e =>
                 if e = bid ∧ Nat.testBit i (t.bucketAt bid).depth then t.store.length else e),
               store := t.store.set bid
                   { t.bucketAt bid with
                     depth := (t.bucketAt bid).depth + 1,
                     list := (t.bucketAt bid).list.filter
                       (fun it => ! Nat.testBit (hash it.1) (t.bucketAt bid).depth) } ++
                 [⟨t.bucket_size, (t.bucketAt bid).depth + 1,
                   (t.bucketAt bid).list.filter
                     (fun it => Nat.testBit (hash it.1) (t.bucketAt bid).depth)⟩] } := by
  have hnodupb : ((t.bucketAt bid).list.map Prod.fst).Nodup := hinv.keys_nodup bid hbidlt
  have hfind0 : ∀ it ∈ (t.bucketAt bid).list, assocFind ([] : List (K × V)) it.1 = none :=
    fun _ _ => rfl
  have hcap0 : ([] : List (K × V)).length +
      ((t.bucketAt bid).list.filter
        (fun it => Nat.testBit (hash it.1) (t.bucketAt bid).depth)).length ≤
      (⟨t.bucket_size, (t.bucketAt bid).depth + 1, []⟩ : Bucket K V).size := by
    show 0 + _ ≤ t.bucket_size
    rw [Nat.zero_add]
    calc _ ≤ (t.bucketAt bid).list.length := List.length_filter_le _ _
    _ ≤ (t.bucketAt bid).size := hinv.cap_le bid hbidlt
    _ = t.bucket_size := hinv.cap_eq bid hbidlt
  have hfold := split_fold hash (t.bucketAt bid).depth (t.bucketAt bid).list []
    ⟨t.bucket_size, (t.bucketAt bid).depth + 1, []⟩ hnodupb hfind0 hcap0
  simp only [Table.SplitBucket]
  rw [hfold]
  simp

/-- Doubling the directory introduces no occurrence of `k`. -/
theorem noKeyDir_double (hash : K → Nat) (t : Table K V) (hinv : Inv hash t)
    (k : K) (hno : NoKeyDir t k) :
    NoKeyDir { t with global_depth := t.global_depth + 1, dir := t.dir ++ t.dir } k := by
  have hfld : ({ t with global_depth := t.global_depth + 1, dir := t.dir ++ t.dir } : Table K V).dir = t.dir ++ t.dir := rfl
  intro i hi it hit
  have hlen0 : 0 < t.dir.length := by
    rw [hinv.dir_len]; exact Nat.pos_pow_of_pos _ (by norm_num)
  have hi2 : i < 2 * t.dir.length := by
    have hl2 : (t.dir ++ t.dir).length = 2 * t.dir.length := by
      rw [List.length_append]; omega
    rw [hfld, hl2] at hi
    exact hi
  rw [hfld, double_getD t.dir i hi2] at hit
  exact hno _ (Nat.mod_lt _ hlen0) it hit

/-- `SplitBucket` introduces no occurrence of `k`. -/
theorem noKeyDir_split (hash : K → Nat) (t : Table K V) (hinv : Inv hash t)
    (bid : Nat) (hbidlt : bid < t.store.length) (k : K) (hno : NoKeyDir t k) :
    NoKeyDir (Table.SplitBucket hash t bid) k := by
  rw [SplitBucket_eq hash t hinv bid hbidlt]
  intro i hi it hit habs
  set d := (t.bucketAt bid).depth with hd
  set E0 := (t.bucketAt bid).list.filter (fun it => ! Nat.testBit (hash it.1) d) with hE0
  set E1 := (t.bucketAt bid).list.filter (fun it => Nat.testBit (hash it.1) d) with hE1
  set b2 : Bucket K V := { t.bucketAt bid with depth := d + 1, list := E0 } with hb2
  set nb : Bucket K V := ⟨t.bucket_size, d + 1, E1⟩ with hnb
  set dirNew := t.dir.mapIdx (fun i e =>
    if e = bid ∧ Nat.testBit i d then t.store.length else e) with hdirNew
  set storeNew := t.store.set bid b2 ++ [nb] with hstoreNew
  have hlenNew : dirNew.length = t.dir.length := by rw [hdirNew]; simp
  have hsetlen : (t.store.set bid b2).length = t.store.length := by simp
  have hfld : ({ t with num_buckets := t.num_buckets + 1, dir := dirNew, store := storeNew } : Table K V).dir = dirNew := rfl
  have hi2 : i < t.dir.length := by
    rw [hfld, hlenNew] at hi
    exact hi
  have hgd : dirNew.getD i 0 =
      if t.dir.getD i 0 = bid ∧ Nat.testBit i d then t.store.length else t.dir.getD i 0 :=
    getD_mapIdx t.dir _ i hi2
  have hAtBid : storeNew.getD bid ⟨0, 0, []⟩ = b2 := by
    rw [hstoreNew, List.getD_append _ _ _ _ (by rw [hsetlen]; exact hbidlt)]
    exact getD_set_self t.store bid b2 hbidlt
  have hAtNew : storeNew.getD t.store.length ⟨0, 0, []⟩ = nb := by
    rw [hstoreNew, List.getD_append_right _ _ _ _ (by rw [hsetlen])]
    rw [hsetlen]
    simp
  have hAtOld : ∀ x, x < t.store.length → x ≠ bid →
      storeNew.getD x ⟨0, 0, []⟩ = t.store.getD x ⟨0, 0, []⟩ := by
    intro x hx hne
    rw [hstoreNew, List.getD_append _ _ _ _ (by rw [hsetlen]; exact hx)]
    exact getD_set_ne t.store bid x b2 (fun h => hne h.symm) hx
  have hbat : ∀ x, Table.bucketAt { t with num_buckets := t.num_buckets + 1, dir := dirNew, store := storeNew } x = storeNew.getD x ⟨0, 0, []⟩ := fun _ => rfl
  rw [hfld] at hit
  rw [hbat, hgd] at hit
  by_cases ci : t.dir.getD i 0 = bid ∧ Nat.testBit i d
  · rw [if_pos ci, hAtNew] at hit
    have : it ∈ (t.bucketAt bid).list := List.mem_of_mem_filter hit
    exact hno i hi2 it (by rw [ci.1]; exact this) habs
  · rw [if_neg ci] at hit
    by_cases hib : t.dir.getD i 0 = bid
    · rw [hib, hAtBid] at hit
      have : it ∈ (t.bucketAt bid).list := List.mem_of_mem_filter hit
      exact hno i hi2 it (by rw [hib]; exact this) habs
    · rw [hAtOld _ (hinv.bids_lt _ (getD_mem _ _ hi2)) hib] at hit
      exact hno i hi2 it hit habs

/-- A `Bucket::Insert` of a different key introduces no occurrence of `k`. -/
theorem noKeyDir_insert_set (hash : K → Nat) (t : Table K V) (hinv : Inv hash t)
    (key : K) (value : V) (k : K) (hkk : key ≠ k) (hno : NoKeyDir t k) :
    NoKeyDir { t with store := t.store.set (t.dir.getD (Table.IndexOf hash t key) 0) ((t.bucketAt (t.dir.getD (Table.IndexOf hash t key) 0)).insertKV key value).2 } k := by
  have hidx : Table.IndexOf hash t key < t.dir.length := by
    rw [hinv.dir_len]
    exact Nat.mod_lt _ (Nat.pos_pow_of_pos _ (by norm_num))
  set bid := t.dir.getD (Table.IndexOf hash t key) 0 with hbid
  have hbidlt : bid < t.store.length := hinv.bids_lt _ (getD_mem _ _ hidx)
  intro i hi it hit habs
  have hi2 : i < t.dir.length := hi
  have hkeys : ∀ it2 ∈ ((t.bucketAt bid).insertKV key value).2.list,
      it2.1 ∈ (t.bucketAt bid).list.map Prod.fst ∨ it2.1 = key := by
    intro it2 hit2
    cases hov : assocOverwrite (t.bucketAt bid).list key value with
    | some l2 =>
      have hkv : ((t.bucketAt bid).insertKV key value).2 =
          { t.bucketAt bid with list := l2 } := by
        unfold Bucket.insertKV
        rw [hov]
      rw [hkv] at hit2
      left
      rw [← assocOverwrite_some_keys _ _ _ _ hov]
      exact List.mem_map_of_mem _ hit2
    | none =>
      by_cases hfull : (t.bucketAt bid).IsFull
      · have hkv : ((t.bucketAt bid).insertKV key value).2 = t.bucketAt bid := by
          unfold Bucket.insertKV
          rw [hov, if_pos hfull]
        rw [hkv] at hit2
        exact Or.inl (List.mem_map_of_mem _ hit2)
      · have hkv : ((t.bucketAt bid).insertKV key value).2 =
            { t.bucketAt bid with list := (t.bucketAt bid).list ++ [(key, value)] } := by
          unfold Bucket.insertKV
          rw [hov, if_neg hfull]
        rw [hkv] at hit2
        rcases List.mem_append.mp hit2 with h1 | h2
        · exact Or.inl (List.mem_map_of_mem _ h1)
        · right
          have : it2 = (key, value) := by simpa using h2
          rw [this]
  by_cases hib : t.dir.getD i 0 = bid
  · have hat : Table.bucketAt { t with store := t.store.set bid ((t.bucketAt bid).insertKV key value).2 } (t.dir.getD i 0) = ((t.bucketAt bid).insertKV key value).2 := by
      show (t.store.set bid _).getD (t.dir.getD i 0) ⟨0, 0, []⟩ = _
      rw [hib]
      exact getD_set_self _ _ _ hbidlt
    rw [hat] at hit
    rcases hkeys it hit with h1 | h2
    · obtain ⟨it0, hit0, hfst⟩ := List.mem_map.mp h1
      exact hno i hi2 it0 (by rw [hib]; exact hit0) (by rw [hfst, habs])
    · exact hkk (by rw [← h2, habs])
  · have hat : Table.bucketAt { t with store := t.store.set bid ((t.bucketAt bid).insertKV key value).2 } (t.dir.getD i 0) = t.bucketAt (t.dir.getD i 0) := by
      show (t.store.set bid _).getD (t.dir.getD i 0) ⟨0, 0, []⟩ = _
      exact getD_set_ne _ _ _ _ (fun h => hib h.symm) (hinv.bids_lt _ (getD_mem _ _ hi2))
    rw [hat] at hit
    exact hno i hi2 it hit habs

/-- The `Insert` retry loop of a different key introduces no occurrence of
`k`. -/
theorem noKeyDir_insertLoop (hash : K → Nat) (key : K) (value : V) (k : K)
    (hkk : key ≠ k) : ∀ (fuel : Nat) (t : Table K V), Inv hash t → NoKeyDir t k →
      NoKeyDir (Table.InsertLoop hash fuel t key value) k := by
  intro fuel
  induction fuel with
  | zero => intro t _ hno; exact hno
  | succ n ih =>
    intro t hinv hno
    rw [Table.InsertLoop]
    by_cases hp : ((t.bucketAt (t.dir.getD (Table.IndexOf hash t key) 0)).insertKV key value).1
    · simp only [hp, if_true]
      exact noKeyDir_insert_set hash t hinv key value k hkk hno
    · simp only [Bool.not_eq_true] at hp
      simp only [hp, Bool.false_eq_true, if_false]
      have hidx : Table.IndexOf hash t key < t.dir.length := by
        rw [hinv.dir_len]
        exact Nat.mod_lt _ (Nat.pos_pow_of_pos _ (by norm_num))
      have hbidin : t.dir.getD (Table.IndexOf hash t key) 0 ∈ t.dir := getD_mem _ _ hidx
      have hbidlt : t.dir.getD (Table.IndexOf hash t key) 0 < t.store.length :=
        hinv.bids_lt _ hbidin
      by_cases hdg : (t.bucketAt (t.dir.getD (Table.IndexOf hash t key) 0)).depth =
          t.global_depth
      · simp only [hdg, if_true]
        refine ih _ (inv_split hash _ (inv_double hash t hinv) _
          (List.mem_append.mpr (Or.inl hbidin)) ?_) ?_
        · show (t.bucketAt _).depth < t.global_depth + 1
          omega
        · exact noKeyDir_split hash _ (inv_double hash t hinv) _ hbidlt k
            (noKeyDir_double hash t hinv k hno)
      · simp only [hdg, if_false]
        refine ih _ (inv_split hash t hinv _ hbidin
          (lt_of_le_of_ne (hinv.depth_le _ hbidin) hdg)) ?_
        exact noKeyDir_split hash t hinv _ hbidlt k hno

/-- Every reachable table satisfies the invariant. -/
theorem reachable_inv (hash : K → Nat) (bucket_size : Nat) (t : Table K V)
    (h : Reachable hash bucket_size t) : Inv hash t := by
  induction h with
  | init => exact inv_mkNew hash bucket_size
  | insert t fuel key value _ ih => exact inv_insertLoop hash key value fuel t ih
  | remove t key _ ih => exact inv_removeKey hash t ih key
  | find t key _ ih => exact ih

end EHT

/-- **C6.** In every state of the extendible hash table reachable by any
sequence of `Insert` / `Remove` / `Find` from the initial state: the
directory length equals `2 ^ global_depth`, every bucket referenced by the
directory has `local_depth ≤ global_depth`, and every key `k` stored in the
bucket at directory index `i` satisfies
`hash k mod 2 ^ local_depth = i mod 2 ^ local_depth` (the source's
`hash(k) & ((1 << local_depth) - 1) == i & ((1 << local_depth) - 1)`). -/
theorem C6_eht_reachable_invariants {K V : Type} [DecidableEq K] (hash : K → Nat)
    (bucket_size : Nat) (t : EHT.Table K V)
    (hr : EHT.Reachable hash bucket_size t) :
    t.dir.length = 2 ^ t.global_depth ∧
    ∀ i, i < t.dir.length →
      (t.bucketAt (t.dir.getD i 0)).depth ≤ t.global_depth ∧
      ∀ it ∈ (t.bucketAt (t.dir.getD i 0)).list,
        hash it.1 % 2 ^ (t.bucketAt (t.dir.getD i 0)).depth =
          i % 2 ^ (t.bucketAt (t.dir.getD i 0)).depth := by
  have hinv := EHT.reachable_inv hash bucket_size t hr
  exact ⟨hinv.dir_len, fun i hi =>
    ⟨hinv.depth_le _ (EHT.getD_mem _ _ hi), hinv.placement i hi⟩⟩

theorem C6_eht_reachable_invariants_witness :
    tC6.dir.length = 2 ^ tC6.global_depth ∧
    ∀ i, i < tC6.dir.length →
      (tC6.bucketAt (tC6.dir.getD i 0)).depth ≤ tC6.global_depth ∧
      ∀ it ∈ (tC6.bucketAt (tC6.dir.getD i 0)).list,
        id it.1 % 2 ^ (tC6.bucketAt (tC6.dir.getD i 0)).depth =
          i % 2 ^ (tC6.bucketAt (tC6.dir.getD i 0)).depth :=
  C6_eht_reachable_invariants id 2 tC6
    (EHT.Reachable.remove _ 4 (EHT.Reachable.insert _ 8 6 103 (EHT.Reachable.insert _ 8 2 102
      (EHT.Reachable.insert _ 8 4 101 (EHT.Reachable.insert _ 8 0 100
        EHT.Reachable.init)))))

namespace BPM

theorem diskRead_write_self (disk : List (Int × Nat)) (pid : Int) (data : Nat) :
    diskRead (diskWrite disk pid data) pid = data := by
  induction disk with
  | nil => simp [diskWrite, diskRead]
  | cons hd tl ih =>
    obtain ⟨p, x⟩ := hd
    by_cases hp : p = pid
    · rw [diskWrite, if_pos hp, diskRead, if_pos rfl]
    · rw [diskWrite, if_neg hp, diskRead, if_neg hp]
      exact ih

end BPM

namespace LRUK

theorem evict_replacer_size (rep : Replacer) (fid : Int) (rep2 : Replacer)
    (h : rep.Evict = some (fid, rep2)) :
    rep2.replacer_size = rep.replacer_size ∧ rep2.k = rep.k ∧
      rep2.current_timestamp = rep.current_timestamp := by
  unfold Replacer.Evict at h
  by_cases hsz : rep.curr_size = 0
  · rw [if_pos hsz] at h; exact absurd h (by simp)
  · rw [if_neg hsz] at h
    cases hloop : evictLoop rep rep.frame_table none with
    | none => rw [hloop] at h; exact absurd h (by simp)
    | some r =>
      obtain ⟨a, b, c⟩ := r
      rw [hloop] at h
      injection h with h
      injection h with h1 h2
      rw [← h2]
      exact ⟨rfl, rfl, rfl⟩

theorem recordAccess_ok (rep : Replacer) (fid : Int)
    (h : sizeTofInt fid ≤ rep.replacer_size) :
    ∃ r, rep.RecordAccess fid = .ok r ∧ r.replacer_size = rep.replacer_size := by
  unfold Replacer.RecordAccess
  rw [if_neg (by omega)]
  exact ⟨_, rfl, rfl⟩

theorem setEvictable_ok (rep : Replacer) (fid : Int) (b : Bool)
    (h : sizeTofInt fid ≤ rep.replacer_size) :
    ∃ r, rep.SetEvictable fid b = .ok r := by
  unfold Replacer.SetEvictable
  rw [if_neg (by omega)]
  cases hl : rep.frame_table.lookup fid with
  | none => exact ⟨rep, rfl⟩
  | some fi =>
    by_cases hb : fi.is_evictable = b
    · exact ⟨rep, by simp [hb]⟩
    · refine ⟨{ rep with frame_table := upsert rep.frame_table fid { fi with is_evictable := b }, curr_size := if b then rep.curr_size + 1 else rep.curr_size - 1 }, ?_⟩
      simp [hb]

theorem lookup_upsert_self (l : List (Int × FrameInfo)) (fid : Int) (fi : FrameInfo) :
    (upsert l fid fi).lookup fid = some fi := by
  induction l with
  | nil => simp [upsert, List.lookup]
  | cons hd tl ih =>
    obtain ⟨f, x⟩ := hd
    by_cases hf : f = fid
    · rw [upsert, if_pos hf]
      simp [List.lookup]
    · rw [upsert, if_neg hf]
      have hbe : (fid == f) = false := beq_eq_false_iff_ne.mpr (fun h => hf h.symm)
      simp [List.lookup, hbe, ih]

theorem setEvictable_true_lookup (rep : Replacer) (fid : Int) (fi : FrameInfo)
    (hl : rep.frame_table.lookup fid = some fi) (r : Replacer)
    (h : rep.SetEvictable fid true = .ok r) :
    ∃ fi2, r.frame_table.lookup fid = some fi2 ∧ fi2.is_evictable = true := by
  unfold Replacer.SetEvictable at h
  by_cases hg : sizeTofInt fid > rep.replacer_size
  · rw [if_pos hg] at h; exact absurd h (by simp)
  · rw [if_neg hg, hl] at h
    by_cases hb : fi.is_evictable = true
    · simp [hb] at h
      rw [← h]
      exact ⟨fi, hl, hb⟩
    · simp [hb] at h
      rw [← h]
      exact ⟨_, lookup_upsert_self _ _ _, rfl⟩

end LRUK

/-- **C7.** `UnpinPage(pid, dirty)` returns `false` and leaves the pool state
unchanged when `pid` is not resident or its pin count is already `≤ 0`;
otherwise it returns `true`, decrements the pin count, ors the dirty flag
with `dirty` (never clearing it), leaves free list / page table / disk /
page-id counter untouched, and calls `SetEvictable(frame, true)` exactly when
the pin count reaches 0 (so a tracked frame becomes evictable). -/
theorem C7_unpin_semantics (s : BPM.State) (pid : Int) (dirty : Bool)
    (hguard : ∀ f, s.page_table.findKey BPM.hashPid pid = some f →
      LRUK.sizeTofInt (Int.ofNat f) ≤ s.repl.replacer_size) :
    (s.page_table.findKey BPM.hashPid pid = none →
      s.UnpinPgImp pid dirty = .ok (false, s)) ∧
    (∀ f, s.page_table.findKey BPM.hashPid pid = some f →
      (s.pages.getD f BPM.defaultPage).pin_count ≤ 0 →
      s.UnpinPgImp pid dirty = .ok (false, s)) ∧
    (∀ f, s.page_table.findKey BPM.hashPid pid = some f →
      0 < (s.pages.getD f BPM.defaultPage).pin_count →
      ∃ s2, s.UnpinPgImp pid dirty = .ok (true, s2) ∧
        (∃ p3, s2.pages = s.pages.set f p3 ∧
          p3.page_id = (s.pages.getD f BPM.defaultPage).page_id ∧
          p3.pin_count = (s.pages.getD f BPM.defaultPage).pin_count - 1 ∧
          p3.is_dirty = ((s.pages.getD f BPM.defaultPage).is_dirty || dirty) ∧
          p3.data = (s.pages.getD f BPM.defaultPage).data) ∧
        s2.free_list = s.free_list ∧ s2.page_table = s.page_table ∧
        s2.disk = s.disk ∧ s2.next_page_id = s.next_page_id ∧
        ((s.pages.getD f BPM.defaultPage).pin_count - 1 ≠ 0 → s2.repl = s.repl) ∧
        ((s.pages.getD f BPM.defaultPage).pin_count - 1 = 0 →
          s.repl.SetEvictable (Int.ofNat f) true = .ok s2.repl ∧
          ∀ fi, s.repl.frame_table.lookup (Int.ofNat f) = some fi →
            ∃ fi2, s2.repl.frame_table.lookup (Int.ofNat f) = some fi2 ∧
              fi2.is_evictable = true)) := by
  refine ⟨?_, ?_, ?_⟩
  · intro h
    unfold BPM.State.UnpinPgImp
    rw [h]
  · intro f hf hpin
    simp only [BPM.State.UnpinPgImp, hf]
    rw [if_pos hpin]
  · intro f hf hpin
    simp only [BPM.State.UnpinPgImp, hf]
    rw [if_neg (not_le.mpr hpin)]
    by_cases hd : dirty
    · subst hd
      simp only [if_true]
      by_cases hz : (s.pages.getD f BPM.defaultPage).pin_count - 1 = 0
      · rw [if_pos hz]
        obtain ⟨r, hr⟩ := LRUK.setEvictable_ok s.repl (Int.ofNat f) true (hguard f hf)
        rw [hr]
        refine ⟨_, rfl, ⟨_, rfl, rfl, rfl, by simp, rfl⟩, rfl, rfl, rfl, rfl,
          fun hne => absurd hz hne, fun _ => ⟨rfl, ?_⟩⟩
        intro fi hfi
        exact LRUK.setEvictable_true_lookup s.repl (Int.ofNat f) fi hfi r hr
      · rw [if_neg hz]
        exact ⟨_, rfl, ⟨_, rfl, rfl, rfl, by simp, rfl⟩, rfl, rfl, rfl, rfl,
          fun _ => rfl, fun hzz => absurd hzz hz⟩
    · simp only [Bool.not_eq_true] at hd
      subst hd
      simp only [Bool.false_eq_true, if_false]
      by_cases hz : (s.pages.getD f BPM.defaultPage).pin_count - 1 = 0
      · rw [if_pos hz]
        obtain ⟨r, hr⟩ := LRUK.setEvictable_ok s.repl (Int.ofNat f) true (hguard f hf)
        rw [hr]
        refine ⟨_, rfl, ⟨_, rfl, rfl, rfl, by simp, rfl⟩, rfl, rfl, rfl, rfl,
          fun hne => absurd hz hne, fun _ => ⟨rfl, ?_⟩⟩
        intro fi hfi
        exact LRUK.setEvictable_true_lookup s.repl (Int.ofNat f) fi hfi r hr
      · rw [if_neg hz]
        exact ⟨_, rfl, ⟨_, rfl, rfl, rfl, by simp, rfl⟩, rfl, rfl, rfl, rfl,
          fun _ => rfl, fun hzz => absurd hzz hz⟩

theorem C7_unpin_semantics_witness :
    ∃ s2, sC7.UnpinPgImp 5 true = .ok (true, s2) ∧
      (∃ p3, s2.pages = sC7.pages.set 0 p3 ∧
        p3.page_id = (sC7.pages.getD 0 BPM.defaultPage).page_id ∧
        p3.pin_count = (sC7.pages.getD 0 BPM.defaultPage).pin_count - 1 ∧
        p3.is_dirty = ((sC7.pages.getD 0 BPM.defaultPage).is_dirty || true) ∧
        p3.data = (sC7.pages.getD 0 BPM.defaultPage).data) ∧
      s2.free_list = sC7.free_list ∧ s2.page_table = sC7.page_table ∧
      s2.disk = sC7.disk ∧ s2.next_page_id = sC7.next_page_id ∧
      ((sC7.pages.getD 0 BPM.defaultPage).pin_count - 1 ≠ 0 → s2.repl = sC7.repl) ∧
      ((sC7.pages.getD 0 BPM.defaultPage).pin_count - 1 = 0 →
        sC7.repl.SetEvictable (Int.ofNat 0) true = .ok s2.repl ∧
        ∀ fi, sC7.repl.frame_table.lookup (Int.ofNat 0) = some fi →
          ∃ fi2, s2.repl.frame_table.lookup (Int.ofNat 0) = some fi2 ∧
            fi2.is_evictable = true) :=
  (C7_unpin_semantics sC7 5 true
      (by intro f hf; injection hf with h; subst h; decide)).2.2 0 (by rfl) (by decide)

namespace BPM

theorem pages_getD_set_self (l : List Page) (i : Nat) (p : Page) (h : i < l.length) :
    (l.set i p).getD i defaultPage = p := by
  rw [List.getD_eq_getElem _ _ (by simpa using h), List.getElem_set_self]

/-- The shared eviction block of `NewPgImp`/`FetchPgImp`, evaluated on a state
with an empty free list, a successful `Evict`, and a dirty victim page. -/
theorem findFrame_evict_dirty (s : State) (fid : Int) (rep2 : LRUK.Replacer)
    (hfree : s.free_list = [])
    (hevict : s.repl.Evict = some (fid, rep2))
    (hdirty : (s.pages.getD fid.toNat defaultPage).is_dirty = true) :
    s.findFrame = some (fid.toNat, { s with repl := rep2, disk := diskWrite s.disk (s.pages.getD fid.toNat defaultPage).page_id (s.pages.getD fid.toNat defaultPage).data, pages := s.pages.set fid.toNat { s.pages.getD fid.toNat defaultPage with is_dirty := false }, page_table := (s.page_table.removeKey hashPid (s.pages.getD fid.toNat defaultPage).page_id).2 }) := by
  unfold State.findFrame
  rw [hfree, hevict]
  simp only [hdirty, if_true]

end BPM

/-- **C2.** When `NewPgImp` or `FetchPgImp` (miss path) obtains its frame by
eviction (free list empty, `Evict` succeeds) and the victim frame's page is
dirty, then: before the frame is reused (already in the shared step-1 block)
the victim's contents are written to disk via `WritePage`, its dirty bit is
cleared, and its page-table entry is removed; and in the final state of
either operation the victim's data is on disk and its page-table entry is
still absent. -/
theorem C2_eviction_writes_dirty_victim (s : BPM.State) (fid : Int)
    (rep2 : LRUK.Replacer) (vic : BPM.Page) (fuel : Nat) (pid : Int)
    (hinvt : EHT.Inv BPM.hashPid s.page_table)
    (hfree : s.free_list = [])
    (hevict : s.repl.Evict = some (fid, rep2))
    (hvic : s.pages.getD fid.toNat BPM.defaultPage = vic)
    (hdirty : vic.is_dirty = true)
    (hlen : fid.toNat < s.pages.length)
    (hrange : LRUK.sizeTofInt (Int.ofNat fid.toNat) ≤ s.repl.replacer_size)
    (hfresh : vic.page_id ≠ s.next_page_id)
    (hmiss : s.page_table.findKey BPM.hashPid pid = none)
    (hnep : vic.page_id ≠ pid) :
    (∃ sE, s.findFrame = some (fid.toNat, sE) ∧
      sE.disk = BPM.diskWrite s.disk vic.page_id vic.data ∧
      BPM.diskRead sE.disk vic.page_id = vic.data ∧
      (sE.pages.getD fid.toNat BPM.defaultPage).is_dirty = false ∧
      sE.page_table.findKey BPM.hashPid vic.page_id = none) ∧
    (∃ s2, s.NewPgImp fuel = .ok (some (s.next_page_id, fid.toNat), s2) ∧
      s2.disk = BPM.diskWrite s.disk vic.page_id vic.data ∧
      BPM.diskRead s2.disk vic.page_id = vic.data ∧
      s2.page_table.findKey BPM.hashPid vic.page_id = none) ∧
    (∃ s2, s.FetchPgImp fuel pid = .ok (some fid.toNat, s2) ∧
      s2.disk = BPM.diskWrite s.disk vic.page_id vic.data ∧
      BPM.diskRead s2.disk vic.page_id = vic.data ∧
      s2.page_table.findKey BPM.hashPid vic.page_id = none) := by
  have hdirty0 : (s.pages.getD fid.toNat BPM.defaultPage).is_dirty = true := by
    rw [hvic]; exact hdirty
  have hff := BPM.findFrame_evict_dirty s fid rep2 hfree hevict hdirty0
  rw [hvic] at hff
  have hrsz := LRUK.evict_replacer_size s.repl fid rep2 hevict
  obtain ⟨r1, hr1, hr1sz⟩ := LRUK.recordAccess_ok rep2 (Int.ofNat fid.toNat)
    (by rw [hrsz.1]; exact hrange)
  obtain ⟨r2, hr2⟩ := LRUK.setEvictable_ok r1 (Int.ofNat fid.toNat) false
    (by rw [hr1sz, hrsz.1]; exact hrange)
  have hinvE : EHT.Inv BPM.hashPid (EHT.Table.removeKey BPM.hashPid s.page_table vic.page_id).2 :=
    EHT.inv_removeKey BPM.hashPid s.page_table hinvt vic.page_id
  have hrm := EHT.removeKey_findKey_none BPM.hashPid s.page_table hinvt vic.page_id
  have hno := EHT.noKeyDir_of_findKey_none BPM.hashPid _ hinvE vic.page_id hrm
  refine ⟨⟨_, hff, rfl, BPM.diskRead_write_self _ _ _, ?_, hrm⟩, ?_, ?_⟩
  · show ((s.pages.set fid.toNat { vic with is_dirty := false }).getD fid.toNat
      BPM.defaultPage).is_dirty = false
    rw [BPM.pages_getD_set_self _ _ _ hlen]
  · have hnew : s.NewPgImp fuel = .ok (some (s.next_page_id, fid.toNat), { s with repl := r2, next_page_id := s.next_page_id + 1, pages := (s.pages.set fid.toNat { vic with is_dirty := false }).set fid.toNat { page_id := s.next_page_id, pin_count := 1, is_dirty := false, data := 0 }, page_table := EHT.Table.InsertLoop BPM.hashPid fuel (EHT.Table.removeKey BPM.hashPid s.page_table vic.page_id).2 s.next_page_id fid.toNat, disk := BPM.diskWrite s.disk vic.page_id vic.data }) := by
      simp only [BPM.State.NewPgImp, hff, hr1, hr2]
    refine ⟨_, hnew, rfl, BPM.diskRead_write_self _ _ _, ?_⟩
    have hno2 := EHT.noKeyDir_insertLoop BPM.hashPid s.next_page_id fid.toNat
      vic.page_id (Ne.symm hfresh) fuel _ hinvE hno
    exact EHT.findKey_none_of_noKeyDir BPM.hashPid _
      (EHT.inv_insertLoop BPM.hashPid s.next_page_id fid.toNat fuel _ hinvE)
      vic.page_id hno2
  · have hfetch : s.FetchPgImp fuel pid = .ok (some fid.toNat, { s with repl := r2, pages := (s.pages.set fid.toNat { vic with is_dirty := false }).set fid.toNat { page_id := pid, pin_count := 1, is_dirty := false, data := BPM.diskRead (BPM.diskWrite s.disk vic.page_id vic.data) pid }, page_table := EHT.Table.InsertLoop BPM.hashPid fuel (EHT.Table.removeKey BPM.hashPid s.page_table vic.page_id).2 pid fid.toNat, disk := BPM.diskWrite s.disk vic.page_id vic.data }) := by
      simp only [BPM.State.FetchPgImp, hmiss, hff, hr1, hr2]
    refine ⟨_, hfetch, rfl, BPM.diskRead_write_self _ _ _, ?_⟩
    have hno2 := EHT.noKeyDir_insertLoop BPM.hashPid pid fid.toNat
      vic.page_id (Ne.symm hnep) fuel _ hinvE hno
    exact EHT.findKey_none_of_noKeyDir BPM.hashPid _
      (EHT.inv_insertLoop BPM.hashPid pid fid.toNat fuel _ hinvE)
      vic.page_id hno2

theorem C2_eviction_writes_dirty_victim_witness :
    (∃ sE, sC2.findFrame = some (0, sE) ∧
      sE.disk = BPM.diskWrite sC2.disk 9 42 ∧
      BPM.diskRead sE.disk 9 = 42 ∧
      (sE.pages.getD 0 BPM.defaultPage).is_dirty = false ∧
      sE.page_table.findKey BPM.hashPid 9 = none) ∧
    (∃ s2, sC2.NewPgImp 3 = .ok (some (10, 0), s2) ∧
      s2.disk = BPM.diskWrite sC2.disk 9 42 ∧
      BPM.diskRead s2.disk 9 = 42 ∧
      s2.page_table.findKey BPM.hashPid 9 = none) ∧
    (∃ s2, sC2.FetchPgImp 3 7 = .ok (some 0, s2) ∧
      s2.disk = BPM.diskWrite sC2.disk 9 42 ∧
      BPM.diskRead s2.disk 9 = 42 ∧
      s2.page_table.findKey BPM.hashPid 9 = none) :=
  C2_eviction_writes_dirty_victim sC2 0 repl2C2 vicC2 3 7
    (EHT.inv_mkNew BPM.hashPid 4) rfl rfl rfl rfl (by decide) (by decide)
    (by decide) rfl (by decide)

/-- **C10.** The page read accessors are total: for any index outside
`[0, size)` the guard fails and `KeyAt`/`ValueAt` return the
default-constructed key/value (leaf) resp. the default key /
`INVALID_PAGE_ID` (internal); no out-of-bounds array access occurs. -/
theorem C10_accessors_total_out_of_range (lp : BPT.LeafPage) (ip : BPT.InternalPage)
    (i j : Int) (hi : i < 0 ∨ lp.GetSize ≤ i) (hj : j < 0 ∨ ip.GetSize ≤ j) :
    lp.KeyAt i = 0 ∧ lp.ValueAt i = 0 ∧
    ip.KeyAt j = 0 ∧ ip.ValueAt j = BPM.INVALID_PAGE_ID := by
  have hni : ¬(0 ≤ i ∧ i < lp.GetSize) := by
    rintro ⟨h1, h2⟩; rcases hi with h | h <;> omega
  have hnj : ¬(0 ≤ j ∧ j < ip.GetSize) := by
    rintro ⟨h1, h2⟩; rcases hj with h | h <;> omega
  refine ⟨?_, ?_, ?_, ?_⟩
  · rw [BPT.LeafPage.KeyAt, if_neg hni]
  · rw [BPT.LeafPage.ValueAt, if_neg hni]
  · rw [BPT.InternalPage.KeyAt, if_neg hnj]
  · rw [BPT.InternalPage.ValueAt, if_neg hnj]

theorem C10_accessors_total_out_of_range_witness :
    lpC10.KeyAt 5 = 0 ∧ lpC10.ValueAt 5 = 0 ∧
    ipC10.KeyAt (-1) = 0 ∧ ipC10.ValueAt (-1) = BPM.INVALID_PAGE_ID :=
  C10_accessors_total_out_of_range lpC10 ipC10 5 (-1) (by right; decide) (by left; decide)

namespace BPT

theorem lowerLoopAux_exit (pred : Int → Bool) (left right ans : Int)
    (h : ¬(left ≤ right)) : ∀ n, lowerLoopAux pred n left right ans = ans := by
  intro n
  cases n with
  | zero => rfl
  | succ n => rw [lowerLoopAux, if_neg h]

theorem lowerLoopAux_irrel (pred : Int → Bool) :
    ∀ n m : Nat, ∀ left right ans : Int, (right - left + 1).toNat ≤ n →
      (right - left + 1).toNat ≤ m →
      lowerLoopAux pred n left right ans = lowerLoopAux pred m left right ans := by
  intro n
  induction n with
  | zero =>
    intro m left right ans hn hm
    have hlr : ¬(left ≤ right) := by omega
    rw [lowerLoopAux_exit pred left right ans hlr, lowerLoopAux_exit pred left right ans hlr]
  | succ n ih =>
    intro m left right ans hn hm
    by_cases hlr : left ≤ right
    · cases m with
      | zero => omega
      | succ m =>
        rw [lowerLoopAux, lowerLoopAux, if_pos hlr, if_pos hlr]
        by_cases hp : pred ((left + right) / 2)
        · simp only [hp, if_true]
          exact ih m left ((left + right) / 2 - 1) ((left + right) / 2) (by omega) (by omega)
        · simp only [hp, Bool.false_eq_true, if_false]
          exact ih m ((left + right) / 2 + 1) right ans (by omega) (by omega)
    · rw [lowerLoopAux_exit pred left right ans hlr, lowerLoopAux_exit pred left right ans hlr]

theorem lowerLoop_eq_of_le (pred : Int → Bool) (left right ans : Int) (h : left ≤ right) :
    lowerLoop pred left right ans =
      if pred ((left + right) / 2) then lowerLoop pred left ((left + right) / 2 - 1) ((left + right) / 2)
      else lowerLoop pred ((left + right) / 2 + 1) right ans := by
  have hk : ∃ n, (right - left + 1).toNat = Nat.succ n := by
    have : 1 ≤ (right - left + 1).toNat := by omega
    exact ⟨(right - left + 1).toNat - 1, by omega⟩
  obtain ⟨n, hn⟩ := hk
  rw [lowerLoop, hn, lowerLoopAux, if_pos h]
  by_cases hp : pred ((left + right) / 2)
  · simp only [hp, if_true]
    rw [lowerLoop]
    exact lowerLoopAux_irrel pred n _ left ((left + right) / 2 - 1) ((left + right) / 2)
      (by omega) (by omega)
  · simp only [hp, Bool.false_eq_true, if_false]
    rw [lowerLoop]
    exact lowerLoopAux_irrel pred n _ ((left + right) / 2 + 1) right ans (by omega) (by omega)

theorem lowerLoop_eq_of_gt (pred : Int → Bool) (left right ans : Int) (h : ¬(left ≤ right)) :
    lowerLoop pred left right ans = ans := by
  rw [lowerLoop]
  exact lowerLoopAux_exit pred left right ans h _

/-- Invariant-based characterization of `lowerLoop` for a predicate monotone
on `[lb, ub)`: the loop returns the least index at which the predicate
holds (or the initial `ans` when it never does). -/
theorem lowerLoop_spec (pred : Int → Bool) (lb ub : Int)
    (hmono : ∀ i j : Int, lb ≤ i → i ≤ j → j < ub → pred i = true → pred j = true) :
    ∀ n : Nat, ∀ left right ans : Int, (right - left + 1).toNat ≤ n →
      right + 1 = ans → lb ≤ left → left ≤ ans → ans ≤ ub →
      (∀ j : Int, lb ≤ j → j < left → pred j = false) →
      (∀ j : Int, ans ≤ j → j < ub → pred j = true) →
      lb ≤ lowerLoop pred left right ans ∧ lowerLoop pred left right ans ≤ ub ∧
      (∀ j : Int, lb ≤ j → j < lowerLoop pred left right ans → pred j = false) ∧
      (∀ j : Int, lowerLoop pred left right ans ≤ j → j < ub → pred j = true) := by
  intro n
  induction n with
  | zero =>
    intro left right ans hn h1 h2 h3 h4 hI3 hI4
    have hlr : ¬(left ≤ right) := by omega
    rw [lowerLoop_eq_of_gt pred left right ans hlr]
    exact ⟨by omega, by omega, fun j hj1 hj2 => hI3 j hj1 (by omega), hI4⟩
  | succ n ih =>
    intro left right ans hn h1 h2 h3 h4 hI3 hI4
    by_cases hlr : left ≤ right
    · rw [lowerLoop_eq_of_le pred left right ans hlr]
      have hm1 : left ≤ (left + right) / 2 := by omega
      have hm2 : (left + right) / 2 ≤ right := by omega
      cases hp : pred ((left + right) / 2) with
      | true =>
        simp only [if_true]
        exact ih left ((left + right) / 2 - 1) ((left + right) / 2) (by omega) (by omega)
          h2 (by omega) (by omega) hI3
          (fun j hj1 hj2 => hmono ((left + right) / 2) j (by omega) hj1 hj2 hp)
      | false =>
        simp only [Bool.false_eq_true, if_false]
        refine ih ((left + right) / 2 + 1) right ans (by omega) h1 (by omega) (by omega) h4
          ?_ hI4
        intro j hj1 hj2
        by_cases hjl : j < left
        · exact hI3 j hj1 hjl
        · cases hq : pred j with
          | false => rfl
          | true =>
            have := hmono j ((left + right) / 2) hj1 (by omega) (by omega) hq
            rw [hp] at this
            exact absurd this (by simp)
    · rw [lowerLoop_eq_of_gt pred left right ans hlr]
      exact ⟨by omega, by omega, fun j hj1 hj2 => hI3 j hj1 (by omega), hI4⟩

theorem cmpInt_nonneg_iff (a b : Int) : (0 ≤ cmpInt a b) ↔ b ≤ a := by
  unfold cmpInt
  by_cases h1 : a < b
  · rw [if_pos h1]; omega
  · rw [if_neg h1]
    by_cases h2 : b < a
    · rw [if_pos h2]; omega
    · rw [if_neg h2]; omega

theorem cmpInt_eq_zero_iff (a b : Int) : cmpInt a b = 0 ↔ a = b := by
  unfold cmpInt
  by_cases h1 : a < b
  · rw [if_pos h1]; omega
  · rw [if_neg h1]
    by_cases h2 : b < a
    · rw [if_pos h2]; omega
    · rw [if_neg h2]; omega

theorem sorted_le {l : List (Int × Nat)} (hs : SortedKeys l) (i j : Nat)
    (hij : i ≤ j) (hj : j < l.length) :
    (l.getD i (0, 0)).1 ≤ (l.getD j (0, 0)).1 := by
  rcases Nat.eq_or_lt_of_le hij with he | hl
  · rw [he]
  · rw [List.getD_eq_getElem _ _ (by omega), List.getD_eq_getElem _ _ hj]
    exact le_of_lt ((List.pairwise_iff_getElem.mp hs) i j (by omega) hj hl)

/-- The lower-bound characterization of leaf `KeyIndex` on a sorted page. -/
theorem KeyIndex_spec (p : LeafPage) (key : Int) (hs : SortedKeys p.array) :
    0 ≤ p.KeyIndex key ∧ p.KeyIndex key ≤ p.GetSize ∧
    (∀ j : Nat, (j : Int) < p.KeyIndex key → j < p.array.length →
      (p.array.getD j (0, 0)).1 < key) ∧
    (∀ j : Nat, p.KeyIndex key ≤ (j : Int) → j < p.array.length →
      key ≤ (p.array.getD j (0, 0)).1) := by
  unfold LeafPage.KeyIndex
  have hmono : ∀ i j : Int, 0 ≤ i → i ≤ j → j < p.GetSize →
      (fun mid => decide (0 ≤ cmpInt (p.array.getD mid.toNat (0, 0)).1 key)) i = true →
      (fun mid => decide (0 ≤ cmpInt (p.array.getD mid.toNat (0, 0)).1 key)) j = true := by
    intro i j hi hij hj hp
    simp only [decide_eq_true_eq, cmpInt_nonneg_iff] at hp ⊢
    refine le_trans hp (sorted_le hs i.toNat j.toNat (by omega) ?_)
    unfold LeafPage.GetSize at hj
    omega
  have h := lowerLoop_spec _ 0 p.GetSize hmono (p.GetSize).toNat 0 (p.GetSize - 1)
    p.GetSize (by unfold LeafPage.GetSize; omega) (by omega)
    (by omega) (by unfold LeafPage.GetSize; omega) (by omega)
    (fun j hj1 hj2 => absurd hj2 (by omega)) (fun j hj1 hj2 => absurd hj1 (by omega))
  obtain ⟨h1, h2, h3, h4⟩ := h
  refine ⟨h1, h2, ?_, ?_⟩
  · intro j hj1 hj2
    have := h3 (j : Int) (by omega) hj1
    simp only [decide_eq_false_iff_not, cmpInt_nonneg_iff, Int.toNat_natCast, not_le] at this
    omega
  · intro j hj1 hj2
    have := h4 (j : Int) hj1 (by unfold LeafPage.GetSize; omega)
    simp only [decide_eq_true_eq, cmpInt_nonneg_iff, Int.toNat_natCast] at this
    omega

/-- On a sorted leaf that already contains `key`, `Insert` hits the
duplicate branch: result `-1`, page untouched. -/
theorem leaf_insert_dup (p : LeafPage) (key : Int) (value : Nat)
    (hs : SortedKeys p.array)
    (hm : ∃ m, m < p.array.length ∧ (p.array.getD m (0, 0)).1 = key) :
    p.Insert key value = (-1, p) := by
  obtain ⟨m, hmlen, hmk⟩ := hm
  obtain ⟨h1, h2, h3, h4⟩ := KeyIndex_spec p key hs
  have hnm : ¬((m : Int) < p.KeyIndex key) := by
    intro hlt
    have := h3 m hlt hmlen
    omega
  have hidxm : (p.KeyIndex key).toNat ≤ m := by omega
  have hidxlen : (p.KeyIndex key).toNat < p.array.length := by omega
  have hge : key ≤ (p.array.getD (p.KeyIndex key).toNat (0, 0)).1 := by
    have := h4 (p.KeyIndex key).toNat (by omega) hidxlen
    exact this
  have hle : (p.array.getD (p.KeyIndex key).toNat (0, 0)).1 ≤ key := by
    have := sorted_le hs (p.KeyIndex key).toNat m hidxm hmlen
    omega
  have hcond : p.KeyIndex key < p.GetSize ∧
      cmpInt (p.array.getD (p.KeyIndex key).toNat (0, 0)).1 key = 0 := by
    refine ⟨by unfold LeafPage.GetSize; omega, ?_⟩
    rw [cmpInt_eq_zero_iff]
    omega
  simp only [LeafPage.Insert]
  rw [if_pos hcond]

/-- On a sorted leaf not containing `key`, `Insert` places `(key, value)` at
the `KeyIndex` position (all entries before it strictly below `key`, all
entries after it strictly above) and returns the new size. -/
theorem leaf_insert_absent (p : LeafPage) (key : Int) (value : Nat)
    (hs : SortedKeys p.array)
    (habs : ∀ e ∈ p.array, e.1 ≠ key) :
    p.Insert key value = (p.GetSize + 1,
      { p with array := p.array.take (p.KeyIndex key).toNat ++
          (key, value) :: p.array.drop (p.KeyIndex key).toNat }) ∧
    (∀ e ∈ p.array.take (p.KeyIndex key).toNat, e.1 < key) ∧
    (∀ e ∈ p.array.drop (p.KeyIndex key).toNat, key < e.1) := by
  obtain ⟨h1, h2, h3, h4⟩ := KeyIndex_spec p key hs
  have hsz : p.GetSize = (p.array.length : Int) := rfl
  have hcond : ¬(p.KeyIndex key < p.GetSize ∧
      cmpInt (p.array.getD (p.KeyIndex key).toNat (0, 0)).1 key = 0) := by
    rintro ⟨hlt, heq⟩
    rw [cmpInt_eq_zero_iff] at heq
    have hlen : (p.KeyIndex key).toNat < p.array.length := by omega
    have hmem : p.array.getD (p.KeyIndex key).toNat (0, 0) ∈ p.array := by
      rw [List.getD_eq_getElem _ _ hlen]
      exact List.getElem_mem hlen
    exact habs _ hmem heq
  have htk : ∀ e ∈ p.array.take (p.KeyIndex key).toNat, e.1 < key := by
    intro e he
    obtain ⟨i, hi, hei⟩ := List.getElem_of_mem he
    have hilen : i < p.array.length := by
      have := hi
      rw [List.length_take] at this
      omega
    have hii : (p.array.take (p.KeyIndex key).toNat)[i] = p.array[i] :=
      List.getElem_take _
    have hidx : (i : Int) < p.KeyIndex key := by
      have := hi
      rw [List.length_take] at this
      omega
    have := h3 i hidx hilen
    rw [← hei, hii, List.getD_eq_getElem _ _ hilen] at *
    omega
  have hdr : ∀ e ∈ p.array.drop (p.KeyIndex key).toNat, key < e.1 := by
    intro e he
    obtain ⟨i, hi, hei⟩ := List.getElem_of_mem he
    rw [List.length_drop] at hi
    have hilen : (p.KeyIndex key).toNat + i < p.array.length := by omega
    have hii : (p.array.drop (p.KeyIndex key).toNat)[i] = p.array[(p.KeyIndex key).toNat + i] := by
      rw [List.getElem_drop]
    have hge := h4 ((p.KeyIndex key).toNat + i) (by omega) hilen
    have hmem : p.array[(p.KeyIndex key).toNat + i] ∈ p.array := List.getElem_mem hilen
    have hne := habs _ hmem
    rw [← hei, hii] at *
    rw [List.getD_eq_getElem _ _ hilen] at hge
    omega
  refine ⟨?_, htk, hdr⟩
  simp only [LeafPage.Insert]
  rw [if_neg hcond]
  have hlen2 : (p.array.take (p.KeyIndex key).toNat ++
      (key, value) :: p.array.drop (p.KeyIndex key).toNat).length = p.array.length + 1 := by
    rw [List.length_append, List.length_take, List.length_cons, List.length_drop]
    omega
  have : ({ p with array := p.array.take (p.KeyIndex key).toNat ++
      (key, value) :: p.array.drop (p.KeyIndex key).toNat } : LeafPage).GetSize =
      p.GetSize + 1 := by
    unfold LeafPage.GetSize
    rw [hlen2]
    push_cast
    ring
  rw [this]

theorem cmpInt_pos_iff (a b : Int) : (0 < cmpInt a b) ↔ b < a := by
  unfold cmpInt
  by_cases h1 : a < b
  · rw [if_pos h1]; omega
  · rw [if_neg h1]
    by_cases h2 : b < a
    · rw [if_pos h2]; omega
    · rw [if_neg h2]; omega

theorem cmpInt_neg_iff (a b : Int) : (cmpInt a b < 0) ↔ a < b := by
  unfold cmpInt
  by_cases h1 : a < b
  · rw [if_pos h1]; omega
  · rw [if_neg h1]
    by_cases h2 : b < a
    · rw [if_pos h2]; omega
    · rw [if_neg h2]; omega

/-- Routing characterization of internal `Lookup`: it returns the child at
the unique index whose separator interval contains `key`. -/
theorem Lookup_spec (p : InternalPage) (key : Int)
    (hlen : 1 ≤ p.array.length) (hsort : SortedKeysI p.array) :
    ∃ c : Nat, c < p.array.length ∧ p.Lookup key = (p.array.getD c (0, 0)).2 ∧
      (∀ j : Nat, 1 ≤ j → j ≤ c → (p.array.getD j (0, 0)).1 ≤ key) ∧
      (∀ j : Nat, c < j → j < p.array.length → key < (p.array.getD j (0, 0)).1) := by
  have hsz : p.GetSize = (p.array.length : Int) := rfl
  have hkat : ∀ j : Int, 0 ≤ j → j < (p.array.length : Int) →
      p.KeyAt j = (p.array.getD j.toNat (0, 0)).1 := by
    intro j hj0 hj
    rw [InternalPage.KeyAt, if_pos ⟨hj0, by omega⟩]
  by_cases h1 : p.GetSize = 1
  · refine ⟨0, by omega, ?_, ?_, ?_⟩
    · rw [InternalPage.Lookup, if_pos h1, InternalPage.ValueAt, if_pos ⟨le_refl 0, by omega⟩]
      rfl
    · intro j hj1 hj2; omega
    · intro j hj1 hj2
      have : p.array.length = 1 := by omega
      omega
  · have hlen2 : 2 ≤ p.array.length := by omega
    by_cases h2 : cmpInt key (p.KeyAt 1) < 0
    · have hk1 : key < (p.array.getD 1 (0, 0)).1 := by
        rw [cmpInt_neg_iff, hkat 1 (by omega) (by omega), Int.toNat_one] at h2
        exact h2
      refine ⟨0, by omega, ?_, ?_, ?_⟩
      · rw [InternalPage.Lookup, if_neg h1, if_pos h2, InternalPage.ValueAt,
          if_pos ⟨le_refl 0, by omega⟩]
        rfl
      · intro j hj1 hj2; omega
      · intro j hj1 hj2
        rcases Nat.eq_or_lt_of_le hj1 with he | hlt
        · rw [← he]; exact hk1
        · exact lt_trans hk1 (hsort 1 j (by omega) hlt hj2)
    · have hk1le : (p.array.getD 1 (0, 0)).1 ≤ key := by
        rw [cmpInt_neg_iff, hkat 1 (by omega) (by omega), Int.toNat_one] at h2
        omega
      have hmono : ∀ i j : Int, 1 ≤ i → i ≤ j → j < (p.array.length : Int) →
          (fun mid => decide (0 < cmpInt (p.KeyAt mid) key)) i = true →
          (fun mid => decide (0 < cmpInt (p.KeyAt mid) key)) j = true := by
        intro i j hi hij hj hp
        simp only [decide_eq_true_eq] at hp ⊢
        rw [cmpInt_pos_iff, hkat i (by omega) (by omega)] at hp
        rw [cmpInt_pos_iff, hkat j (by omega) hj]
        rcases Int.lt_or_le i j with hlt | hle
        · exact lt_of_lt_of_le hp
            (le_of_lt (hsort i.toNat j.toNat (by omega) (by omega) (by omega)))
        · have he : i = j := by omega
          rw [← he]; exact hp
      have hloop := lowerLoop_spec _ 1 (p.array.length : Int) hmono
        p.array.length 1 (p.GetSize - 1) p.GetSize
        (by omega) (by omega) (by omega) (by omega) (by omega)
        (fun j hj1 hj2 => absurd hj2 (by omega))
        (fun j hj1 hj2 => absurd hj1 (by omega))
      obtain ⟨hg1, hg2, hg3, hg4⟩ := hloop
      set res := lowerLoop (fun mid => decide (0 < cmpInt (p.KeyAt mid) key))
        1 (p.GetSize - 1) p.GetSize with hres
      have hres2 : 2 ≤ res := by
        rcases Int.lt_or_le res 2 with hlt | hle
        · exfalso
          have h14 := hg4 1 (by omega) (by omega)
          simp only [decide_eq_true_eq] at h14
          rw [cmpInt_pos_iff, hkat 1 (by omega) (by omega), Int.toNat_one] at h14
          omega
        · exact hle
      refine ⟨(res - 1).toNat, by omega, ?_, ?_, ?_⟩
      · rw [InternalPage.Lookup, if_neg h1, if_neg h2, InternalPage.ValueAt,
          if_pos ⟨by omega, by omega⟩]
      · intro j hj1 hj2
        have hj3 := hg3 (j : Int) (by omega) (by omega)
        simp only [decide_eq_false_iff_not] at hj3
        rw [cmpInt_pos_iff, hkat (j : Int) (by omega) (by omega), Int.toNat_natCast] at hj3
        omega
      · intro j hj1 hj2
        have hj4 := hg4 (j : Int) (by omega) (by omega)
        simp only [decide_eq_true_eq] at hj4
        rw [cmpInt_pos_iff, hkat (j : Int) (by omega) (by omega), Int.toNat_natCast] at hj4
        exact hj4

/-- Every key of a well-formed subtree lies in the subtree's interval. -/
theorem subtreeKeys_bounds (nodes : List (Int × BTNode)) :
    ∀ fl : Nat, ∀ pid : Int, ∀ lo hi : Option Int, SubtreeWF nodes pid lo hi →
      ∀ k ∈ subtreeKeys nodes fl pid, InLB lo k ∧ InUB hi k := by
  intro fl
  induction fl with
  | zero =>
    intro pid lo hi hwf k hk
    exact absurd hk (by simp [subtreeKeys])
  | succ fl ih =>
    intro pid lo hi hwf k hk
    cases hwf with
    | leaf pid lo hi lp hlk hsort hb =>
      rw [subtreeKeys, hlk] at hk
      obtain ⟨e, he, hek⟩ := List.mem_map.mp hk
      rw [← hek]
      exact hb e he
    | internal pid lo hi ip hlk hlen hsort hb hch =>
      rw [subtreeKeys, hlk] at hk
      obtain ⟨c, hc, hkc⟩ := List.mem_flatMap.mp hk
      obtain ⟨e, he, hec⟩ := List.mem_map.mp hc
      obtain ⟨j, hj, hje⟩ := List.getElem_of_mem he
      have hgd : (ip.array.getD j (0, 0)).2 = c := by
        rw [List.getD_eq_getElem _ _ hj, hje, hec]
      have hsub := ih _ _ _ (hch j hj) k (by rw [hgd]; exact hkc)
      obtain ⟨hl, hu⟩ := hsub
      constructor
      · by_cases hj0 : j = 0
        · rw [childLB, if_pos hj0] at hl
          exact hl
        · rw [childLB, if_neg hj0] at hl
          have hbj := (hb j (by omega) hj).1
          cases lo with
          | none => exact trivial
          | some a =>
            have hl2 : (ip.array.getD j (0, 0)).1 ≤ k := hl
            have hbj2 : a ≤ (ip.array.getD j (0, 0)).1 := hbj
            exact le_trans hbj2 hl2
      · by_cases hjl : j + 1 < ip.array.length
        · rw [childUB, if_pos hjl] at hu
          have hbj := (hb (j + 1) (by omega) hjl).2
          cases hi with
          | none => exact trivial
          | some b =>
            have hu2 : k < (ip.array.getD (j + 1) (0, 0)).1 := hu
            have hbj2 : (ip.array.getD (j + 1) (0, 0)).1 < b := hbj
            exact lt_trans hu2 hbj2
        · rw [childUB, if_neg hjl] at hu
          exact hu

/-- Descent correctness of `FindLeaf`: on a well-formed subtree containing
`key`, the loop reaches a sorted leaf that contains `key`. -/
theorem findLeaf_contains (nodes : List (Int × BTNode)) (key : Int) :
    ∀ fl : Nat, ∀ pid : Int, ∀ lo hi : Option Int,
      SubtreeWF nodes pid lo hi → key ∈ subtreeKeys nodes fl pid →
      ∃ lpid lp, findLeafLoop nodes key fl pid = some (lpid, lp) ∧
        nodes.lookup lpid = some (BTNode.leaf lp) ∧ SortedKeys lp.array ∧
        ∃ m, m < lp.array.length ∧ (lp.array.getD m (0, 0)).1 = key := by
  intro fl
  induction fl with
  | zero =>
    intro pid lo hi hwf hk
    exact absurd hk (by simp [subtreeKeys])
  | succ fl ih =>
    intro pid lo hi hwf hk
    cases hwf with
    | leaf pid lo hi lp hlk hsort hb =>
      rw [subtreeKeys, hlk] at hk
      obtain ⟨e, he, hek⟩ := List.mem_map.mp hk
      obtain ⟨m, hm, hme⟩ := List.getElem_of_mem he
      refine ⟨pid, lp, ?_, hlk, hsort, m, hm, ?_⟩
      · simp only [findLeafLoop, hlk]
      · rw [List.getD_eq_getElem _ _ hm, hme, hek]
    | internal pid lo hi ip hlk hlen hsort hb hch =>
      rw [subtreeKeys, hlk] at hk
      obtain ⟨c0, hc0, hkc0⟩ := List.mem_flatMap.mp hk
      obtain ⟨e, he, hec⟩ := List.mem_map.mp hc0
      obtain ⟨j, hj, hje⟩ := List.getElem_of_mem he
      have hgd : (ip.array.getD j (0, 0)).2 = c0 := by
        rw [List.getD_eq_getElem _ _ hj, hje, hec]
      obtain ⟨hbl, hbu⟩ := subtreeKeys_bounds nodes fl _ _ _ (hch j hj) key
        (by rw [hgd]; exact hkc0)
      obtain ⟨c, hc, heq, hle, hgt⟩ := Lookup_spec ip key hlen hsort
      have hjc : j = c := by
        rcases Nat.lt_trichotomy j c with hlt | heq2 | hgt2
        · exfalso
          have hub : j + 1 < ip.array.length := by omega
          rw [childUB, if_pos hub] at hbu
          have h1 : key < (ip.array.getD (j + 1) (0, 0)).1 := hbu
          have h2 := hle (j + 1) (by omega) (by omega)
          omega
        · exact heq2
        · exfalso
          have hj0 : ¬(j = 0) := by omega
          rw [childLB, if_neg hj0] at hbl
          have h1 : (ip.array.getD j (0, 0)).1 ≤ key := hbl
          have h2 := hgt j (by omega) hj
          omega
      have hstep : findLeafLoop nodes key (Nat.succ fl) pid =
          findLeafLoop nodes key fl ((ip.array.getD j (0, 0)).2) := by
        simp only [findLeafLoop, hlk]
        rw [heq, hjc]
      rw [hstep, hgd]
      exact ih c0 _ _ (by rw [← hgd]; exact hch j hj) hkc0

end BPT

/-- **C3.** Unique keys: on a sorted leaf already containing `key`, leaf
`Insert` returns `-1` and leaves the page unchanged; on a sorted leaf without
`key` it inserts at the binary-search position (all earlier entries below,
all later entries above) and returns the new size; and tree-level `Insert`
on a well-formed tree containing `tkey` returns `false` with the whole tree
state unchanged. -/
theorem C3_insert_unique_keys (p : BPT.LeafPage) (key : Int) (value : Nat)
    (hs : BPT.SortedKeys p.array)
    (t : BPT.BTree) (fuel : Nat) (tkey : Int) (tvalue : Nat)
    (hroot : t.root_page_id ≠ BPM.INVALID_PAGE_ID)
    (hwf : BPT.SubtreeWF t.nodes t.root_page_id none none)
    (hcont : tkey ∈ BPT.subtreeKeys t.nodes fuel t.root_page_id) :
    ((∃ m, m < p.array.length ∧ (p.array.getD m (0, 0)).1 = key) →
      p.Insert key value = (-1, p)) ∧
    ((∀ e ∈ p.array, e.1 ≠ key) →
      p.Insert key value = (p.GetSize + 1,
        { p with array := p.array.take (p.KeyIndex key).toNat ++
            (key, value) :: p.array.drop (p.KeyIndex key).toNat }) ∧
      (∀ e ∈ p.array.take (p.KeyIndex key).toNat, e.1 < key) ∧
      (∀ e ∈ p.array.drop (p.KeyIndex key).toNat, key < e.1)) ∧
    t.Insert tkey tvalue fuel = some (false, t) := by
  refine ⟨fun hm => BPT.leaf_insert_dup p key value hs hm,
    fun habs => BPT.leaf_insert_absent p key value hs habs, ?_⟩
  obtain ⟨lpid, lp, hfl, hlk, hsort, hm⟩ :=
    BPT.findLeaf_contains t.nodes tkey fuel t.root_page_id none none hwf hcont
  have hdup := BPT.leaf_insert_dup lp tkey tvalue hsort hm
  have hfl2 : t.FindLeaf tkey fuel = some (lpid, lp) := hfl
  simp only [BPT.BTree.Insert, if_neg hroot, hfl2, hdup, if_true]

theorem C3_insert_unique_keys_witness :
    ((∃ m, m < lpC3.array.length ∧ (lpC3.array.getD m (0, 0)).1 = 5) →
      lpC3.Insert 5 55 = (-1, lpC3)) ∧
    ((∀ e ∈ lpC3.array, e.1 ≠ 5) →
      lpC3.Insert 5 55 = (lpC3.GetSize + 1,
        { lpC3 with array := lpC3.array.take (lpC3.KeyIndex 5).toNat ++
            (5, 55) :: lpC3.array.drop (lpC3.KeyIndex 5).toNat }) ∧
      (∀ e ∈ lpC3.array.take (lpC3.KeyIndex 5).toNat, e.1 < 5) ∧
      (∀ e ∈ lpC3.array.drop (lpC3.KeyIndex 5).toNat, 5 < e.1)) ∧
    tC3.Insert 3 33 1 = some (false, tC3) :=
  C3_insert_unique_keys lpC3 5 55 (by unfold BPT.SortedKeys; decide) tC3 1 3 33 (by decide)
    (BPT.SubtreeWF.leaf 1 none none lpT3 (by rfl) (by unfold BPT.SortedKeys; decide)
      (fun e he => ⟨trivial, trivial⟩))
    (by decide)

/-- **C5.** In `RedistributeOrMerge`, when the left sibling cannot donate
(no left sibling or it sits at minimum) and the right sibling has
`size > min_size`, the right sibling's head entry moves to the node's tail
(`ShiftHeadItemToBack`) and the parent separator at `index + 1` is set to the
right sibling's first key read after the move, i.e. to the right sibling's
new first key `right.array[1]`, not to a key of the current node. -/
theorem C5_borrow_right_separator (t : BPT.BTree) (node right : BPT.LeafPage)
    (parent : BPT.InternalPage) (fl : Nat) (i : Int)
    (hnr : node.IsRootPage = false)
    (hpar : t.nodes.lookup node.parent_page_id = some (BPT.BTNode.internal parent))
    (hidx : parent.ValueIndex node.page_id = i)
    (hleft : i = 0 ∨ ∃ leftlp, t.nodes.lookup (parent.ValueAt (i - 1)) =
      some (BPT.BTNode.leaf leftlp) ∧ ¬(leftlp.GetMinSize < leftlp.GetSize))
    (hi0 : 0 ≤ i)
    (hrt : i < parent.GetSize - 1)
    (hright : t.nodes.lookup (parent.ValueAt (i + 1)) = some (BPT.BTNode.leaf right))
    (hbig : right.GetMinSize < right.GetSize)
    (hmin1 : 1 ≤ right.GetMinSize) :
    ∃ right2 node2, right.ShiftHeadItemToBack node = (right2, node2) ∧
      right2.array = right.array.drop 1 ∧
      node2.array = node.array ++ [right.array.getD 0 (0, 0)] ∧
      t.RedistributeOrMergeL fl node = some { t with nodes := BPT.updNode (BPT.updNode (BPT.updNode t.nodes (parent.ValueAt (i + 1)) (fun _ => BPT.BTNode.leaf right2)) node.page_id (fun _ => BPT.BTNode.leaf node2)) node.parent_page_id (fun _ => BPT.BTNode.internal (parent.SetKeyAt (i + 1) (right2.KeyAt 0))) } ∧
      right2.KeyAt 0 = (right.array.getD 1 (0, 0)).1 ∧
      ((parent.SetKeyAt (i + 1) (right2.KeyAt 0)).array.getD (i + 1).toNat (0, 0)).1 =
        (right.array.getD 1 (0, 0)).1 := by
  have hpos : 0 < right.GetSize := by omega
  have hlen2 : 2 ≤ right.array.length := by
    have : (2 : Int) ≤ right.GetSize := by omega
    unfold BPT.LeafPage.GetSize at this
    omega
  have hshift : right.ShiftHeadItemToBack node =
      ({ right with array := right.array.drop 1 },
       { node with array := node.array ++ [right.array.getD 0 (0, 0)] }) := by
    rw [BPT.LeafPage.ShiftHeadItemToBack, if_neg (by omega)]
  have hbr : BPT.tryBorrowRightL t node parent i = some (some { t with nodes := BPT.updNode (BPT.updNode (BPT.updNode t.nodes (parent.ValueAt (i + 1)) (fun _ => BPT.BTNode.leaf { right with array := right.array.drop 1 })) node.page_id (fun _ => BPT.BTNode.leaf { node with array := node.array ++ [right.array.getD 0 (0, 0)] })) node.parent_page_id (fun _ => BPT.BTNode.internal (parent.SetKeyAt (i + 1) (({ right with array := right.array.drop 1 } : BPT.LeafPage).KeyAt 0))) }) := by
    rw [BPT.tryBorrowRightL, if_pos hrt, hright]
    simp only [if_pos hbig, hshift]
  have hbl : BPT.tryBorrowLeftL t node parent i = some none := by
    rcases hleft with h0 | ⟨leftlp, hlk, hls⟩
    · rw [BPT.tryBorrowLeftL, if_neg (by omega)]
    · by_cases hip : 0 < i
      · rw [BPT.tryBorrowLeftL, if_pos hip, hlk]
        simp only [if_neg hls]
      · rw [BPT.tryBorrowLeftL, if_neg hip]
  have hk0 : ({ right with array := right.array.drop 1 } : BPT.LeafPage).KeyAt 0 =
      (right.array.getD 1 (0, 0)).1 := by
    rw [BPT.LeafPage.KeyAt, if_pos ?_]
    · show ((right.array.drop 1).getD (0 : Int).toNat (0, 0)).1 = (right.array.getD 1 (0, 0)).1
      rw [Int.toNat_zero, List.getD_eq_getElem _ _ (by rw [List.length_drop]; omega),
        List.getD_eq_getElem _ _ (by omega), List.getElem_drop]
    · constructor
      · omega
      · show (0 : Int) < (({ right with array := right.array.drop 1 } : BPT.LeafPage).array.length : Int)
        rw [List.length_drop]
        omega
  refine ⟨_, _, hshift, rfl, rfl, ?_, hk0, ?_⟩
  · rw [BPT.BTree.RedistributeOrMergeL]
    simp only [hnr, Bool.false_eq_true, if_false, hpar, hidx, hbl, hbr]
  · rw [hk0, BPT.InternalPage.SetKeyAt]
    show ((parent.array.set (i + 1).toNat ((right.array.getD 1 (0, 0)).1,
      (parent.array.getD (i + 1).toNat (0, 0)).2)).getD (i + 1).toNat (0, 0)).1 =
      (right.array.getD 1 (0, 0)).1
    have hplen : (i + 1).toNat < parent.array.length := by
      have : parent.GetSize = (parent.array.length : Int) := rfl
      omega
    rw [List.getD_eq_getElem _ _ (by rw [List.length_set]; exact hplen),
      List.getElem_set_self]

theorem C5_borrow_right_separator_witness :
    ∃ right2 node2, rightC5.ShiftHeadItemToBack nodeC5 = (right2, node2) ∧
      right2.array = rightC5.array.drop 1 ∧
      node2.array = nodeC5.array ++ [rightC5.array.getD 0 (0, 0)] ∧
      tC5.RedistributeOrMergeL 5 nodeC5 = some { tC5 with nodes := BPT.updNode (BPT.updNode (BPT.updNode tC5.nodes (parentC5.ValueAt (0 + 1)) (fun _ => BPT.BTNode.leaf right2)) nodeC5.page_id (fun _ => BPT.BTNode.leaf node2)) nodeC5.parent_page_id (fun _ => BPT.BTNode.internal (parentC5.SetKeyAt (0 + 1) (right2.KeyAt 0))) } ∧
      right2.KeyAt 0 = (rightC5.array.getD 1 (0, 0)).1 ∧
      ((parentC5.SetKeyAt (0 + 1) (right2.KeyAt 0)).array.getD ((0 : Int) + 1).toNat (0, 0)).1 =
        (rightC5.array.getD 1 (0, 0)).1 :=
  C5_borrow_right_separator tC5 nodeC5 rightC5 parentC5 5 0 (by decide) (by decide)
    (by decide) (Or.inl rfl) (by decide) (by decide) (by decide) (by decide) (by decide)

/-- **C4 (divergence witness).** With `min_size = ⌈max_size/2⌉` as fixed by
the spec, inserting the distinct keys 1, 2, 3 into an empty tree with
`leaf_max_size = internal_max_size = 3` and removing them in the order
2, 1, 3 leaves `IsEmpty() = false`: the leaf split loop can leave the
original leaf below `min_size`, and the merge step only coalesces a sibling
whose size is exactly `GetMinSize`, so emptied leaves linger under a root
that never collapses. -/
theorem C4_roundtrip_not_empty : c4chain = some false := by
  rfl
